import Mathlib

/-!
# task_proxy: slot table, request framing, dispatch and reaping

A shallow embedding of `src/task_proxy.c`.  The daemon's globals become one
record (`State`); every C function becomes a function on that record.  What
the kernel decides (results of `read`, `accept`, `fork`, `malloc`,
`epoll_ctl`, `waitpid`) is passed in as an explicit argument.  System calls
with an externally visible effect are appended to `State.log`, and the
live registrations of the epoll instance are kept in `State.epoll`.
-/

namespace TaskProxy

/-! ## Constants (`#define`s of the source) -/

/-- Macro `#define REQUESTBUF_SIZE 5100` -/
abbrev REQUESTBUF_SIZE : Int := 5100
/-- Macro `#define MAX_TASKS 16` -/
abbrev MAX_TASKS : Int := 16
/-- Macro `#define ARGV_MAX 16` -/
abbrev ARGV_MAX : Int := 16
/-- Macro `#define CMDLEN 4` -/
abbrev CMDLEN : Int := 4
/-- Macro `#define DELIM '#'` -/
abbrev DELIM : Nat := 35
/-- Macro `#define EXEC "exec"` as a C string (bytes, then the terminating NUL). -/
abbrev EXEC : List Nat := [101, 120, 101, 99, 0]
/-- Macro `#define PIPE "pipe"` as a C string. -/
abbrev PIPE : List Nat := [112, 105, 112, 101, 0]
/-- Macro `#define NRET "nret"` as a C string. -/
abbrev NRET : List Nat := [110, 114, 101, 116, 0]
/-- Macro `#define RETURN_MARK "####"` without its terminating NUL
(`sizeof RETURN_MARK - 1` bytes are copied). -/
abbrev RETURN_MARK : List Nat := [35, 35, 35, 35]
/-- Value `EXECID` of the anonymous `enum`. -/
abbrev EXECID : Nat := 0
/-- Value `PIPEID` of the anonymous `enum`. -/
abbrev PIPEID : Nat := 1
/-- Value `NRETID` of the anonymous `enum`. -/
abbrev NRETID : Nat := 2

/-! ## State -/

/-- System calls whose effect is visible outside the daemon, and the two
internal calls the claims speak about. -/
inductive Effect where
  /-- Call `close(fd)` -/
  | close (fd : Int)
  /-- Call `write(fd, bytes, bytes.length)` -/
  | write (fd : Int) (bytes : List Nat)
  /-- Call `fork()`, which returned `ret` -/
  | fork (ret : Int)
  /-- Call `dup2(fd, newfd)` in the child -/
  | dup2 (fd : Int) (newfd : Int)
  /-- Call `execvp(argv[0], argv)` in the child, after `split_request`;
  `buf` is the buffer as split, `argv` the offsets stored before the NULL -/
  | execvp (type : Nat) (buf : List Nat) (argv : List Int)
  /-- Call `client_after_read(i, buf, l)` (entry of the function) -/
  | after_read (i : Int) (buf : List Nat) (l : Int)
  deriving DecidableEq, Repr

/-- The globals of `task_proxy.c`.  Arrays are total maps on `int` indices;
only the cells `0 .. MAX_TASKS-1` exist in the C program.  A `struct taskbuf`
is the list of its first `len` bytes (`len` is the list's length), `none` is
the NULL pointer.  `epoll` holds the live registrations of client sockets
with `epollfd`, those whose socket the daemon has open: pairs
`(fd, ev.data.fd)`.  A registration that outlives the close of its socket in
the daemon is not in the list; `Event.admissible` allows for its events.
`log` has the most recent call first. -/
structure State where
  pid_count : Int
  task_count : Int
  task_pids : Int → Int
  task_socks : Int → Int
  task_buf : Int → Option (List Nat)
  avaliable_list : Int
  epoll : List (Int × Int)
  log : List Effect

/-- Number of `fork` calls recorded in the log. -/
def fork_calls (s : State) : Nat :=
  s.log.countP (fun e => match e with | .fork _ => true | _ => false)

/-- The `client_after_read` calls recorded in the log, oldest first, as
`(i, buf, l)`. -/
def after_read_calls (s : State) : List (Int × List Nat × Int) :=
  s.log.reverse.filterMap (fun e => match e with | .after_read i buf l => some (i, buf, l) | _ => none)

/-- The `write` calls recorded in the log, oldest first, as `(fd, bytes)`. -/
def write_calls (s : State) : List (Int × List Nat) :=
  s.log.reverse.filterMap (fun e => match e with | .write fd bs => some (fd, bs) | _ => none)

/-- Zero-initialised globals, before `main` runs. -/
def State.zero : State :=
  { pid_count := 0, task_count := 0, task_pids := fun _ => 0, task_socks := fun _ => 0,
    task_buf := fun _ => none, avaliable_list := 0, epoll := [], log := [] }

/-! ## Slot table -/

/-- System call `close(fd)`: the registration of `fd` is no longer live.  The
kernel drops it from the interest list unless a child holds the socket. -/
def sys_close (s : State) (fd : Int) : State :=
  { s with epoll := s.epoll.filter (fun e => e.1 != fd), log := Effect.close fd :: s.log }

/-- Function `task_getbuf(i)` -/
def task_getbuf (s : State) (i : Int) : Option (List Nat) := s.task_buf i

/-- Function `task_freebuf(i)` -/
def task_freebuf (s : State) (i : Int) : State :=
  if (s.task_buf i).isSome then { s with task_buf := Function.update s.task_buf i none } else s

/-- Function `task_prepare()`: the loop over `i = 0 .. MAX_TASKS-1` written as one
update of each array. -/
def task_prepare (s : State) : State :=
  { s with
    task_pids := fun i => if 0 ≤ i ∧ i < MAX_TASKS then -i - 1 else s.task_pids i
    task_socks := fun i => if 0 ≤ i ∧ i < MAX_TASKS then -1 else s.task_socks i
    task_buf := fun i => if 0 ≤ i ∧ i < MAX_TASKS then none else s.task_buf i
    avaliable_list := 0
    pid_count := 0
    task_count := 0 }

/-- Function `task_get()`: the new state and the returned index (`-1`: no free node). -/
def task_get (s : State) : State × Int :=
  let i := -s.avaliable_list
  if i = MAX_TASKS then (s, -1)
  else
    ({ s with
        avaliable_list := s.task_pids i
        task_socks := Function.update s.task_socks i (-1)
        task_count := s.task_count + 1 }, i)

/-- Function `task_put(i)` -/
def task_put (s : State) (i : Int) : State :=
  let s1 : State :=
    { s with
      task_count := s.task_count - 1
      task_pids := Function.update s.task_pids i s.avaliable_list
      avaliable_list := -i }
  let s2 := if s1.task_socks i > 0 then sys_close s1 (s1.task_socks i) else s1
  let s3 : State := { s2 with task_socks := Function.update s2.task_socks i (-1) }
  if (s3.task_buf i).isSome then task_freebuf s3 i else s3

/-- The scan of `task_find` from index `i`, `n` cells left. -/
def task_find_from (p : Int → Int) (pid : Int) : Nat → Int → Int
  | 0, _ => -1
  | n + 1, i => if p i = pid then i else task_find_from p pid n (i + 1)

/-- Function `task_find(pid)` -/
def task_find (s : State) (pid : Int) : Int :=
  task_find_from s.task_pids pid MAX_TASKS.toNat 0

/-- The chain of slots that starts at index `i` and follows the links
`-task_pids[i]` until index `MAX_TASKS`; `none` when the walk leaves
`[0, MAX_TASKS]` or does not end within `fuel` steps. -/
def chain_from (p : Int → Int) : Nat → Int → Option (List Int)
  | 0, _ => none
  | fuel + 1, i =>
    if i = MAX_TASKS then some []
    else if 0 ≤ i ∧ i < MAX_TASKS then (chain_from p fuel (-(p i))).map (fun l => i :: l)
    else none

/-- The free list: the chain that starts at `-avaliable_list`.  A chain
without repetition has at most `MAX_TASKS` slots, so `MAX_TASKS + 1` steps
reach the end of every acyclic chain. -/
def free_chain (s : State) : Option (List Int) :=
  chain_from s.task_pids (MAX_TASKS.toNat + 1) (-s.avaliable_list)

/-! ## Request parser -/

/-- The byte `buf[k]`; cells never written read as 0. -/
def byte_at (buf : List Nat) (k : Int) : Nat :=
  if k < 0 then 0 else buf.getD k.toNat 0

/-- Library function `strncmp(a, b, n)` on C strings held in lists (a list that ends is
followed by NUL bytes): the difference of the first bytes that differ, 0 when
the first `n` bytes agree or both strings end earlier. -/
def strncmp : List Nat → List Nat → Nat → Int
  | _, _, 0 => 0
  | a, b, n + 1 =>
    if a.headD 0 ≠ b.headD 0 then (a.headD 0 : Int) - (b.headD 0 : Int)
    else if a.headD 0 = 0 then 0
    else strncmp a.tail b.tail n

/-- The `strncmp` cascade of `client_after_read` that sets `type`;
`none` is the final `else` branch (wrong request). -/
def classify (buf : List Nat) : Option Nat :=
  if strncmp buf EXEC CMDLEN.toNat = 0 then some EXECID
  else if strncmp buf NRET CMDLEN.toNat = 0 then some NRETID
  else if strncmp buf PIPE CMDLEN.toNat = 0 then some PIPEID
  else none

/-- The `for` loop of `split_request` from index `i` on: the list argument is
`buf[i ..]`, `argv` holds the offsets stored so far (`j` is its length).
Returns the rewritten `buf[i ..]` and the final `argv[0 .. j)`. -/
def split_loop (l argc : Int) : List Nat → Int → List Int → List Nat × List Int
  | [], _, argv => ([], argv)
  | b :: rest, i, argv =>
    if i < l ∧ (argv.length : Int) < argc - 1 then
      if b = DELIM then
        let r := split_loop l argc rest (i + 1) (if i + 1 < l then argv ++ [i + 1] else argv)
        (0 :: r.1, r.2)
      else
        let r := split_loop l argc rest (i + 1) argv
        (b :: r.1, r.2)
    else (b :: rest, argv)

/-- Function `split_request(buf, l, argv, argc)`: the buffer afterwards and the
pointers `argv[0 .. j)` as offsets into it; `argv[j]` is NULL. -/
def split_request (buf : List Nat) (l argc : Int) : List Nat × List Int :=
  split_loop l argc buf 0 []

/-- The C string that starts at offset `o` of `buf`: the bytes up to the
first NUL. -/
def cstr (buf : List Nat) (o : Int) : List Nat :=
  (buf.drop o.toNat).takeWhile (fun b => b != 0)

/-- Offsets `p + 1` of the bytes that follow a delimiter at position `p`,
for the bytes `buf[i ..]` given as a list. -/
def delim_offsets : List Nat → Int → List Int
  | [], _ => []
  | b :: rest, i => if b = DELIM then (i + 1) :: delim_offsets rest (i + 1)
    else delim_offsets rest (i + 1)

/-- A buffer with every delimiter replaced by NUL. -/
def undelim (buf : List Nat) : List Nat := buf.map (fun b => if b = DELIM then 0 else b)

/-! ## Client I/O -/

/-- What one call of `read` on the client socket gives. -/
inductive ReadResult where
  /-- bytes are queued; `read` returns as many of them as were asked for -/
  | data (bs : List Nat)
  /-- the peer closed: `read` returns 0 -/
  | eof
  /-- The call `read` returns -1 with `EAGAIN` / `EWOULDBLOCK` -/
  | again
  /-- The call `read` returns -1 with another `errno` -/
  | err
  deriving DecidableEq, Repr

/-- How the `while` loop of `client_readbuf` was left. -/
structure LoopEnd where
  /-- the bytes `buf[0 .. l)` -/
  buf : List Nat
  /-- the last value of `ret` -/
  ret : Int
  /-- Whether `errno` was `EAGAIN` or `EWOULDBLOCK` at the last `read` -/
  eagain : Bool

/-- The `while (size - l > 0)` loop of `client_readbuf`; `reads` are the
results of the successive `read` calls (would-block once they are used up),
`buf` the bytes stored so far, `ret` the previous value of `ret`. -/
def read_loop (size : Int) : List ReadResult → List Nat → Int → LoopEnd
  | [], buf, ret =>
    if size - buf.length > 0 then { buf := buf, ret := -1, eagain := true }
    else { buf := buf, ret := ret, eagain := false }
  | r :: rest, buf, ret =>
    if size - buf.length > 0 then
      match r with
      | .again => { buf := buf, ret := -1, eagain := true }
      | .err => { buf := buf, ret := -1, eagain := false }
      | .eof => { buf := buf, ret := 0, eagain := false }
      | .data bs =>
        let got := bs.take (size - buf.length).toNat
        if got.length = 0 then { buf := buf, ret := 0, eagain := false }
        else read_loop size rest (buf ++ got) got.length
    else { buf := buf, ret := ret, eagain := false }

/-- Function `client_readbuf(cl, buf, size)`: the returned value and the bytes stored
in `buf` (from offset 0 of the pointer passed). -/
def client_readbuf (reads : List ReadResult) (size : Int) : Int × List Nat :=
  if size ≤ 0 then (-1, [])
  else
    let e := read_loop size reads [] 0
    if e.ret < 0 ∧ e.eagain = false then (-1, e.buf)
    else
      let l : Int := e.buf.length
      let buf1 :=
        if e.ret = 0 ∧ l + 1 ≤ size ∧ l - 1 ≥ 0 ∧ byte_at e.buf (l - 1) ≠ 0 then e.buf ++ [0]
        else e.buf
      let l1 : Int := buf1.length
      if size - l1 = 0 ∧ byte_at buf1 (l1 - 1) ≠ 0 then (-1, buf1) else (l1, buf1)

/-- The bytes a sequence of `read` results offers before the first result
that is not data (a data result without bytes is a `read` that returns 0). -/
def delivered : List ReadResult → List Nat
  | .data bs :: rest => if bs.length = 0 then [] else bs ++ delivered rest
  | _ => []

/-- The first result that is not data: what `read` answers once the offered
bytes are consumed. -/
def read_end : List ReadResult → ReadResult
  | [] => .again
  | .data bs :: rest => if bs.length = 0 then .eof else read_end rest
  | r :: _ => r

/-- What the kernel answers while one client event is handled. -/
structure ClientEnv where
  /-- results of the `read` calls on the client socket -/
  reads : List ReadResult
  /-- Whether `malloc` returns a block -/
  malloc_ok : Bool
  /-- Whether `epoll_ctl(EPOLL_CTL_DEL)` succeeds -/
  del_ok : Bool
  /-- value returned by `fork` -/
  fork_ret : Int

/-- Function `task_allocbuf(i)` (compiled without `NDEBUG`): a fresh block, whose
`len` is not yet meaningful, unless the slot already has one. -/
def task_allocbuf (s : State) (i : Int) (malloc_ok : Bool) : State :=
  if (s.task_buf i).isSome then s
  else { s with task_buf := Function.update s.task_buf i (if malloc_ok then some [] else none) }

/-- Function `exec_process(fd, type, buf, len)`, run in the child. -/
def exec_process (s : State) (fd : Int) (type : Nat) (buf : List Nat) (len : Int) : State :=
  let s1 := sys_close s fd
  let r := split_request buf len ARGV_MAX
  { s1 with log := Effect.execvp type r.1 r.2 :: s1.log }

/-- Function `pipe_process(fd, type, buf, len)`, run in the child. -/
def pipe_process (s : State) (fd : Int) (type : Nat) (buf : List Nat) (len : Int) : State :=
  let r := split_request buf len ARGV_MAX
  { s with log := Effect.execvp type r.1 r.2 :: Effect.dup2 fd 1 :: s.log }

/-- The part of `client_after_read` after `pid_t pid = fork();`: `s` is the
state at the call of `fork`, `cl` the local copy of the client fd, `pid`
the value `fork` returned. -/
def after_fork (s : State) (i cl : Int) (type : Nat) (buf : List Nat) (l pid : Int) : State :=
  let s2 : State := { s with log := Effect.fork pid :: s.log }
  if pid < 0 then task_put s2 i
  else if pid > 0 then
    let s3 : State := { s2 with pid_count := s2.pid_count + 1 }
    let s4 := task_freebuf s3 i
    let s5 : State := { s4 with task_pids := Function.update s4.task_pids i pid }
    if type = EXECID then s5
    else
      let s6 := sys_close s5 (s5.task_socks i)
      { s6 with task_socks := Function.update s6.task_socks i (-1) }
  else if type = PIPEID then pipe_process s2 cl type buf l
  else exec_process s2 cl type buf l

/-- Function `client_after_read(i, buf, l)` -/
def client_after_read (s : State) (i : Int) (buf : List Nat) (l : Int) (env : ClientEnv) :
    State :=
  let s0 : State := { s with log := Effect.after_read i buf l :: s.log }
  let cl := s0.task_socks i
  if l < CMDLEN + 1 then task_put s0 i
  else if env.del_ok = false then task_put s0 i
  else
    let s1 : State := { s0 with epoll := s0.epoll.filter (fun e => e.1 != cl) }
    match classify buf with
    | none => task_put s1 i
    | some type => after_fork s1 i cl type buf l env.fork_ret

/-- Function `client_process(i)` -/
def client_process (s : State) (i : Int) (env : ClientEnv) : State :=
  match task_getbuf s i with
  | none =>
    let r := client_readbuf env.reads REQUESTBUF_SIZE
    let l := r.1
    if l ≤ 0 then task_put s i
    else if byte_at r.2 (l - 1) ≠ 0 then
      let s1 := task_allocbuf s i env.malloc_ok
      if (s1.task_buf i).isNone ∨ REQUESTBUF_SIZE < l then task_put s1 i
      else { s1 with task_buf := Function.update s1.task_buf i (some (r.2.take l.toNat)) }
    else client_after_read s i r.2 l env
  | some b =>
    let r := client_readbuf env.reads (REQUESTBUF_SIZE - b.length)
    let l := r.1
    if l < 0 then task_put s i
    else
      let b1 := if l = 0 ∧ (b.length : Int) < REQUESTBUF_SIZE then b ++ [0] else b
      let b2 := b1 ++ r.2.take l.toNat
      let s1 : State := { s with task_buf := Function.update s.task_buf i (some b2) }
      if byte_at b2 ((b2.length : Int) - 1) ≠ 0 then s1
      else client_after_read s1 i b2 b2.length env

/-- The handler's environment for a readable event that finds the bytes `c`
queued on the socket and nothing after them: the first `read` returns `c`
(or as much of it as fits), the next one would block. -/
def chunk_env (env : ClientEnv) (c : List Nat) : ClientEnv :=
  { env with reads := [.data c, .again] }

/-- Successive readable events on slot `i`, one per chunk.  Events stop
after the one that leaves the slot without a pending buffer: the request was
then dispatched or the slot released, and the socket is out of the epoll
set. -/
def deliver (s : State) (i : Int) (env : ClientEnv) : List (List Nat) → State
  | [] => s
  | c :: cs =>
    if (client_process s i (chunk_env env c)).task_buf i = none then
      client_process s i (chunk_env env c)
    else deliver (client_process s i (chunk_env env c)) i env cs

/-! ## Reaper -/

/-- The four bytes of the `int32_t` that `(int32_t) v` stores, in the byte
order of the machine (`be`: most significant byte first). -/
def int32_bytes (be : Bool) (v : Int) : List Nat :=
  let w := (v % 4294967296).toNat
  let le := [w % 256, w / 256 % 256, w / 65536 % 256, w / 16777216 % 256]
  if be then le.reverse else le

/-- The `int32_t` read back from four bytes in the byte order of the
machine. -/
def int32_of_bytes (be : Bool) (bs : List Nat) : Int :=
  let le := if be then bs.reverse else bs
  let w := le.getD 0 0 + 256 * le.getD 1 0 + 65536 * le.getD 2 0 + 16777216 * le.getD 3 0
  if w < 2147483648 then (w : Int) else (w : Int) - 4294967296

/-- Function `after_wait(pid, status)` -/
def after_wait (be : Bool) (s : State) (pid status : Int) : State :=
  let s1 : State := { s with pid_count := s.pid_count - 1 }
  let i := task_find s1 pid
  if i ≥ 0 then
    let s2 : State :=
      if s1.task_socks i > 0 then
        { s1 with
          log := Effect.write (s1.task_socks i) (RETURN_MARK ++ int32_bytes be status) :: s1.log }
      else s1
    task_put s2 i
  else s1

/-- The `while (1)` loop of `sfd_process`; `waits` are the successive results
`(pid, status)` of `waitpid(-1, &status, WNOHANG)`, -1 once they are used
up. -/
def wait_loop (be : Bool) (s : State) : List (Int × Int) → State
  | [] => s
  | w :: rest => if w.1 > 0 then wait_loop be (after_wait be s w.1 w.2) rest else s

/-- Function `sfd_process(sfd)`; `read_ok`: the `read` of the signal fd returned a
whole `signalfd_siginfo`. -/
def sfd_process (be : Bool) (s : State) (read_ok : Bool) (waits : List (Int × Int)) : State :=
  if read_ok = false then s else wait_loop be s waits

/-! ## Event loop -/

/-- Function `server_sock_process(fd)`; `cl` is what `accept` returns, `fcntl_ok` and
`add_ok` tell whether the `fcntl` pair and `epoll_ctl(EPOLL_CTL_ADD)`
succeed. -/
def server_sock_process (s : State) (cl : Int) (fcntl_ok add_ok : Bool) : State :=
  let r := task_get s
  let i := r.2
  if i < 0 then r.1
  else if cl < 0 then task_put r.1 i
  else
    let s1 : State := { r.1 with task_socks := Function.update r.1.task_socks i cl }
    if fcntl_ok = false then task_put s1 i
    else if add_ok = false then task_put s1 i
    else { s1 with epoll := (cl, -i) :: s1.epoll }

/-- One entry of the array filled by `epoll_wait`, told apart by
`data.fd` as `main` does, with the kernel's answers for its handler. -/
inductive Event where
  /-- Case `data.fd == sfd` -/
  | signal (read_ok : Bool) (waits : List (Int × Int))
  /-- Case `data.fd == server_sock` -/
  | listener (cl : Int) (fcntl_ok add_ok : Bool)
  /-- any other `data.fd`; `epollerr`: `events & EPOLLERR` is set -/
  | client (data_fd : Int) (epollerr : Bool) (env : ClientEnv)

/-- The body of the `for` loop of `main` for one event. -/
def main_event (be : Bool) (s : State) : Event → State
  | .signal read_ok waits => sfd_process be s read_ok waits
  | .listener cl fcntl_ok add_ok => server_sock_process s cl fcntl_ok add_ok
  | .client data_fd epollerr env =>
    let cl_i := -data_fd
    if cl_i ≥ 0 then
      if epollerr then task_put s cl_i
      else if s.task_pids cl_i ≤ 0 then client_process s cl_i env
      else s
    else s

/-- One turn of the `while (1)` loop of `main` on the events `epoll_wait`
returned (`[]` also stands for a failed `epoll_wait`). -/
def main_iteration (be : Bool) (s : State) (events : List Event) : State :=
  match events with
  | [.listener cl fcntl_ok add_ok] =>
    if s.avaliable_list = -MAX_TASKS then s
    else main_event be s (.listener cl fcntl_ok add_ok)
  | _ => events.foldl (main_event be) s

/-- Whether the daemon has a child: some `fork` returned a child id.  A
child inherits every client socket that is open at the `fork` (none has
`FD_CLOEXEC`), and a socket that a child holds stays in the interest list of
`epollfd` when the daemon closes its own descriptor. -/
def has_child (s : State) : Bool :=
  s.log.any (fun e => match e with | .fork ret => decide (0 < ret) | _ => false)

/-- An event of a live registration: a client event carries the `data.fd` of
an entry of `epoll`, a registration whose socket the daemon has not closed;
`accept` never returns 0 (descriptor 0 is taken before the listener
exists). -/
def Event.live (s : State) : Event → Prop
  | .signal _ _ => True
  | .listener cl _ _ => cl ≠ 0
  | .client data_fd _ _ => data_fd ∈ s.epoll.map Prod.snd

instance (s : State) (e : Event) : Decidable (e.live s) := by
  cases e <;> unfold Event.live <;> infer_instance

/-- An event the kernel can deliver in state `s`.  `accept` never returns 0.
A client event carries the `data.fd` of a registration made by
`server_sock_process`, the negation of a slot index: either of a live
registration, or, once the daemon has a child, of a stale one.  A stale
registration is one whose socket the daemon closed while it was registered
(a `task_put` that no successful `EPOLL_CTL_DEL` precedes: in
`client_process`, in the `EPOLLERR` branch of `main`, in `client_after_read`
on a short request) and while a child held the inherited socket; the kernel
keeps it and goes on reporting its events.  Which registrations are stale
depends on the children, so every slot index is allowed for. -/
def Event.admissible (s : State) : Event → Prop
  | .signal _ _ => True
  | .listener cl _ _ => cl ≠ 0
  | .client data_fd _ _ =>
    data_fd ∈ s.epoll.map Prod.snd ∨
      (has_child s = true ∧ 0 ≤ -data_fd ∧ -data_fd < MAX_TASKS)

instance (s : State) (e : Event) : Decidable (e.admissible s) := by
  cases e <;> unfold Event.admissible <;> infer_instance

/-- The events of one turn handled in order; `none` when one of them is not
admissible in the state it is handled in. -/
def run_events (be : Bool) : State → List Event → Option State
  | s, [] => some s
  | s, e :: es => if e.admissible s then run_events be (main_event be s e) es else none

/-- The event loop over successive turns, from state `s`; `none` when
some event is not admissible. -/
def main_loop (be : Bool) : State → List (List Event) → Option State
  | s, [] => some s
  | s, evs :: rest =>
    match run_events be s evs with
    | none => none
    | some _ => main_loop be (main_iteration be s evs) rest

/-- The events of one turn handled in order, all of live registrations;
`none` when one of them is not. -/
def run_live (be : Bool) : State → List Event → Option State
  | s, [] => some s
  | s, e :: es => if e.live s then run_live be (main_event be s e) es else none

/-- The event loop over successive turns in which no stale registration
reports an event; `none` when some event is not of a live registration. -/
def live_loop (be : Bool) : State → List (List Event) → Option State
  | s, [] => some s
  | s, evs :: rest =>
    match run_live be s evs with
    | none => none
    | some _ => live_loop be (main_iteration be s evs) rest

/-- The state in which `main` enters its loop: zeroed globals, then
`task_prepare`. -/
def startup : State := task_prepare State.zero

/-! ## Paired use of the slot table -/

/-- What a user of the slot table may do: acquire, release a slot it holds,
and write the three per-slot fields of a slot it holds. -/
inductive Op where
  | get
  | put (i : Int)
  | set_pid (i : Int) (pid : Int)
  | set_sock (i : Int) (fd : Int)
  | set_buf (i : Int) (b : Option (List Nat))

/-- One operation on a table together with the list of slots held (returned
by `task_get` and not put back since).  `none`: the operation breaks the
pairing discipline. -/
def Op.apply (c : State × List Int) : Op → Option (State × List Int)
  | .get =>
    let r := task_get c.1
    some (r.1, if r.2 = -1 then c.2 else r.2 :: c.2)
  | .put i => if i ∈ c.2 then some (task_put c.1 i, c.2.erase i) else none
  | .set_pid i pid =>
    if i ∈ c.2 ∧ 0 < pid then
      some ({ c.1 with task_pids := Function.update c.1.task_pids i pid }, c.2)
    else none
  | .set_sock i fd =>
    if i ∈ c.2 then some ({ c.1 with task_socks := Function.update c.1.task_socks i fd }, c.2)
    else none
  | .set_buf i b =>
    if i ∈ c.2 then some ({ c.1 with task_buf := Function.update c.1.task_buf i b }, c.2)
    else none

/-- A sequence of operations, left to right. -/
def run_ops : List Op → State × List Int → Option (State × List Int)
  | [], c => some c
  | op :: ops, c => (op.apply c).bind (run_ops ops)

/-- The values returned by `n` consecutive calls of `task_get`. -/
def task_get_n : Nat → State → List Int
  | 0, _ => []
  | n + 1, s => (task_get s).2 :: task_get_n n (task_get s).1

/-- Relational reading of `chain_from`: `l` is the chain that starts at `a`. -/
def IsChain (p : Int → Int) : Int → List Int → Prop
  | a, [] => a = MAX_TASKS
  | a, i :: l => a = i ∧ 0 ≤ i ∧ i < MAX_TASKS ∧ IsChain p (-(p i)) l

/-- The slot-table invariant for a table `s`, the slots `held` by users and
the free chain `l`. -/
structure Inv (s : State) (held l : List Int) : Prop where
  chain : IsChain s.task_pids (-s.avaliable_list) l
  nodup : l.Nodup
  mem : ∀ i, i ∈ l ↔ (0 ≤ i ∧ i < MAX_TASKS ∧ i ∉ held)
  held_nodup : held.Nodup
  held_range : ∀ i ∈ held, 0 ≤ i ∧ i < MAX_TASKS
  count : s.task_count = held.length
  total : (l.length : Int) + held.length = MAX_TASKS
  free_sock : ∀ i ∈ l, s.task_socks i = -1
  free_buf : ∀ i ∈ l, s.task_buf i = none

/-- Number of held slots that carry a child id. -/
def launched (s : State) (held : List Int) : Nat :=
  held.countP (fun i => decide (0 < s.task_pids i))

/-- The invariant of the event loop while only live registrations report
events: the slot-table invariant, every live registration belongs to a held
slot that has no child yet and whose client fd is the registered descriptor,
and `pid_count` is at most the number of held slots with a child. -/
structure LoopInv (s : State) (held l : List Int) : Prop where
  inv : Inv s held l
  reg : ∀ e ∈ s.epoll, ∃ i ∈ held, e.2 = -i ∧ s.task_pids i ≤ 0 ∧ s.task_socks i = e.1 ∧ 0 < e.1
  cnt : s.pid_count ≤ launched s held

/-- The READING slots after one operation: `task_get` adds the slot it
returns, `task_put` and the storing of a child id remove the slot. -/
def Op.reading (c : State × List Int) (rd : List Int) : Op → List Int
  | .get => if (task_get c.1).2 = -1 then rd else (task_get c.1).2 :: rd
  | .put i => rd.erase i
  | .set_pid i _ => rd.erase i
  | .set_sock _ _ => rd
  | .set_buf _ _ => rd

/-- The READING slots after a sequence of operations: the slots returned by
`task_get` that were not put back and in which no child id was stored
since; `rd` are those at the start.  Operations after one that breaks the
pairing discipline are not followed. -/
def reading_after : List Op → State × List Int → List Int → List Int
  | [], _, rd => rd
  | op :: ops, c, rd =>
    match op.apply c with
    | none => rd
    | some c2 => reading_after ops c2 (op.reading c rd)

/-- The READING slots `rd` among the held ones: they hold a non-positive
value, the other held slots a child id. -/
structure RdInv (s : State) (held rd : List Int) : Prop where
  nodup : rd.Nodup
  sub : ∀ i ∈ rd, i ∈ held
  nonpos : ∀ i ∈ rd, s.task_pids i ≤ 0
  pos : ∀ i ∈ held, i ∉ rd → 0 < s.task_pids i

/-- No slot that holds a child id has a pending buffer. -/
def NoLaunchedBuf (s : State) : Prop :=
  ∀ i, 0 < s.task_pids i → s.task_buf i = none

end TaskProxy

/-! # `simulate_awk_in_c.c`

C strings are modelled by their content, the bytes before the terminating
NUL; a character array (`line`, `buf`) is the list of its bytes.  Library
functions are modelled by their results: `fgets` by the list of its successive
outcomes, `regcomp`/`regexec` by a function from a pattern to a matcher
(`none` when the pattern does not compile), the callbacks by functions on the
user data. -/

namespace Awk

abbrev AWK_OK : Int := 0
abbrev AWK_CONTINUE : Int := 1
abbrev AWK_BREAK : Int := 2
abbrev AWK_FIELD_OUTOFRANGE : Int := 3
abbrev AWK_LINE_OUTOFRANGE : Int := 4
abbrev AWK_OPEN_FAILED : Int := 5
abbrev AWK_REGCOMP : Int := -1
abbrev AWK_UNMATCH : Int := -2

/-- Function `awk_error(err)`, a `switch` on the code. -/
def awk_error (err : Int) : String :=
  if err = AWK_FIELD_OUTOFRANGE then "fields is too small"
  else if err = AWK_LINE_OUTOFRANGE then "line is too small"
  else if err = AWK_OPEN_FAILED then "open file failed"
  else if err = AWK_REGCOMP then "regcomp failed"
  else "unknown failed"

/-! ## String replacement -/

/-- Value of a C `int` that holds `n` (two's complement, 32 bits). -/
def to_int (n : Int) : Int := (n + 2 ^ 31) % 2 ^ 32 - 2 ^ 31

/-- Library function `strstr(src, old)`: the offset of the first occurrence
of `old` in `src`, `none` for a NULL result. -/
def strstr : List Nat → List Nat → Option Nat
  | [], old => if old = [] then some 0 else none
  | c :: cs, old =>
    if old <+: c :: cs then some 0 else (strstr cs old).map (fun b => b + 1)

/-- Library function `memcpy(&dst[off], src, n)` on a destination array with
at least `off + n` bytes. -/
def memcpy (dst : List Nat) (off : Nat) (src : List Nat) (n : Nat) : List Nat :=
  dst.take off ++ src.take n ++ dst.drop (off + n)

/-- Function `awk_str_replace(src, old, new, buf, bufsize)`: the returned
value and the bytes of `buf` afterwards.  The third `memcpy` reads from
`begin + old_len` in the memory of `src`, terminating NUL included. -/
def awk_str_replace (src old new buf : List Nat) (bufsize : Int) : Int × List Nat :=
  let srclen := to_int src.length
  let old_len := to_int old.length
  let new_len := to_int new.length
  if to_int (to_int (to_int (srclen - old_len) + new_len) + 1) > bufsize then (-1, buf)
  else
    match strstr src old with
    | none => (0, buf)
    | some b =>
      let buf1 := memcpy buf 0 src b
      let buf2 := memcpy buf1 b new new_len.toNat
      let buf3 := memcpy buf2 (b + new_len.toNat) ((src ++ [0]).drop (b + old_len.toNat))
        (srclen + 1 - old_len - b).toNat
      (0, buf3)

/-! ## The line processor -/

/-- The C string that starts at offset `off` of the array `m`. -/
def cstr (m : List Nat) (off : Nat) : List Nat :=
  (m.drop off).takeWhile (fun b => b ≠ 0)

/-- Library function `strcpy(&m[off], s)`. -/
def strcpy (m : List Nat) (off : Nat) (s : List Nat) : List Nat :=
  memcpy m off (s ++ [0]) (s.length + 1)

/-- One outcome of `fgets(line, linesize, stream)`. -/
inductive Fgets where
  /-- A line was stored: its bytes, the terminating NUL excluded. -/
  | line (bs : List Nat)
  /-- NULL at end of file, `errno` left as it is. -/
  | eof
  /-- NULL, `errno` set to `EINTR`. -/
  | eintr
  /-- NULL, `errno` set to another value. -/
  | error
deriving DecidableEq

/-- The `fgets` call returned `line`, not NULL. -/
def Fgets.is_line : Fgets → Bool
  | .line _ => true
  | _ => false

/-- A call of one of the user's callbacks, with the value it returned. -/
inductive Call where
  | fun_begin (ret : Int)
  | fun_action (act_idx row_idx ret : Int)
  | fun_end (row_idx : Int)
deriving DecidableEq

/-- The callback returned a value other than `AWK_CONTINUE`. -/
def Call.stops : Call → Bool
  | .fun_begin ret => ret != AWK_CONTINUE
  | .fun_action _ _ ret => ret != AWK_CONTINUE
  | .fun_end _ => false

/-- The call is a call of `fun_end`. -/
def Call.is_end : Call → Bool
  | .fun_end _ => true
  | _ => false

/-- The `struct awk_st`, with the user data of type `D` that follows it kept
apart.  A NULL callback is `none`; the callbacks get the fields as
strings. -/
structure awk_st (D : Type) where
  pattern_num : Int
  pattern : Int → List Nat
  fun_begin : Option (D → Int × D)
  fun_end : Option (Int → List (List Nat) → Option Int → D → D)
  actions : Int → Option (Int → List (List Nat) → Int → D → Int × D)

/-- The `for` loop of `awk_match`, from pattern `i` on, with `n` iterations
left; `regex p` is `none` when `regcomp` fails on `p`, else the test
`regexec(..) == 0`. -/
def awk_match_loop (regex : List Nat → Option (List Nat → Bool)) (pattern : Int → List Nat)
    (line : List Nat) : Nat → Int → Int
  | 0, _ => AWK_UNMATCH
  | n + 1, i =>
    if pattern i = [] then i
    else
      match regex (pattern i) with
      | none => AWK_REGCOMP
      | some m => if m line then i else awk_match_loop regex pattern line n (i + 1)

/-- Function `awk_match(data, line)`. -/
def awk_match {D : Type} (regex : List Nat → Option (List Nat → Bool)) (data : awk_st D)
    (line : List Nat) : Int :=
  if data.pattern_num = 0 then 0
  else awk_match_loop regex data.pattern line data.pattern_num.toNat 0

/-- Locals of the field scan: index `i`, flag `found`, `field_idx`, the `line`
array and the `fields` array (`none`: the static empty string, `some o`:
`&line[o]`). -/
structure Scan where
  i : Nat
  found : Bool
  field_idx : Int
  line : List Nat
  fields : List (Option Nat)

/-- Macro `ADD_FIELD(found)`; an error is the value `awk__` returns. -/
def ADD_FIELD (fieldnum : Int) (c : Scan) : Except Int Scan :=
  if c.found then
    if c.field_idx ≥ fieldnum then .error AWK_FIELD_OUTOFRANGE
    else .ok { c with
      fields := c.fields.set c.field_idx.toNat (some c.i)
      field_idx := c.field_idx + 1
      found := false }
  else .ok c

/-- The scan `for (i = 0, found = 1; i < linesize && line[i] != 10 && line[i] != 0; i++)`
with `n` iterations left; started with `n = linesize` it stops on its
condition. -/
def scan_loop (delim : List Nat) (linesize fieldnum : Int) : Nat → Scan → Except Int Scan
  | 0, c => .ok c
  | n + 1, c =>
    if (c.i : Int) < linesize ∧ c.line.getD c.i 0 ≠ 10 ∧ c.line.getD c.i 0 ≠ 0 then
      match ADD_FIELD fieldnum c with
      | .error e => .error e
      | .ok c1 =>
        let c2 : Scan :=
          if c1.line.getD c1.i 0 ∈ delim then { c1 with line := c1.line.set c1.i 0, found := true }
          else c1
        scan_loop delim linesize fieldnum n { c2 with i := c2.i + 1 }
    else .ok c

/-- The field splitting of one line in `awk__`, from the reset of `fields`
to the last `ADD_FIELD`: the `line` array, the `fields` array and `field_idx`
afterwards, or the value `awk__` returns. -/
def split_line (delim : List Nat) (linesize fieldnum : Int) (field0_used : Bool)
    (line : List Nat) : Except Int (List Nat × List (Option Nat) × Int) :=
  let fields : List (Option Nat) := List.replicate fieldnum.toNat none
  if delim ≠ [] then
    let l := (cstr line 0).length
    if field0_used = true ∧ (l : Int) * 2 > linesize - 2 then .error AWK_LINE_OUTOFRANGE
    else
      let line1 := if field0_used then strcpy line (l + 1) (cstr line 0) else line
      let fields1 := if field0_used then fields.set 0 (some (l + 1)) else fields
      match scan_loop delim linesize fieldnum linesize.toNat ⟨0, true, 1, line1, fields1⟩ with
      | .error e => .error e
      | .ok c =>
        if (c.i : Int) = linesize then .error AWK_LINE_OUTOFRANGE
        else
          match ADD_FIELD fieldnum { c with line := c.line.set c.i 0 } with
          | .error e => .error e
          | .ok c1 => .ok (c1.line, c1.fields, c1.field_idx)
  else .ok (line, fields.set 0 (some 0), 1)

/-- Locals of `awk__` in the read loop; `eintr` is `errno == EINTR`,
`field_idx` is `none` while it is not initialised. -/
structure Loc (D : Type) where
  line : List Nat
  fields : List (Option Nat)
  field_idx : Option Int
  row_idx : Int
  eintr : Bool
  data : D
  calls : List Call

/-- What `awk__` returns: the value, the user data and the calls of the
callbacks, the latest first. -/
structure Result (D : Type) where
  ret : Int
  data : D
  calls : List Call

/-- The strings the `fields` array points to. -/
def field_strings (line : List Nat) (fields : List (Option Nat)) : List (List Nat) :=
  fields.map (fun p => match p with
    | none => []
    | some o => cstr line o)

/-- The end of `awk__` after the read loop: the call of `fun_end`. -/
def awk_finish {D : Type} (st : awk_st D) (c : Loc D) : Result D :=
  match st.fun_end with
  | some f =>
    ⟨AWK_OK, f c.row_idx (field_strings c.line c.fields) c.field_idx c.data,
      Call.fun_end c.row_idx :: c.calls⟩
  | none => ⟨AWK_OK, c.data, c.calls⟩

/-- The `fgets` call of the loop condition: the `line` array and `errno`
afterwards. -/
def Loc.fgets {D : Type} (c : Loc D) : Fgets → Loc D
  | .line bs => { c with line := strcpy c.line 0 bs }
  | .eof => c
  | .eintr => { c with eintr := true }
  | .error => { c with eintr := false }

/-- The body of the read loop of `awk__`, after the `fgets` of its
condition: `Sum.inl` is a `return`, `Sum.inr` goes on to the next evaluation
of the condition (`continue` or the end of the body). -/
def awk_body {D : Type} (regex : List Nat → Option (List Nat → Bool)) (delim : List Nat)
    (linesize fieldnum : Int) (field0_used : Bool) (st : awk_st D) (c : Loc D) :
    Result D ⊕ Loc D :=
  let act_idx := awk_match regex st (cstr c.line 0)
  if act_idx < 0 then
    if act_idx = AWK_UNMATCH then .inr c else .inl ⟨act_idx, c.data, c.calls⟩
  else if c.eintr then .inr { c with eintr := false }
  else
    match split_line delim linesize fieldnum field0_used c.line with
    | .error e => .inl ⟨e, c.data, c.calls⟩
    | .ok (line, fields, field_idx) =>
      match st.actions act_idx with
      | some f =>
        let r := f c.row_idx (field_strings line fields) field_idx c.data
        let calls := Call.fun_action act_idx c.row_idx r.1 :: c.calls
        if r.1 ≠ AWK_CONTINUE then .inl ⟨AWK_OK, r.2, calls⟩
        else .inr { c with
          line := line
          fields := fields
          field_idx := some field_idx
          row_idx := c.row_idx + 1
          data := r.2
          calls := calls }
      | none => .inr { c with
          line := line
          fields := fields
          field_idx := some field_idx
          row_idx := c.row_idx + 1 }

/-- The read loop `while (fgets(line, linesize, stream) || errno == EINTR)` of
`awk__` and what follows it.  The list holds the outcomes of the successive
`fgets` calls; after them `fgets` returns NULL and leaves `errno`.  The result
is `none` when the loop does not end: `errno` stays `EINTR` at the end of the
file because no pattern matches `line`. -/
def awk_loop {D : Type} (regex : List Nat → Option (List Nat → Bool)) (delim : List Nat)
    (linesize fieldnum : Int) (field0_used : Bool) (st : awk_st D) :
    List Fgets → Loc D → Option (Result D)
  | [], c =>
    if c.eintr then
      match awk_body regex delim linesize fieldnum field0_used st c with
      | .inl r => some r
      | .inr c1 => if c1.eintr then none else some (awk_finish st c1)
    else some (awk_finish st c)
  | r :: rest, c =>
    if r.is_line = true ∨ (c.fgets r).eintr = true then
      match awk_body regex delim linesize fieldnum field0_used st (c.fgets r) with
      | .inl r => some r
      | .inr c1 => awk_loop regex delim linesize fieldnum field0_used st rest c1
    else some (awk_finish st (c.fgets r))

/-- Function `awk__(stream, delim, line, linesize, fields, fieldnum, _data)`.
`stream` is given by the outcomes of `fgets` on it, `line` by the initial
bytes of the array, `fields` by the test `fields[0] == AWK_FIELD0_USED`, and
`d` is the user data `_data->data`. -/
def awk__ {D : Type} (regex : List Nat → Option (List Nat → Bool)) (stream : List Fgets)
    (delim line : List Nat) (linesize : Int) (field0_marked : Bool) (fieldnum : Int)
    (st : awk_st D) (d : D) : Option (Result D) :=
  if fieldnum < 1 then some ⟨AWK_FIELD_OUTOFRANGE, d, []⟩
  else
    let b : Int × D × List Call :=
      match st.fun_begin with
      | some f => ((f d).1, (f d).2, [Call.fun_begin (f d).1])
      | none => (AWK_CONTINUE, d, [])
    if b.1 ≠ AWK_CONTINUE then some ⟨AWK_OK, b.2.1, b.2.2⟩
    else
      awk_loop regex delim linesize fieldnum (field0_marked || decide (delim = [])) st stream
        ⟨line, List.replicate fieldnum.toNat none, none, 0, false, b.2.1, b.2.2⟩

/-- Function `awk_(filename, delim, line, linesize, fields, fieldnum, _data)`
with the macro `call_with_inputfile` expanded.  `fopen` is `none` when the
file cannot be opened: the macro then still passes the NULL stream to `awk__`
and to `fclose`, which is undefined, hence `none`. -/
def awk_ {D : Type} (regex : List Nat → Option (List Nat → Bool)) (fopen : Option (List Fgets))
    (delim line : List Nat) (linesize : Int) (field0_marked : Bool) (fieldnum : Int)
    (st : awk_st D) (d : D) : Option (Result D) :=
  match fopen with
  | none => none
  | some stream =>
    match awk__ regex stream delim line linesize field0_marked fieldnum st d with
    | none => none
    | some r => if r.ret < 0 then some { r with ret := AWK_OPEN_FAILED } else some r

/-- Function `awk(filename, delim, _data)`: a `line` of 5120 bytes, ten
`fields`, `fields[0] = AWK_FIELD0_USED`. -/
def awk {D : Type} (regex : List Nat → Option (List Nat → Bool)) (fopen : Option (List Fgets))
    (delim line : List Nat) (st : awk_st D) (d : D) : Option (Result D) :=
  awk_ regex fopen delim line 5120 true 10 st d

/-- No call in the list returned a stop value and none is a call of
`fun_end`. -/
def Clean (cs : List Call) : Prop :=
  ∀ c ∈ cs, c.stops = false ∧ c.is_end = false

/-- The three ways `awk__` returns: with an error code and no stop value
returned by a callback; with `AWK_OK` right after a callback returned a stop
value; with `AWK_OK` after the read loop, through the call of `fun_end` when
there is one. -/
def Shape {D : Type} (st : awk_st D) (r : Result D) : Prop :=
  (r.ret ≠ AWK_OK ∧ Clean r.calls) ∨
  (r.ret = AWK_OK ∧ ∃ x cs, r.calls = x :: cs ∧ x.stops = true ∧ x.is_end = false ∧ Clean cs) ∨
  (r.ret = AWK_OK ∧ ∃ cs, Clean cs ∧
    ((st.fun_end ≠ none ∧ ∃ n, r.calls = Call.fun_end n :: cs) ∨
     (st.fun_end = none ∧ r.calls = cs)))

end Awk

namespace TaskProxy

/-! ## Layout of the pending buffer -/

/-- Value of `sizeof(int)` on the Linux ABIs. -/
abbrev SIZEOF_INT : Int := 4

/-- Value of `offsetof(struct taskbuf, buf)`: the `char` array `buf` comes
right after `int len`. -/
def taskbuf_buf_offset : Int := SIZEOF_INT

/-- Value of `sizeof(struct taskbuf)`: `int len` and `char buf[REQUESTBUF_SIZE]`. -/
def taskbuf_sizeof : Int := SIZEOF_INT + REQUESTBUF_SIZE

/-- The size of the block of a pending buffer: the argument of `malloc` in
`task_allocbuf`, line `task_buf[i] = malloc(REQUESTBUF_SIZE);`. -/
def task_allocbuf_size : Int := REQUESTBUF_SIZE

/-- Offset in the block, counted from its start, of the end of the bytes
`buf[0 .. len)` of the pending buffer `b`: the bytes of the block that are
accessed through `len` and `buf[0 .. len)` are those before it. -/
def taskbuf_end (b : List Nat) : Int := taskbuf_buf_offset + b.length

/-- Every pending buffer has a length in `[1, REQUESTBUF_SIZE]`. -/
def BufLen (s : State) : Prop :=
  ∀ i b, s.task_buf i = some b → 1 ≤ b.length ∧ (b.length : Int) ≤ REQUESTBUF_SIZE

/-- Every pending buffer of `t` is a pending buffer of `s`, in the same
slot. -/
def BufSub (t s : State) : Prop :=
  ∀ j, t.task_buf j = s.task_buf j ∨ t.task_buf j = none

/-! # Theorems -/

/-! ## Chains -/

theorem isChain_update {p : Int → Int} {i v : Int} :
    ∀ {l : List Int} {a : Int}, i ∉ l → IsChain p a l → IsChain (Function.update p i v) a l
  | [], _, _, h => h
  | j :: l, a, hi, h => by
    simp only [List.mem_cons, not_or] at hi
    obtain ⟨ha, h0, h1, hc⟩ := h
    refine ⟨ha, h0, h1, ?_⟩
    rw [Function.update_noteq (Ne.symm hi.1)]
    exact isChain_update hi.2 hc

theorem chain_from_of_isChain {p : Int → Int} :
    ∀ {l : List Int} {a : Int} {fuel : Nat}, IsChain p a l → l.length < fuel →
      chain_from p fuel a = some l
  | [], a, fuel + 1, h, _ => by
    simp only [IsChain] at h
    simp [chain_from, h]
  | j :: l, a, fuel + 1, h, hf => by
    obtain ⟨ha, h0, h1, hc⟩ := h
    subst ha
    have hne : a ≠ MAX_TASKS := by omega
    simp only [List.length_cons, Nat.add_lt_add_iff_right] at hf
    simp [chain_from, hne, h0, h1, chain_from_of_isChain hc hf]

theorem isChain_of_chain_from {p : Int → Int} :
    ∀ {fuel : Nat} {a : Int} {l : List Int}, chain_from p fuel a = some l → IsChain p a l
  | fuel + 1, a, l, h => by
    simp only [chain_from] at h
    split at h
    · next ha => cases h; exact ha
    · split at h
      · next hr =>
        cases hc : chain_from p fuel (-(p a)) with
        | none => simp [hc] at h
        | some l2 =>
          rw [hc] at h
          simp only [Option.map, Option.some.injEq] at h
          subst h
          exact ⟨rfl, hr.1, hr.2, isChain_of_chain_from hc⟩
      · cases h

/-! ## Field-by-field effect of `task_put` and `task_get` -/

@[simp] theorem task_freebuf_task_buf (s : State) (i : Int) :
    (task_freebuf s i).task_buf = Function.update s.task_buf i none := by
  cases h : s.task_buf i with
  | none => simp [h, task_freebuf, Function.update_eq_self_iff]
  | some b => simp [h, task_freebuf]

@[simp] theorem task_put_task_pids (s : State) (i : Int) :
    (task_put s i).task_pids = Function.update s.task_pids i s.avaliable_list := by
  unfold task_put task_freebuf sys_close
  simp only
  split_ifs <;> rfl

@[simp] theorem task_put_avaliable_list (s : State) (i : Int) :
    (task_put s i).avaliable_list = -i := by
  unfold task_put task_freebuf sys_close
  simp only
  split_ifs <;> rfl

@[simp] theorem task_put_task_count (s : State) (i : Int) :
    (task_put s i).task_count = s.task_count - 1 := by
  unfold task_put task_freebuf sys_close
  simp only
  split_ifs <;> rfl

@[simp] theorem task_put_pid_count (s : State) (i : Int) :
    (task_put s i).pid_count = s.pid_count := by
  unfold task_put task_freebuf sys_close
  simp only
  split_ifs <;> rfl

@[simp] theorem task_put_task_socks (s : State) (i : Int) :
    (task_put s i).task_socks = Function.update s.task_socks i (-1) := by
  unfold task_put task_freebuf sys_close
  simp only
  split_ifs <;> rfl

@[simp] theorem task_put_task_buf (s : State) (i : Int) :
    (task_put s i).task_buf = Function.update s.task_buf i none := by
  unfold task_put
  simp only
  split_ifs with h1 h2 h3 <;> first
    | (rw [task_freebuf_task_buf]; rfl)
    | (symm; simp_all [sys_close, Function.update_eq_self_iff])

theorem task_put_epoll (s : State) (i : Int) :
    (task_put s i).epoll =
      if s.task_socks i > 0 then s.epoll.filter (fun e => e.1 != s.task_socks i) else s.epoll := by
  unfold task_put task_freebuf sys_close
  simp only
  split_ifs <;> rfl

theorem task_put_log (s : State) (i : Int) :
    (task_put s i).log =
      if s.task_socks i > 0 then Effect.close (s.task_socks i) :: s.log else s.log := by
  unfold task_put task_freebuf sys_close
  simp only
  split_ifs <;> rfl

@[simp] theorem task_freebuf_other (s : State) (i : Int) :
    (task_freebuf s i).task_pids = s.task_pids ∧ (task_freebuf s i).task_socks = s.task_socks ∧
    (task_freebuf s i).avaliable_list = s.avaliable_list ∧
    (task_freebuf s i).task_count = s.task_count ∧ (task_freebuf s i).pid_count = s.pid_count ∧
    (task_freebuf s i).epoll = s.epoll ∧ (task_freebuf s i).log = s.log := by
  unfold task_freebuf
  split_ifs <;> simp

/-! ## The slot-table invariant is established and preserved -/

theorem inv_prepare (s0 : State) :
    Inv (task_prepare s0) [] [0, 1, 2, 3, 4, 5, 6, 7, 8, 9, 10, 11, 12, 13, 14, 15] where
  chain := by simp [IsChain, task_prepare, MAX_TASKS]
  nodup := by decide
  mem := by
    intro i
    have hM : MAX_TASKS = 16 := rfl
    simp only [List.mem_cons, List.mem_singleton, List.not_mem_nil, not_false_eq_true, and_true,
      or_false]
    omega
  held_nodup := List.nodup_nil
  held_range := by simp
  count := by simp [task_prepare]
  total := by simp
  free_sock := by
    intro i hi
    have : 0 ≤ i ∧ i < MAX_TASKS := by
      have hM : MAX_TASKS = 16 := rfl
      simp only [List.mem_cons, List.mem_singleton, List.not_mem_nil, or_false] at hi
      omega
    simp [task_prepare, this]
  free_buf := by
    intro i hi
    have : 0 ≤ i ∧ i < MAX_TASKS := by
      have hM : MAX_TASKS = 16 := rfl
      simp only [List.mem_cons, List.mem_singleton, List.not_mem_nil, or_false] at hi
      omega
    simp [task_prepare, this]

theorem inv_head {s : State} {held l : List Int} {i : Int} (h : Inv s held (i :: l)) :
    -s.avaliable_list = i ∧ 0 ≤ i ∧ i < MAX_TASKS ∧ i ∉ held ∧ i ∉ l := by
  obtain ⟨ha, h0, h1, -⟩ := h.chain
  have hm := (h.mem i).1 (List.mem_cons_self i l)
  exact ⟨ha, h0, h1, hm.2.2, (List.nodup_cons.1 h.nodup).1⟩

theorem inv_get_full {s : State} {held : List Int} (h : Inv s held []) :
    task_get s = (s, -1) := by
  have : -s.avaliable_list = MAX_TASKS := h.chain
  simp [task_get, this]

theorem inv_get_cons {s : State} {held l : List Int} {i : Int} (h : Inv s held (i :: l)) :
    (task_get s).2 = i ∧ Inv (task_get s).1 (i :: held) l := by
  obtain ⟨ha, h0, h1, hh, hl⟩ := inv_head h
  have hne : ¬ (-s.avaliable_list = MAX_TASKS) := by omega
  have hc : IsChain s.task_pids (-(s.task_pids i)) l := h.chain.2.2.2
  have hg : task_get s = ({ s with
        avaliable_list := s.task_pids i
        task_socks := Function.update s.task_socks i (-1)
        task_count := s.task_count + 1 }, i) := by
    rw [ha] at hne
    simp only [task_get, ha, if_neg hne]
  rw [hg]
  refine ⟨rfl, ?_⟩
  refine
    { chain := hc
      nodup := (List.nodup_cons.1 h.nodup).2
      mem := ?_
      held_nodup := List.nodup_cons.2 ⟨hh, h.held_nodup⟩
      held_range := ?_
      count := ?_
      total := ?_
      free_sock := ?_
      free_buf := ?_ }
  · intro j
    have hj := h.mem j
    simp only [List.mem_cons, not_or] at hj ⊢
    constructor
    · intro hjl
      have hji : j ≠ i := fun e => hl (e ▸ hjl)
      have := hj.1 (Or.inr hjl)
      exact ⟨this.1, this.2.1, hji, this.2.2⟩
    · rintro ⟨a, b, c, d⟩
      rcases hj.2 ⟨a, b, d⟩ with e | e
      · exact absurd e c
      · exact e
  · intro j hj
    rcases List.mem_cons.1 hj with e | e
    · subst e; exact ⟨h0, h1⟩
    · exact h.held_range j e
  · simp only [List.length_cons, Nat.cast_add, Nat.cast_one]
    rw [h.count]
  · have := h.total
    simp only [List.length_cons, Nat.cast_add, Nat.cast_one] at this ⊢
    omega
  · intro j hj
    have hji : j ≠ i := fun e => hl (e ▸ hj)
    simp only [Function.update_noteq hji]
    exact h.free_sock j (List.mem_cons_of_mem _ hj)
  · intro j hj
    exact h.free_buf j (List.mem_cons_of_mem _ hj)

theorem inv_put {s : State} {held l : List Int} {i : Int} (h : Inv s held l) (hi : i ∈ held) :
    Inv (task_put s i) (held.erase i) (i :: l) := by
  have hr := h.held_range i hi
  have hil : i ∉ l := fun e => ((h.mem i).1 e).2.2 hi
  refine
    { chain := ?_
      nodup := List.nodup_cons.2 ⟨hil, h.nodup⟩
      mem := ?_
      held_nodup := h.held_nodup.erase i
      held_range := fun j hj => h.held_range j (List.mem_of_mem_erase hj)
      count := ?_
      total := ?_
      free_sock := ?_
      free_buf := ?_ }
  · simp only [task_put_task_pids, task_put_avaliable_list, IsChain, neg_neg,
      Function.update_same, true_and]
    exact ⟨hr.1, hr.2, isChain_update hil h.chain⟩
  · intro j
    have hj := h.mem j
    simp only [List.mem_cons, h.held_nodup.mem_erase_iff, not_and, not_not] at hj ⊢
    constructor
    · rintro (e | e)
      · subst e; exact ⟨hr.1, hr.2, fun c => absurd rfl c⟩
      · have := hj.1 e
        exact ⟨this.1, this.2.1, fun _ c => this.2.2 c⟩
    · rintro ⟨a, b, c⟩
      by_cases e : j = i
      · exact Or.inl e
      · exact Or.inr (hj.2 ⟨a, b, fun d => c e d⟩)
  · rw [task_put_task_count, h.count, List.length_erase_of_mem hi]
    have : 0 < held.length := List.length_pos_of_mem hi
    omega
  · have := h.total
    have hp : 0 < held.length := List.length_pos_of_mem hi
    rw [List.length_erase_of_mem hi]
    simp only [List.length_cons, Nat.cast_add, Nat.cast_one]
    omega
  · intro j hj
    rw [task_put_task_socks]
    rcases List.mem_cons.1 hj with e | e
    · subst e; simp
    · have hji : j ≠ i := fun c => hil (c ▸ e)
      rw [Function.update_noteq hji]
      exact h.free_sock j e
  · intro j hj
    rw [task_put_task_buf]
    rcases List.mem_cons.1 hj with e | e
    · subst e; simp
    · have hji : j ≠ i := fun c => hil (c ▸ e)
      rw [Function.update_noteq hji]
      exact h.free_buf j e

theorem inv_set_pid {s : State} {held l : List Int} {i : Int} (pid : Int) (h : Inv s held l)
    (hi : i ∈ held) : Inv { s with task_pids := Function.update s.task_pids i pid } held l :=
  have hil : i ∉ l := fun e => ((h.mem i).1 e).2.2 hi
  { h with chain := isChain_update hil h.chain }

theorem inv_set_sock {s : State} {held l : List Int} {i : Int} (fd : Int) (h : Inv s held l)
    (hi : i ∈ held) : Inv { s with task_socks := Function.update s.task_socks i fd } held l :=
  have hil : i ∉ l := fun e => ((h.mem i).1 e).2.2 hi
  { h with
    free_sock := fun j hj => by
      have hji : j ≠ i := fun c => hil (c ▸ hj)
      simp only [Function.update_noteq hji]
      exact h.free_sock j hj }

theorem inv_set_buf {s : State} {held l : List Int} {i : Int} (b : Option (List Nat))
    (h : Inv s held l) (hi : i ∈ held) :
    Inv { s with task_buf := Function.update s.task_buf i b } held l :=
  have hil : i ∉ l := fun e => ((h.mem i).1 e).2.2 hi
  { h with
    free_buf := fun j hj => by
      have hji : j ≠ i := fun c => hil (c ▸ hj)
      simp only [Function.update_noteq hji]
      exact h.free_buf j hj }

theorem inv_free_chain {s : State} {held l : List Int} (h : Inv s held l) :
    free_chain s = some l := by
  have ht := h.total
  have hM : MAX_TASKS = 16 := rfl
  exact chain_from_of_isChain h.chain (by simp only [MAX_TASKS]; omega)

theorem inv_get {s : State} {held l : List Int} (h : Inv s held l) :
    ∃ l2, Inv (task_get s).1 (if (task_get s).2 = -1 then held else (task_get s).2 :: held) l2 := by
  cases l with
  | nil =>
    rw [inv_get_full h]
    exact ⟨[], by simpa using h⟩
  | cons i l =>
    obtain ⟨e, hi⟩ := inv_get_cons h
    have h0 := (inv_head h).2.1
    have hne : ¬ ((task_get s).2 = -1) := by rw [e]; omega
    rw [if_neg hne, e]
    exact ⟨l, hi⟩

theorem inv_apply {c c2 : State × List Int} {op : Op} (h : ∃ l, Inv c.1 c.2 l)
    (e : op.apply c = some c2) : ∃ l, Inv c2.1 c2.2 l := by
  obtain ⟨l, h⟩ := h
  cases op with
  | get =>
    simp only [Op.apply, Option.some.injEq] at e
    subst e
    exact inv_get h
  | put i =>
    simp only [Op.apply] at e
    split_ifs at e with hi
    cases e
    exact ⟨_, inv_put h hi⟩
  | set_pid i pid =>
    simp only [Op.apply] at e
    split_ifs at e with hi
    cases e
    exact ⟨_, inv_set_pid pid h hi.1⟩
  | set_sock i fd =>
    simp only [Op.apply] at e
    split_ifs at e with hi
    cases e
    exact ⟨_, inv_set_sock fd h hi⟩
  | set_buf i b =>
    simp only [Op.apply] at e
    split_ifs at e with hi
    cases e
    exact ⟨_, inv_set_buf b h hi⟩

theorem inv_run_ops : ∀ {ops : List Op} {c c2 : State × List Int}, (∃ l, Inv c.1 c.2 l) →
    run_ops ops c = some c2 → ∃ l, Inv c2.1 c2.2 l
  | [], c, c2, h, e => by
    simp only [run_ops, Option.some.injEq] at e
    subst e
    exact h
  | op :: ops, c, c2, h, e => by
    simp only [run_ops] at e
    cases hc : op.apply c with
    | none => simp [hc] at e
    | some c1 =>
      rw [hc] at e
      exact inv_run_ops (inv_apply h hc) e

theorem inv_reachable {s0 : State} {ops : List Op} {s : State} {held : List Int}
    (h : run_ops ops (task_prepare s0, []) = some (s, held)) : ∃ l, Inv s held l :=
  @inv_run_ops ops (task_prepare s0, []) (s, held) ⟨_, inv_prepare s0⟩ h

/-! ## Slot conservation -/

/-- C1.  In every state reachable from `task_prepare` by `task_get`, by
`task_put` of a held slot and by writes (child id, client fd, pending buffer)
to held slots, the walk from `-avaliable_list` along the `task_pids` links
ends at `MAX_TASKS`, visits no slot twice, visits exactly the slots that are
not held, and `task_count` plus its length is `MAX_TASKS`. -/
theorem slot_conservation (s0 : State) (ops : List Op) (s : State) (held : List Int)
    (h : run_ops ops (task_prepare s0, []) = some (s, held)) :
    ∃ l, free_chain s = some l ∧ l.Nodup ∧
      (∀ i, i ∈ l ↔ (0 ≤ i ∧ i < MAX_TASKS ∧ i ∉ held)) ∧
      s.task_count + l.length = MAX_TASKS := by
  obtain ⟨l, hi⟩ := inv_reachable h
  refine ⟨l, inv_free_chain hi, hi.nodup, hi.mem, ?_⟩
  have := hi.total
  rw [hi.count]
  omega

/-- C1 at a concrete run: two slots acquired, a child id stored in slot 0,
slot 1 released, one more acquired. -/
theorem slot_conservation_witness :
    ∃ s held,
      run_ops [Op.get, Op.get, Op.set_pid 0 4242, Op.put 1, Op.get]
        (task_prepare State.zero, []) = some (s, held) ∧
      ∃ l, free_chain s = some l ∧ l.Nodup ∧
        (∀ i, i ∈ l ↔ (0 ≤ i ∧ i < MAX_TASKS ∧ i ∉ held)) ∧
        s.task_count + l.length = MAX_TASKS := by
  have hs : (run_ops [Op.get, Op.get, Op.set_pid 0 4242, Op.put 1, Op.get]
      (task_prepare State.zero, [])).isSome = true := by decide
  obtain ⟨c, hc⟩ := Option.isSome_iff_exists.1 hs
  exact ⟨c.1, c.2, hc, slot_conservation State.zero _ c.1 c.2 hc⟩

/-! ## Acquire -/

theorem task_get_n_of_inv : ∀ {l : List Int} {s : State} {held : List Int}, Inv s held l →
    task_get_n (l.length + 1) s = l ++ [-1]
  | [], s, held, h => by
    simp [task_get_n, inv_get_full h]
  | i :: l, s, held, h => by
    obtain ⟨e, hi⟩ := inv_get_cons h
    have := task_get_n_of_inv hi
    simp only [List.length_cons, task_get_n, e, List.cons_append, List.cons.injEq, true_and]
    exact this

/-- C2.  In every state reachable by paired use, `task_get` returns -1
exactly when `task_count = MAX_TASKS`, which is exactly when
`avaliable_list = -MAX_TASKS`, and then returns the state unchanged; otherwise
it returns the head of the free list, an index in `[0, MAX_TASKS)` that
nobody holds, the slot's link becomes the new head (the free list loses its
first slot), the slot's client fd is -1 and `task_count` grew by one.  From
`task_prepare`, seventeen consecutive calls return `0, 1, .., 15` and then
-1. -/
theorem task_get_admission (s0 : State) (ops : List Op) (s : State) (held : List Int)
    (h : run_ops ops (task_prepare s0, []) = some (s, held)) :
    ((task_get s).2 = -1 ↔ s.task_count = MAX_TASKS) ∧
    (s.task_count = MAX_TASKS ↔ s.avaliable_list = -MAX_TASKS) ∧
    ((task_get s).2 = -1 → (task_get s).1 = s) ∧
    ((task_get s).2 ≠ -1 →
      (task_get s).2 = -s.avaliable_list ∧
      (∃ l, free_chain s = some ((task_get s).2 :: l) ∧ free_chain (task_get s).1 = some l) ∧
      0 ≤ (task_get s).2 ∧ (task_get s).2 < MAX_TASKS ∧ (task_get s).2 ∉ held ∧
      (task_get s).1.avaliable_list = s.task_pids (task_get s).2 ∧
      (task_get s).1.task_socks (task_get s).2 = -1 ∧
      (task_get s).1.task_count = s.task_count + 1) ∧
    task_get_n 17 (task_prepare s0) =
      [0, 1, 2, 3, 4, 5, 6, 7, 8, 9, 10, 11, 12, 13, 14, 15, -1] ∧
    ((task_get_n 17 (task_prepare s0)).take 16).Nodup := by
  have hM : MAX_TASKS = 16 := rfl
  have h17 : task_get_n 17 (task_prepare s0) =
      [0, 1, 2, 3, 4, 5, 6, 7, 8, 9, 10, 11, 12, 13, 14, 15, -1] :=
    task_get_n_of_inv (inv_prepare s0)
  obtain ⟨l, hi⟩ := inv_reachable h
  have ht := hi.total
  have hc := hi.count
  cases l with
  | nil =>
    have ha : -s.avaliable_list = MAX_TASKS := hi.chain
    rw [inv_get_full hi]
    simp only [List.length_nil, Nat.cast_zero, zero_add] at ht
    refine ⟨by simp only [true_iff]; omega, ⟨fun _ => by omega, fun _ => by omega⟩,
      fun _ => rfl, fun c => absurd rfl c, h17, by rw [h17]; decide⟩
  | cons i l =>
    obtain ⟨e, hi2⟩ := inv_get_cons hi
    obtain ⟨ha, h0, h1, hh, -⟩ := inv_head hi
    simp only [List.length_cons, Nat.cast_add, Nat.cast_one] at ht
    have hne : (task_get s).2 ≠ -1 := by rw [e]; omega
    have hl0 : (0 : Int) ≤ l.length := Int.ofNat_nonneg _
    refine ⟨⟨fun c => absurd c hne, fun c => by omega⟩, ⟨fun _ => by omega, fun _ => by omega⟩,
      fun c => absurd c hne, fun _ => ?_, h17, by rw [h17]; decide⟩
    have hs : (task_get s).1 = { s with
          avaliable_list := s.task_pids i
          task_socks := Function.update s.task_socks i (-1)
          task_count := s.task_count + 1 } := by
      have hne2 : ¬ (i = MAX_TASKS) := by omega
      simp only [task_get, ha, if_neg hne2]
    have hf := inv_free_chain hi2
    rw [e]
    refine ⟨ha.symm, ⟨l, inv_free_chain hi, hf⟩, h0, h1, hh, ?_, ?_, ?_⟩
    · rw [hs]
    · rw [hs]; simp
    · rw [hs]

/-- C2 at a concrete run (the run used for C1). -/
theorem task_get_admission_witness :
    ∃ s held,
      run_ops [Op.get, Op.get, Op.set_pid 0 4242, Op.put 1, Op.get]
        (task_prepare State.zero, []) = some (s, held) ∧
      ((task_get s).2 = -1 ↔ s.task_count = MAX_TASKS) ∧
      ((task_get s).2 ≠ -1 → (task_get s).2 ∉ held) := by
  have hs : (run_ops [Op.get, Op.get, Op.set_pid 0 4242, Op.put 1, Op.get]
      (task_prepare State.zero, [])).isSome = true := by decide
  obtain ⟨c, hc⟩ := Option.isSome_iff_exists.1 hs
  have := task_get_admission State.zero _ c.1 c.2 hc
  exact ⟨c.1, c.2, hc, this.1, fun n => (this.2.2.2.1 n).2.2.2.2.1⟩

/-! ## Release -/

/-- C9.  For every table `t` and index `i`, `task_put t i` makes `i` the
head (`avaliable_list = -i`) with its link holding the previous head, sets
`task_socks[i]` to -1 and `task_buf[i]` to NULL, decrements `task_count`
and leaves the three per-slot fields of every other slot unchanged.  In every
state `s` reachable by paired use, releasing a held slot `j` puts `j` in
front of the free chain, and every slot on the free chain has client fd -1
and no pending buffer. -/
theorem task_put_release (t : State) (i : Int) (s0 : State) (ops : List Op) (s : State)
    (held : List Int) (h : run_ops ops (task_prepare s0, []) = some (s, held)) :
    ((task_put t i).avaliable_list = -i ∧ (task_put t i).task_pids i = t.avaliable_list ∧
      (task_put t i).task_socks i = -1 ∧ (task_put t i).task_buf i = none ∧
      (task_put t i).task_count = t.task_count - 1 ∧
      ∀ j, j ≠ i → (task_put t i).task_socks j = t.task_socks j ∧
        (task_put t i).task_buf j = t.task_buf j ∧
        (task_put t i).task_pids j = t.task_pids j) ∧
    (∀ j ∈ held, ∃ l, free_chain s = some l ∧ free_chain (task_put s j) = some (j :: l)) ∧
    (∃ l, free_chain s = some l ∧ ∀ j ∈ l, s.task_socks j = -1 ∧ s.task_buf j = none) := by
  obtain ⟨l, hi⟩ := inv_reachable h
  refine ⟨⟨by simp, by simp, by simp, by simp, by simp, fun j hj => ?_⟩, fun j hj => ?_, ?_⟩
  · simp [Function.update_noteq hj]
  · exact ⟨l, inv_free_chain hi, inv_free_chain (inv_put hi hj)⟩
  · exact ⟨l, inv_free_chain hi, fun j hj => ⟨hi.free_sock j hj, hi.free_buf j hj⟩⟩

/-- C9 at a concrete run: slot 1 is held with client fd 7 and a pending
buffer, slot 0 was released after use. -/
theorem task_put_release_witness :
    ∃ s held,
      run_ops [Op.get, Op.get, Op.set_sock 0 5, Op.set_sock 1 7, Op.set_buf 1 (some [101]),
        Op.put 0] (task_prepare State.zero, []) = some (s, held) ∧
      (task_put s 1).task_socks 1 = -1 ∧
      (∃ l, free_chain s = some l ∧ ∀ j ∈ l, s.task_socks j = -1 ∧ s.task_buf j = none) := by
  have hs : (run_ops [Op.get, Op.get, Op.set_sock 0 5, Op.set_sock 1 7,
      Op.set_buf 1 (some [101]), Op.put 0] (task_prepare State.zero, [])).isSome = true := by
    decide
  obtain ⟨c, hc⟩ := Option.isSome_iff_exists.1 hs
  have := task_put_release c.1 1 State.zero _ c.1 c.2 hc
  exact ⟨c.1, c.2, hc, this.1.2.2.1, this.2.2⟩

/-! ## Classification -/

theorem strncmp_lit (buf : List Nat) (a b c d : Nat) (ha : a ≠ 0) (hb : b ≠ 0) (hc : c ≠ 0)
    (hd : d ≠ 0) :
    strncmp buf [a, b, c, d, 0] 4 = 0 ↔ buf.take 4 = [a, b, c, d] := by
  rcases buf with _ | ⟨x, _ | ⟨y, _ | ⟨z, _ | ⟨w, t⟩⟩⟩⟩ <;>
    simp only [strncmp, List.headD_nil, List.headD_cons, List.tail_cons, List.tail_nil,
      List.take_nil, List.take_succ_cons, List.take_zero, ne_eq] <;>
    split_ifs <;> simp_all <;> omega

theorem classify_eq (buf : List Nat) :
    classify buf =
      if buf.take 4 = [101, 120, 101, 99] then some EXECID
      else if buf.take 4 = [110, 114, 101, 116] then some NRETID
      else if buf.take 4 = [112, 105, 112, 101] then some PIPEID
      else none := by
  have h4 : CMDLEN.toNat = 4 := rfl
  unfold classify
  rw [h4]
  simp only [EXEC, NRET, PIPE,
    strncmp_lit buf 101 120 101 99 (by decide) (by decide) (by decide) (by decide),
    strncmp_lit buf 110 114 101 116 (by decide) (by decide) (by decide) (by decide),
    strncmp_lit buf 112 105 112 101 (by decide) (by decide) (by decide) (by decide)]

theorem fork_calls_task_put (s : State) (i : Int) : fork_calls (task_put s i) = fork_calls s := by
  unfold fork_calls
  rw [task_put_log]
  split_ifs <;> simp [List.countP_cons]

theorem fork_calls_after_fork (s : State) (i cl : Int) (type : Nat) (buf : List Nat)
    (l pid : Int) : fork_calls (after_fork s i cl type buf l pid) = fork_calls s + 1 := by
  unfold after_fork
  simp only
  split_ifs
  · rw [fork_calls_task_put]; simp [fork_calls, List.countP_cons]
  · simp [fork_calls, List.countP_cons, (task_freebuf_other _ i).2.2.2.2.2.2]
  · simp [fork_calls, List.countP_cons, (task_freebuf_other _ i).2.2.2.2.2.2, sys_close]
  · simp [fork_calls, List.countP_cons, pipe_process]
  · simp [fork_calls, List.countP_cons, exec_process, sys_close]

/-- C5.  A request shorter than `CMDLEN + 1` bytes, or whose bytes 0..3 are
none of "exec", "pipe", "nret", makes `client_after_read` release the slot
with `task_put` on an unchanged table, without any call of `fork` and with
`pid_count` unchanged.  `classify` (the `strncmp` cascade) yields EXEC, PIPE
or NRET exactly when bytes 0..3 are the respective literal, and for a
request of at least 5 bytes with such a tag, once the descriptor is removed
from the epoll set, `fork` is called exactly once. -/
theorem client_after_read_classification (s : State) (i : Int) (buf : List Nat) (l : Int)
    (env : ClientEnv) :
    ((l < CMDLEN + 1 ∨ (buf.take 4 ≠ EXEC.take 4 ∧ buf.take 4 ≠ PIPE.take 4 ∧
          buf.take 4 ≠ NRET.take 4)) →
      (∃ s1, client_after_read s i buf l env = task_put s1 i ∧ s1.task_pids = s.task_pids ∧
        s1.task_socks = s.task_socks ∧ s1.task_buf = s.task_buf ∧
        s1.avaliable_list = s.avaliable_list ∧ s1.task_count = s.task_count ∧
        s1.pid_count = s.pid_count) ∧
      fork_calls (client_after_read s i buf l env) = fork_calls s ∧
      (client_after_read s i buf l env).pid_count = s.pid_count) ∧
    (classify buf = some EXECID ↔ buf.take 4 = EXEC.take 4) ∧
    (classify buf = some PIPEID ↔ buf.take 4 = PIPE.take 4) ∧
    (classify buf = some NRETID ↔ buf.take 4 = NRET.take 4) ∧
    (classify buf = none ↔ (buf.take 4 ≠ EXEC.take 4 ∧ buf.take 4 ≠ PIPE.take 4 ∧
      buf.take 4 ≠ NRET.take 4)) ∧
    (CMDLEN + 1 ≤ l → env.del_ok = true → classify buf ≠ none →
      fork_calls (client_after_read s i buf l env) = fork_calls s + 1) := by
  have hE : EXEC.take 4 = [101, 120, 101, 99] := rfl
  have hP : PIPE.take 4 = [112, 105, 112, 101] := rfl
  have hN : NRET.take 4 = [110, 114, 101, 116] := rfl
  have hnone : classify buf = none ↔ (buf.take 4 ≠ EXEC.take 4 ∧ buf.take 4 ≠ PIPE.take 4 ∧
      buf.take 4 ≠ NRET.take 4) := by
    rw [classify_eq, hE, hP, hN]
    split_ifs <;> simp_all
  refine ⟨fun hbad => ?_, ?_, ?_, ?_, hnone, ?_⟩
  · have key : ∃ s1, client_after_read s i buf l env = task_put s1 i ∧
        s1.task_pids = s.task_pids ∧ s1.task_socks = s.task_socks ∧ s1.task_buf = s.task_buf ∧
        s1.avaliable_list = s.avaliable_list ∧ s1.task_count = s.task_count ∧
        s1.pid_count = s.pid_count ∧ fork_calls s1 = fork_calls s := by
      unfold client_after_read
      simp only
      by_cases hl : l < CMDLEN + 1
      · rw [if_pos hl]
        exact ⟨_, rfl, rfl, rfl, rfl, rfl, rfl, rfl, by simp [fork_calls, List.countP_cons]⟩
      · rw [if_neg hl]
        by_cases hd : env.del_ok = false
        · rw [if_pos hd]
          exact ⟨_, rfl, rfl, rfl, rfl, rfl, rfl, rfl, by simp [fork_calls, List.countP_cons]⟩
        · have hc : classify buf = none := hnone.2 (hbad.resolve_left hl)
          rw [if_neg hd, hc]
          exact ⟨_, rfl, rfl, rfl, rfl, rfl, rfl, rfl, by simp [fork_calls, List.countP_cons]⟩
    obtain ⟨s1, e, h1, h2, h3, h4, h5, h6, h7⟩ := key
    refine ⟨⟨s1, e, h1, h2, h3, h4, h5, h6⟩, ?_, ?_⟩
    · rw [e, fork_calls_task_put, h7]
    · rw [e, task_put_pid_count, h6]
  · rw [classify_eq, hE]; split_ifs <;> simp_all
  · rw [classify_eq, hP]; split_ifs <;> simp_all
  · rw [classify_eq, hN]; split_ifs <;> simp_all
  · intro hl hd hc
    obtain ⟨type, ht⟩ := Option.ne_none_iff_exists'.1 hc
    have hl2 : ¬ l < CMDLEN + 1 := by omega
    have hd2 : ¬ env.del_ok = false := by simp [hd]
    unfold client_after_read
    simp only [if_neg hl2, if_neg hd2, ht]
    rw [fork_calls_after_fork]
    simp [fork_calls, List.countP_cons]

/-! ## Argument splitting -/

theorem undelim_of_count_zero : ∀ {rest : List Nat}, rest.count DELIM = 0 → undelim rest = rest
  | [], _ => rfl
  | b :: rest, h => by
    have hb : b ≠ DELIM := fun e => by simp [e] at h
    have hr : rest.count DELIM = 0 := by
      rw [List.count_cons] at h; omega
    have := undelim_of_count_zero hr
    simp only [undelim, List.map_cons, if_neg hb, List.cons.injEq, true_and] at this ⊢
    exact this

theorem delim_offsets_of_count_zero : ∀ {rest : List Nat} (i : Int), rest.count DELIM = 0 →
    delim_offsets rest i = []
  | [], _, _ => rfl
  | b :: rest, i, h => by
    have hb : b ≠ DELIM := fun e => by simp [e] at h
    have hr : rest.count DELIM = 0 := by
      rw [List.count_cons] at h; omega
    simp only [delim_offsets, if_neg hb]
    exact delim_offsets_of_count_zero (i + 1) hr

/-- While the argument cap is not reached, the loop replaces every
delimiter and records the offset after each one. -/
theorem split_loop_eq (l argc : Int) : ∀ (rest : List Nat) (i : Int) (argv : List Int),
    i + rest.length = l → rest.getLast? ≠ some DELIM →
    (rest.count DELIM : Int) + argv.length ≤ argc - 1 →
    split_loop l argc rest i argv = (undelim rest, argv ++ delim_offsets rest i)
  | [], _, argv, _, _, _ => by simp [split_loop, undelim, delim_offsets]
  | b :: rest, i, argv, hl, hlast, hc => by
    have hil : i < l := by
      simp only [List.length_cons, Nat.cast_add, Nat.cast_one] at hl; omega
    by_cases hj : (argv.length : Int) < argc - 1
    · have hlen : i + 1 + rest.length = l := by
        simp only [List.length_cons, Nat.cast_add, Nat.cast_one] at hl; omega
      by_cases hb : b = DELIM
      · have hne : rest ≠ [] := by
          rintro rfl
          simp [hb] at hlast
        have hlast2 : rest.getLast? ≠ some DELIM := by
          rcases rest with _ | ⟨c, t⟩
          · exact absurd rfl hne
          · rwa [List.getLast?_cons_cons] at hlast
        have hpos : 0 < rest.length := List.length_pos.2 hne
        have hi1 : i + 1 < l := by omega
        have hc2 : (rest.count DELIM : Int) + (argv ++ [i + 1]).length ≤ argc - 1 := by
          rw [hb, List.count_cons_self] at hc
          simp only [List.length_append, List.length_singleton, Nat.cast_add, Nat.cast_one] at hc ⊢
          omega
        have ih := split_loop_eq l argc rest (i + 1) (argv ++ [i + 1]) hlen hlast2 hc2
        simp only [split_loop, hil, hj, and_self, if_true, hb, hi1, ih, undelim, List.map_cons,
          delim_offsets, List.append_assoc, List.singleton_append]
      · have hlast2 : rest.getLast? ≠ some DELIM := by
          rcases rest with _ | ⟨c, t⟩
          · simp
          · rwa [List.getLast?_cons_cons] at hlast
        have hc2 : (rest.count DELIM : Int) + argv.length ≤ argc - 1 := by
          rw [List.count_cons_of_ne (Ne.symm hb)] at hc
          exact hc
        have ih := split_loop_eq l argc rest (i + 1) argv hlen hlast2 hc2
        simp only [split_loop, hil, hj, and_self, if_true, hb, if_false, ih, undelim,
          List.map_cons, delim_offsets]
    · have h0 : (b :: rest).count DELIM = 0 := by omega
      simp only [split_loop, hil, hj, and_false, if_false, undelim_of_count_zero h0,
        delim_offsets_of_count_zero i h0, List.append_nil]

theorem cstr_append_left (pre rest : List Nat) :
    cstr (pre ++ rest) (pre.length : Int) = rest.takeWhile (fun b => b != 0) := by
  simp [cstr]

/-- The segments of a NUL-free `body` are the C strings found, in the split
buffer, at the start and after each replaced delimiter. -/
theorem splitOn_eq_cstr : ∀ (body pre : List Nat), 0 ∉ body →
    List.splitOn DELIM body =
      (((pre.length : Int) :: delim_offsets (body ++ [0]) pre.length).map
        (cstr (pre ++ undelim (body ++ [0]))))
  | [], pre, _ => by
    simp [List.splitOn, delim_offsets, undelim, cstr]
  | b :: t, pre, h0 => by
    have hb0 : b ≠ 0 := fun e => h0 (by simp [e])
    have ht0 : 0 ∉ t := fun e => h0 (List.mem_cons_of_mem _ e)
    have ih := splitOn_eq_cstr t (pre ++ [if b = DELIM then 0 else b]) ht0
    have hX : pre ++ [if b = DELIM then 0 else b] ++ undelim (t ++ [0]) =
        pre ++ undelim (b :: t ++ [0]) := by
      simp [undelim]
    have hlen : ((pre ++ [if b = DELIM then 0 else b]).length : Int) = (pre.length : Int) + 1 := by
      simp
    rw [hX, hlen] at ih
    have hhead : cstr (pre ++ undelim (b :: t ++ [0])) (pre.length : Int) =
        if b = DELIM then [] else b :: cstr (pre ++ undelim (b :: t ++ [0])) ((pre.length : Int) + 1) := by
      rw [cstr_append_left]
      have : cstr (pre ++ undelim (b :: t ++ [0])) ((pre.length : Int) + 1) =
          (undelim (t ++ [0])).takeWhile (fun b => b != 0) := by
        rw [← hX, ← hlen, cstr_append_left]
      rw [this]
      by_cases hb : b = DELIM
      · simp [undelim, hb]
      · simp [undelim, hb, hb0]
    simp only [List.splitOn] at ih ⊢
    rw [List.splitOnP_cons, ih]
    by_cases hb : b = DELIM
    · simp only [hb, beq_self_eq_true, if_true, List.map_cons, List.cons_append, delim_offsets]
      rw [hb] at hhead
      simp only [if_true, List.cons_append] at hhead
      simp only [List.append_eq, hhead]
    · have hbeq : (b == DELIM) = false := by simpa using hb
      rw [if_neg hb] at hhead
      simp only [List.cons_append] at hhead
      simp only [hbeq, List.map_cons, List.cons_append, delim_offsets, if_neg hb,
        List.modifyHead_cons, hhead, List.append_eq]
      simp

theorem delim_offsets_length : ∀ (rest : List Nat) (i : Int),
    (delim_offsets rest i).length = rest.count DELIM
  | [], _ => rfl
  | b :: rest, i => by
    by_cases hb : b = DELIM
    · simp [delim_offsets, hb, delim_offsets_length rest (i + 1)]
    · simp [delim_offsets, hb, delim_offsets_length rest (i + 1), List.count_cons_of_ne (Ne.symm hb)]

/-- C6.  For a request buffer whose last byte is its only NUL and which has
`k ≤ ARGV_MAX - 1` delimiters, `split_request` stores exactly `k` pointers
(so `argv[k]` is the NULL it writes), and the C strings they point at in the
split buffer are, in order, the segments 1, 2, .., k of the request split at
every `'#'` (`List.splitOn`, which keeps empty segments); segment 0, the
command tag, is not in the vector. -/
theorem split_request_segments (buf : List Nat) (k : Nat)
    (hlast : buf.getLast? = some 0) (hnul : buf.count 0 = 1)
    (hk : buf.count DELIM = k) (hcap : (k : Int) ≤ ARGV_MAX - 1) :
    (split_request buf buf.length ARGV_MAX).2.length = k ∧
    (List.splitOn DELIM buf.dropLast).length = k + 1 ∧
    (split_request buf buf.length ARGV_MAX).2.map (cstr (split_request buf buf.length ARGV_MAX).1)
      = (List.splitOn DELIM buf.dropLast).tail ∧
    (∀ m, m < k →
      ∃ o seg, (split_request buf buf.length ARGV_MAX).2[m]? = some o ∧
        (List.splitOn DELIM buf.dropLast)[m + 1]? = some seg ∧
        cstr (split_request buf buf.length ARGV_MAX).1 o = seg) := by
  obtain ⟨body, rfl⟩ : ∃ body, buf = body ++ [0] :=
    ⟨buf.dropLast, (List.dropLast_append_getLast? 0 hlast).symm⟩
  have h0 : 0 ∉ body := by
    intro hm
    have : 0 < body.count 0 := List.count_pos_iff.2 hm
    simp only [List.count_append, List.count_singleton_self] at hnul
    omega
  have hk2 : body.count DELIM = k := by
    simpa [List.count_append, List.count_singleton] using hk
  have hlast2 : (body ++ [0]).getLast? ≠ some DELIM := by simp
  have hr : split_request (body ++ [0]) (body ++ [0]).length ARGV_MAX =
      (undelim (body ++ [0]), delim_offsets (body ++ [0]) 0) := by
    unfold split_request
    rw [split_loop_eq _ _ _ 0 [] (by simp) hlast2 (by simpa [hk] using hcap)]
    simp
  have hseg := splitOn_eq_cstr body [] h0
  simp only [List.length_nil, Nat.cast_zero, List.nil_append, List.map_cons] at hseg
  have hlen : (delim_offsets (body ++ [0]) 0).length = k := by
    rw [delim_offsets_length, hk]
  have hmap : (delim_offsets (body ++ [0]) 0).map (cstr (undelim (body ++ [0]))) =
      (List.splitOn DELIM body).tail := by rw [hseg]; rfl
  rw [hr, List.dropLast_concat]
  refine ⟨hlen, by rw [hseg]; simp [hlen], hmap, fun m hm => ?_⟩
  have hm1 : m < (delim_offsets (body ++ [0]) 0).length := by omega
  refine ⟨(delim_offsets (body ++ [0]) 0)[m], _, List.getElem?_eq_getElem hm1, ?_, rfl⟩
  rw [hseg]
  simp [List.getElem?_eq_getElem hm1]

/-- C6 on `exec##a#bc\0`: three delimiters, arguments "", "a", "bc". -/
theorem split_request_segments_witness :
    (split_request [101, 120, 101, 99, 35, 35, 97, 35, 98, 99, 0] 11 ARGV_MAX).2.length = 3 ∧
    (split_request [101, 120, 101, 99, 35, 35, 97, 35, 98, 99, 0] 11 ARGV_MAX).2.map
        (cstr (split_request [101, 120, 101, 99, 35, 35, 97, 35, 98, 99, 0] 11 ARGV_MAX).1)
      = [[], [97], [98, 99]] := by
  have h := split_request_segments [101, 120, 101, 99, 35, 35, 97, 35, 98, 99, 0] 3
    (by decide) (by decide) (by decide) (by decide)
  exact ⟨h.1, by decide⟩

/-! ## Status trailer -/

theorem write_calls_task_put (s : State) (i : Int) : write_calls (task_put s i) = write_calls s := by
  unfold write_calls
  rw [task_put_log]
  split_ifs <;> simp [List.filterMap_append]

theorem int32_roundtrip (be : Bool) (v : Int) (h0 : -2147483648 ≤ v) (h1 : v < 2147483648) :
    int32_of_bytes be (int32_bytes be v) = v := by
  unfold int32_of_bytes int32_bytes
  cases be <;>
    simp only [Bool.false_eq_true, if_false, if_true, List.reverse_cons, List.reverse_nil,
      List.nil_append, List.cons_append, List.getD_cons_zero, List.getD_cons_succ] <;>
    split_ifs <;> omega

theorem write_calls_after_wait (be : Bool) (t : State) (pid status : Int)
    (hfound : 0 ≤ task_find t pid) (hopen : 0 < t.task_socks (task_find t pid)) :
    write_calls (after_wait be t pid status) =
      write_calls t ++
        [(t.task_socks (task_find t pid), RETURN_MARK ++ int32_bytes be status)] := by
  have hf : task_find { t with pid_count := t.pid_count - 1 } pid = task_find t pid := rfl
  unfold after_wait
  simp only [hf, ge_iff_le, hfound, if_true, gt_iff_lt, hopen]
  rw [write_calls_task_put]
  simp [write_calls, List.filterMap_append]

/-- C7.  When `task_find` finds `pid` in a slot whose client fd is open
(`> 0`), `after_wait` issues exactly one `write`, to that fd, of the 8 bytes
"####" followed by the four bytes of the `int32_t` status in the machine's
byte order; it then releases the slot with `task_put` and `pid_count` is one
less.  Reading the four bytes back gives the status, so for a normal exit
with code `c` (`status = c * 256`) the decoded exit code is `c`, and for
`c = 0` the trailer is "####" and four zero bytes. -/
theorem after_wait_trailer (be : Bool) (t : State) (pid status : Int)
    (hfound : 0 ≤ task_find t pid) (hopen : 0 < t.task_socks (task_find t pid))
    (h0 : -2147483648 ≤ status) (h1 : status < 2147483648) :
    write_calls (after_wait be t pid status) =
      write_calls t ++ [(t.task_socks (task_find t pid), RETURN_MARK ++ int32_bytes be status)] ∧
    (RETURN_MARK ++ int32_bytes be status).length = 8 ∧
    (RETURN_MARK ++ int32_bytes be status).take 4 = [35, 35, 35, 35] ∧
    int32_of_bytes be ((RETURN_MARK ++ int32_bytes be status).drop 4) = status ∧
    (∃ t1, after_wait be t pid status = task_put t1 (task_find t pid) ∧
      t1.task_pids = t.task_pids ∧ t1.task_socks = t.task_socks ∧ t1.task_buf = t.task_buf ∧
      t1.avaliable_list = t.avaliable_list ∧ t1.task_count = t.task_count) ∧
    (after_wait be t pid status).pid_count = t.pid_count - 1 ∧
    (∀ c : Int, 0 ≤ c → c ≤ 255 → status = c * 256 →
      int32_of_bytes be ((RETURN_MARK ++ int32_bytes be status).drop 4) / 256 % 256 = c) ∧
    (status = 0 → RETURN_MARK ++ int32_bytes be status = [35, 35, 35, 35, 0, 0, 0, 0]) := by
  have hrt : int32_of_bytes be ((RETURN_MARK ++ int32_bytes be status).drop 4) = status := by
    have : (RETURN_MARK ++ int32_bytes be status).drop 4 = int32_bytes be status := rfl
    rw [this, int32_roundtrip be status h0 h1]
  have hf : task_find { t with pid_count := t.pid_count - 1 } pid = task_find t pid := rfl
  have haw : after_wait be t pid status =
      task_put { t with
        pid_count := t.pid_count - 1
        log := Effect.write (t.task_socks (task_find t pid))
          (RETURN_MARK ++ int32_bytes be status) :: t.log } (task_find t pid) := by
    unfold after_wait
    simp only [hf, ge_iff_le, hfound, if_true, gt_iff_lt, hopen]
  refine ⟨?_, ?_, rfl, hrt, ⟨_, haw, rfl, rfl, rfl, rfl, rfl⟩, ?_, ?_, ?_⟩
  · rw [haw, write_calls_task_put]
    simp [write_calls, List.filterMap_append]
  · cases be <;> simp [int32_bytes]
  · rw [haw, task_put_pid_count]
  · intro c hc0 hc1 hs
    rw [hrt, hs]
    omega
  · intro hs
    subst hs
    cases be <;> simp [int32_bytes]

/-- C7 for `exec#/bin/false`: status 256 (exit code 1) reaped for pid 77 held
in slot 0 with client fd 5, on a little-endian machine. -/
theorem after_wait_trailer_witness :
    write_calls (after_wait false
        { startup with task_pids := Function.update startup.task_pids 0 77,
                       task_socks := Function.update startup.task_socks 0 5 } 77 256) =
      [(5, [35, 35, 35, 35, 0, 1, 0, 0])] := by
  have h := (after_wait_trailer false
    { startup with task_pids := Function.update startup.task_pids 0 77,
                   task_socks := Function.update startup.task_socks 0 5 } 77 256
    (by decide) (by decide) (by decide) (by decide)).1
  rw [h]
  decide

/-! ## Dispatch disciplines -/

theorem task_find_from_eq (p : Int → Int) (pid i : Int) : ∀ (n : Nat) (a : Int),
    a ≤ i → i < a + n → p i = pid → (∀ j, a ≤ j → j < i → p j ≠ pid) →
    task_find_from p pid n a = i
  | 0, a, h1, h2, _, _ => by omega
  | n + 1, a, h1, h2, hp, hlt => by
    by_cases e : a = i
    · subst e; simp [task_find_from, hp]
    · have hne : p a ≠ pid := hlt a (le_refl a) (by omega)
      simp only [task_find_from, if_neg hne]
      exact task_find_from_eq p pid i n (a + 1) (by omega) (by push_cast at h2; omega) hp
        (fun j hj1 hj2 => hlt j (by omega) hj2)

theorem task_find_eq (t : State) (pid i : Int) (h0 : 0 ≤ i) (h1 : i < MAX_TASKS)
    (hp : t.task_pids i = pid) (hlt : ∀ j, 0 ≤ j → j < i → t.task_pids j ≠ pid) :
    task_find t pid = i :=
  task_find_from_eq t.task_pids pid i _ 0 h0 (by simpa using h1) hp hlt

/-- The parent path of `client_after_read`, field by field. -/
theorem client_after_read_parent_eq (s : State) (i : Int) (buf : List Nat) (l : Int)
    (env : ClientEnv) (type : Nat) (hl : CMDLEN + 1 ≤ l) (hd : env.del_ok = true)
    (ht : classify buf = some type) (hp : 0 < env.fork_ret) :
    (client_after_read s i buf l env).task_pids = Function.update s.task_pids i env.fork_ret ∧
    (client_after_read s i buf l env).task_buf = Function.update s.task_buf i none ∧
    (client_after_read s i buf l env).pid_count = s.pid_count + 1 ∧
    (client_after_read s i buf l env).task_count = s.task_count ∧
    (client_after_read s i buf l env).avaliable_list = s.avaliable_list ∧
    (client_after_read s i buf l env).task_socks =
      (if type = EXECID then s.task_socks else Function.update s.task_socks i (-1)) ∧
    (client_after_read s i buf l env).epoll =
      s.epoll.filter (fun e => e.1 != s.task_socks i) ∧
    (client_after_read s i buf l env).log =
      (if type = EXECID then [] else [Effect.close (s.task_socks i)]) ++
        Effect.fork env.fork_ret :: Effect.after_read i buf l :: s.log := by
  have hl2 : ¬ l < CMDLEN + 1 := by omega
  have hd2 : ¬ env.del_ok = false := by simp [hd]
  have hp2 : ¬ env.fork_ret < 0 := by omega
  unfold client_after_read
  simp only [if_neg hl2, if_neg hd2, ht]
  unfold after_fork
  simp only [if_neg hp2, gt_iff_lt, hp, if_true]
  by_cases hE : type = EXECID
  · simp only [if_pos hE, task_freebuf_task_buf, task_freebuf_other]
    simp
  · simp only [if_neg hE, sys_close, task_freebuf_task_buf, task_freebuf_other]
    simp [List.filter_filter]

/-- C8.  For a valid request (at least 5 bytes, a known tag, descriptor
removed from the epoll set) for which `fork` returns `pid > 0`,
`client_after_read` stores `pid` in `task_pids[i]`, leaves no pending buffer
and increments `pid_count`; for EXEC the client fd is unchanged and nothing
is closed, for PIPE and NRET the client fd is closed and set to -1.  When
`pid` is reaped in a later state `t` in which slot `i` (an index of the
table, the first one holding `pid`) still has these values, `after_wait`
writes the trailer to the client fd for EXEC (when that fd is a connected
socket, `> 0`), writes nothing for PIPE and NRET, and releases slot `i` in
all three cases. -/
theorem dispatch_disciplines (be : Bool) (s : State) (i : Int) (buf : List Nat) (l : Int)
    (env : ClientEnv) (type : Nat) (hl : CMDLEN + 1 ≤ l) (hd : env.del_ok = true)
    (ht : classify buf = some type) (hp : 0 < env.fork_ret) :
    (client_after_read s i buf l env).task_pids i = env.fork_ret ∧
    (client_after_read s i buf l env).task_buf i = none ∧
    (client_after_read s i buf l env).pid_count = s.pid_count + 1 ∧
    (type = EXECID →
      (client_after_read s i buf l env).task_socks i = s.task_socks i ∧
      ∀ fd, Effect.close fd ∈ (client_after_read s i buf l env).log → Effect.close fd ∈ s.log) ∧
    (type ≠ EXECID →
      (client_after_read s i buf l env).task_socks i = -1 ∧
      Effect.close (s.task_socks i) ∈ (client_after_read s i buf l env).log) ∧
    (∀ (t : State) (status : Int), 0 ≤ i → i < MAX_TASKS →
      t.task_pids i = env.fork_ret →
      t.task_socks i = (client_after_read s i buf l env).task_socks i →
      (∀ j, 0 ≤ j → j < i → t.task_pids j ≠ env.fork_ret) →
      (type = EXECID → 0 < s.task_socks i →
        write_calls (after_wait be t env.fork_ret status) =
          write_calls t ++ [(s.task_socks i, RETURN_MARK ++ int32_bytes be status)]) ∧
      (type ≠ EXECID →
        write_calls (after_wait be t env.fork_ret status) = write_calls t) ∧
      (∃ t1, after_wait be t env.fork_ret status = task_put t1 i ∧
        t1.task_pids = t.task_pids ∧ t1.task_socks = t.task_socks ∧ t1.task_buf = t.task_buf ∧
        t1.avaliable_list = t.avaliable_list ∧ t1.task_count = t.task_count)) := by
  obtain ⟨e1, e2, e3, -, -, e6, -, e8⟩ := client_after_read_parent_eq s i buf l env type hl hd ht hp
  refine ⟨by rw [e1]; simp, by rw [e2]; simp, e3, fun hE => ?_, fun hE => ?_, ?_⟩
  · rw [e6, e8, if_pos hE, if_pos hE]
    refine ⟨rfl, fun fd hfd => ?_⟩
    simpa using hfd
  · rw [e6, e8, if_neg hE, if_neg hE]
    exact ⟨by simp, by simp⟩
  · intro t status h0 h1 hpid hsock hleast
    have hf : task_find t env.fork_ret = i := task_find_eq t _ i h0 h1 hpid hleast
    have hf2 : task_find { t with pid_count := t.pid_count - 1 } env.fork_ret = i := hf
    refine ⟨fun hE hopen => ?_, fun hE => ?_, ?_⟩
    · rw [e6, if_pos hE] at hsock
      have hopen2 : 0 < t.task_socks (task_find t env.fork_ret) := by rw [hf, hsock]; exact hopen
      have := (write_calls_after_wait be t env.fork_ret status (by rw [hf]; exact h0) hopen2)
      rw [this, hf, hsock]
    · rw [e6, if_neg hE] at hsock
      simp only [Function.update_same] at hsock
      have hcl : ¬ (t.task_socks i > 0) := by rw [hsock]; decide
      unfold after_wait
      simp only [hf2, ge_iff_le, h0, if_true, hcl, if_false]
      rw [write_calls_task_put]
      rfl
    · unfold after_wait
      simp only [hf2, ge_iff_le, h0, if_true]
      split_ifs
      · exact ⟨_, rfl, rfl, rfl, rfl, rfl, rfl⟩
      · exact ⟨_, rfl, rfl, rfl, rfl, rfl, rfl⟩

/-- C8 for `exec#ls` in slot 0 with client fd 5 and child 77: the fd stays
5, and reaping 77 with status 0 writes the trailer to fd 5. -/
theorem dispatch_disciplines_witness :
    (client_after_read
        { startup with task_socks := Function.update startup.task_socks 0 5 } 0
        [101, 120, 101, 99, 35, 108, 115, 0] 8 ⟨[], true, true, 77⟩).task_pids 0 = 77 ∧
    (client_after_read
        { startup with task_socks := Function.update startup.task_socks 0 5 } 0
        [101, 120, 101, 99, 35, 108, 115, 0] 8 ⟨[], true, true, 77⟩).task_socks 0 = 5 ∧
    write_calls (after_wait false (client_after_read
        { startup with task_socks := Function.update startup.task_socks 0 5 } 0
        [101, 120, 101, 99, 35, 108, 115, 0] 8 ⟨[], true, true, 77⟩) 77 0) =
      [(5, [35, 35, 35, 35, 0, 0, 0, 0])] := by
  have h := dispatch_disciplines false
    { startup with task_socks := Function.update startup.task_socks 0 5 } 0
    [101, 120, 101, 99, 35, 108, 115, 0] 8 ⟨[], true, true, 77⟩ EXECID
    (by decide) rfl (by decide) (by decide)
  refine ⟨h.1, (h.2.2.2.1 rfl).1, ?_⟩
  have h2 := (h.2.2.2.2.2 _ 0 (by decide) (by decide) h.1 rfl (by intro j h0 h1; omega)).1 rfl
    (by decide)
  rw [h2]
  decide

/-! ## Reading a request -/

theorem read_loop_full (size : Int) (reads : List ReadResult) (buf : List Nat) (ret : Int)
    (h : ¬ (size - buf.length > 0)) :
    read_loop size reads buf ret = { buf := buf, ret := ret, eagain := false } := by
  cases reads <;> simp only [read_loop, if_neg h]

/-- The loop stores the offered bytes up to `size`; it is left with a
positive `ret` when they fill the buffer, and otherwise with the answer of
the `read` that found no data. -/
theorem read_loop_spec (size : Int) : ∀ (reads : List ReadResult) (buf : List Nat) (ret : Int),
    (buf.length : Int) < size →
    (((size - buf.length).toNat ≤ (delivered reads).length →
        (read_loop size reads buf ret).buf = buf ++ (delivered reads).take (size - buf.length).toNat ∧
        0 < (read_loop size reads buf ret).ret) ∧
      ((delivered reads).length < (size - buf.length).toNat →
        (read_loop size reads buf ret).buf = buf ++ delivered reads ∧
        (read_end reads = .again →
          (read_loop size reads buf ret).ret = -1 ∧ (read_loop size reads buf ret).eagain = true) ∧
        (read_end reads = .err →
          (read_loop size reads buf ret).ret = -1 ∧ (read_loop size reads buf ret).eagain = false) ∧
        (read_end reads = .eof → (read_loop size reads buf ret).ret = 0) ∧
        (∀ bs, read_end reads ≠ .data bs)))
  | [], buf, ret, h => by
    have hpos : size - buf.length > 0 := by omega
    simp only [delivered, read_end, read_loop, if_pos hpos]
    refine ⟨fun hc => ?_, fun _ => ?_⟩
    · simp only [List.length_nil] at hc; omega
    · simp
  | .again :: rest, buf, ret, h => by
    have hpos : size - buf.length > 0 := by omega
    simp only [delivered, read_end, read_loop, if_pos hpos]
    refine ⟨fun hc => ?_, fun _ => ?_⟩
    · simp only [List.length_nil] at hc; omega
    · simp
  | .err :: rest, buf, ret, h => by
    have hpos : size - buf.length > 0 := by omega
    simp only [delivered, read_end, read_loop, if_pos hpos]
    refine ⟨fun hc => ?_, fun _ => ?_⟩
    · simp only [List.length_nil] at hc; omega
    · simp
  | .eof :: rest, buf, ret, h => by
    have hpos : size - buf.length > 0 := by omega
    simp only [delivered, read_end, read_loop, if_pos hpos]
    refine ⟨fun hc => ?_, fun _ => ?_⟩
    · simp only [List.length_nil] at hc; omega
    · simp
  | .data bs :: rest, buf, ret, h => by
    have hpos : size - buf.length > 0 := by omega
    by_cases hb : bs.length = 0
    · have hg : (bs.take (size - buf.length).toNat).length = 0 := by
        rw [List.length_take, hb]; omega
      simp only [delivered, read_end, read_loop, if_pos hpos, if_pos hb, if_pos hg]
      refine ⟨fun hc => ?_, fun _ => ?_⟩
      · simp only [List.length_nil] at hc; omega
      · simp
    · have hg : ¬ (bs.take (size - buf.length).toNat).length = 0 := by
        rw [List.length_take]; omega
      simp only [delivered, read_end, read_loop, if_pos hpos, if_neg hb, if_neg hg,
        List.length_append]
      by_cases hfit : bs.length < (size - buf.length).toNat
      · have htk : bs.take (size - buf.length).toNat = bs :=
          List.take_of_length_le (by omega)
        have h2 : ((buf ++ bs).length : Int) < size := by
          rw [List.length_append]; push_cast; omega
        have ih := read_loop_spec size rest (buf ++ bs) bs.length h2
        have hn : (size - ((buf ++ bs).length : Int)).toNat
            = (size - buf.length).toNat - bs.length := by
          rw [List.length_append]; push_cast; omega
        rw [htk]
        rw [hn] at ih
        refine ⟨fun hc => ?_, fun hc => ?_⟩
        · have := ih.1 (by omega)
          rw [List.take_append_eq_append_take, List.take_of_length_le (by omega : bs.length ≤ _),
            ← List.append_assoc]
          exact this
        · have := ih.2 (by omega)
          rw [← List.append_assoc]
          exact this
      · have hlen : ((buf ++ bs.take (size - buf.length).toNat).length : Int) = size := by
          rw [List.length_append, List.length_take]; push_cast; omega
        have hfull : ¬ (size - ((buf ++ bs.take (size - buf.length).toNat).length : Int) > 0) := by
          omega
        rw [read_loop_full size rest _ _ hfull]
        refine ⟨fun _ => ⟨?_, ?_⟩, fun hc => ?_⟩
        · simp only
          rw [List.take_append_eq_append_take]
          have : (size - (buf.length : Int)).toNat - bs.length = 0 := by omega
          rw [this, List.take_zero, List.append_nil]
        · simp only
          rw [List.length_take]
          omega
        · omega

theorem byte_at_append_singleton (buf : List Nat) (x : Nat) :
    byte_at (buf ++ [x]) (((buf ++ [x]).length : Int) - 1) = x := by
  unfold byte_at
  have h1 : ¬ (((buf ++ [x]).length : Int) - 1 < 0) := by
    rw [List.length_append]; push_cast; simp
  have h2 : (((buf ++ [x]).length : Int) - 1).toNat = buf.length := by
    rw [List.length_append]; push_cast; simp
  rw [if_neg h1, h2]
  simp [List.getD_eq_getElem?_getD]

/-- Value of `client_readbuf` when the offered bytes fill the buffer. -/
theorem client_readbuf_full (reads : List ReadResult) (size : Int) (h0 : 0 < size)
    (hd : size.toNat ≤ (delivered reads).length) :
    client_readbuf reads size =
      if byte_at ((delivered reads).take size.toNat) (size - 1) ≠ 0 then
        (-1, (delivered reads).take size.toNat)
      else (size, (delivered reads).take size.toNat) := by
  have hs := (read_loop_spec size reads [] 0 (by simpa using h0)).1 (by simpa using hd)
  simp only [List.length_nil, Nat.cast_zero, sub_zero, List.nil_append] at hs
  obtain ⟨hb, hr⟩ := hs
  have hlen : (((delivered reads).take size.toNat).length : Int) = size := by
    rw [List.length_take]; omega
  unfold client_readbuf
  have h1 : ¬ size ≤ 0 := by omega
  have h2 : ¬ ((read_loop size reads [] 0).ret < 0 ∧ (read_loop size reads [] 0).eagain = false) :=
    fun c => by omega
  have h3 : ¬ ((read_loop size reads [] 0).ret = 0 ∧
      ((read_loop size reads [] 0).buf.length : Int) + 1 ≤ size ∧
      ((read_loop size reads [] 0).buf.length : Int) - 1 ≥ 0 ∧
      byte_at (read_loop size reads [] 0).buf
        (((read_loop size reads [] 0).buf.length : Int) - 1) ≠ 0) :=
    fun c => by omega
  simp only [if_neg h1, if_neg h2, if_neg h3]
  rw [hb, hlen]
  simp

/-- Value of `client_readbuf` when the offered bytes do not fill the buffer and the
next `read` would block. -/
theorem client_readbuf_again (reads : List ReadResult) (size : Int) (h0 : 0 < size)
    (hd : (delivered reads).length < size.toNat) (he : read_end reads = .again) :
    client_readbuf reads size = (((delivered reads).length : Int), delivered reads) := by
  have hs := (read_loop_spec size reads [] 0 (by simpa using h0)).2 (by simpa using hd)
  simp only [List.length_nil, Nat.cast_zero, sub_zero, List.nil_append] at hs
  obtain ⟨hb, ha, -, -, -⟩ := hs
  obtain ⟨hr, hg⟩ := ha he
  unfold client_readbuf
  have h1 : ¬ size ≤ 0 := by omega
  have h2 : ¬ ((read_loop size reads [] 0).ret < 0 ∧ (read_loop size reads [] 0).eagain = false) :=
    fun c => by simp [hg] at c
  have h3 : ¬ ((read_loop size reads [] 0).ret = 0 ∧
      ((read_loop size reads [] 0).buf.length : Int) + 1 ≤ size ∧
      ((read_loop size reads [] 0).buf.length : Int) - 1 ≥ 0 ∧
      byte_at (read_loop size reads [] 0).buf
        (((read_loop size reads [] 0).buf.length : Int) - 1) ≠ 0) :=
    fun c => by omega
  simp only [if_neg h1, if_neg h2, if_neg h3]
  rw [hb]
  have h4 : ¬ (size - ((delivered reads).length : Int) = 0 ∧
      byte_at (delivered reads) (((delivered reads).length : Int) - 1) ≠ 0) :=
    fun c => by omega
  rw [if_neg h4]

/-- Value of `client_readbuf` when a `read` fails with an `errno` other than
`EAGAIN`. -/
theorem client_readbuf_err (reads : List ReadResult) (size : Int) (h0 : 0 < size)
    (hd : (delivered reads).length < size.toNat) (he : read_end reads = .err) :
    (client_readbuf reads size).1 = -1 := by
  have hs := (read_loop_spec size reads [] 0 (by simpa using h0)).2 (by simpa using hd)
  obtain ⟨-, -, ha, -, -⟩ := hs
  obtain ⟨hr, hg⟩ := ha he
  unfold client_readbuf
  have h1 : ¬ size ≤ 0 := by omega
  have h2 : ((read_loop size reads [] 0).ret < 0 ∧ (read_loop size reads [] 0).eagain = false) :=
    ⟨by omega, hg⟩
  simp only [if_neg h1, if_pos h2]

/-- Value of `client_readbuf` when the peer closes before the buffer is full. -/
theorem client_readbuf_eof (reads : List ReadResult) (size : Int) (h0 : 0 < size)
    (hd : (delivered reads).length < size.toNat) (he : read_end reads = .eof) :
    client_readbuf reads size =
      if 1 ≤ (delivered reads).length ∧
          byte_at (delivered reads) (((delivered reads).length : Int) - 1) ≠ 0 then
        (((delivered reads).length : Int) + 1, delivered reads ++ [0])
      else (((delivered reads).length : Int), delivered reads) := by
  have hs := (read_loop_spec size reads [] 0 (by simpa using h0)).2 (by simpa using hd)
  simp only [List.length_nil, Nat.cast_zero, sub_zero, List.nil_append] at hs
  obtain ⟨hb, -, -, ha, -⟩ := hs
  have hr := ha he
  unfold client_readbuf
  have h1 : ¬ size ≤ 0 := by omega
  have h2 : ¬ ((read_loop size reads [] 0).ret < 0 ∧ (read_loop size reads [] 0).eagain = false) :=
    fun c => by omega
  simp only [if_neg h1, if_neg h2]
  rw [hb, hr]
  by_cases hc : 1 ≤ (delivered reads).length ∧
      byte_at (delivered reads) (((delivered reads).length : Int) - 1) ≠ 0
  · have hc2 : (0 : Int) = 0 ∧ ((delivered reads).length : Int) + 1 ≤ size ∧
        ((delivered reads).length : Int) - 1 ≥ 0 ∧
        byte_at (delivered reads) (((delivered reads).length : Int) - 1) ≠ 0 :=
      ⟨rfl, by omega, by omega, hc.2⟩
    rw [if_pos hc2, if_pos hc]
    have h4 : ¬ (size - ((delivered reads ++ [0]).length : Int) = 0 ∧
        byte_at (delivered reads ++ [0]) (((delivered reads ++ [0]).length : Int) - 1) ≠ 0) := by
      rw [byte_at_append_singleton]; simp
    rw [if_neg h4]
    simp
  · have hc2 : ¬ ((0 : Int) = 0 ∧ ((delivered reads).length : Int) + 1 ≤ size ∧
        ((delivered reads).length : Int) - 1 ≥ 0 ∧
        byte_at (delivered reads) (((delivered reads).length : Int) - 1) ≠ 0) := by
      rintro ⟨-, -, c3, c4⟩
      exact hc ⟨by omega, c4⟩
    rw [if_neg hc2, if_neg hc]
    have h4 : ¬ (size - ((delivered reads).length : Int) = 0 ∧
        byte_at (delivered reads) (((delivered reads).length : Int) - 1) ≠ 0) :=
      fun c => by omega
    rw [if_neg h4]

theorem read_end_ne_data : ∀ (reads : List ReadResult) (bs : List Nat), read_end reads ≠ .data bs
  | [], _ => by simp [read_end]
  | .again :: _, _ => by simp [read_end]
  | .err :: _, _ => by simp [read_end]
  | .eof :: _, _ => by simp [read_end]
  | .data cs :: rest, bs => by
    simp only [read_end]
    split_ifs
    · simp
    · exact read_end_ne_data rest bs

theorem client_readbuf_le (reads : List ReadResult) (size : Int)
    (h : 0 ≤ (client_readbuf reads size).1) : (client_readbuf reads size).1 ≤ size := by
  by_cases h0 : size ≤ 0
  · simp [client_readbuf, h0] at h
  · have hpos : 0 < size := by omega
    by_cases hd : size.toNat ≤ (delivered reads).length
    · rw [client_readbuf_full reads size hpos hd] at h ⊢
      split_ifs at h ⊢
      · simp at h
      · simp
    · have hlt : (delivered reads).length < size.toNat := by omega
      cases he : read_end reads with
      | again => rw [client_readbuf_again reads size hpos hlt he]; simp only; omega
      | err => rw [client_readbuf_err reads size hpos hlt he] at h; omega
      | eof =>
        rw [client_readbuf_eof reads size hpos hlt he]
        split_ifs <;> simp only <;> omega
      | data bs => exact absurd he (read_end_ne_data reads bs)

theorem byte_at_take (d : List Nat) (n : Nat) (k : Int) (h : k < n) :
    byte_at (d.take n) k = byte_at d k := by
  unfold byte_at
  split_ifs
  · rfl
  · have : k.toNat < n := by omega
    simp [List.getD_eq_getElem?_getD, List.getElem?_take, this]

theorem byte_at_append_right (b d : List Nat) (k : Int) (h : (b.length : Int) ≤ k) :
    byte_at (b ++ d) k = byte_at d (k - b.length) := by
  unfold byte_at
  have h1 : ¬ k < 0 := by omega
  have h2 : ¬ k - (b.length : Int) < 0 := by omega
  have h3 : (k - (b.length : Int)).toNat = k.toNat - b.length := by omega
  rw [if_neg h1, if_neg h2, h3]
  simp only [List.getD_eq_getElem?_getD]
  rw [List.getElem?_append_right (by omega)]

theorem after_read_calls_task_put (s : State) (i : Int) :
    after_read_calls (task_put s i) = after_read_calls s := by
  unfold after_read_calls
  rw [task_put_log]
  split_ifs <;> simp [List.filterMap_append]

theorem client_process_stack_oversize (s : State) (i : Int) (env : ClientEnv)
    (hb : s.task_buf i = none) (hd : 5100 ≤ (delivered env.reads).length)
    (hz : byte_at (delivered env.reads) 5099 ≠ 0) : client_process s i env = task_put s i := by
  have hr := client_readbuf_full env.reads REQUESTBUF_SIZE (by decide) (by simpa using hd)
  have hbt : byte_at ((delivered env.reads).take REQUESTBUF_SIZE.toNat) (REQUESTBUF_SIZE - 1)
      = byte_at (delivered env.reads) 5099 := byte_at_take _ _ _ (by decide)
  rw [hbt, if_pos hz] at hr
  unfold client_process task_getbuf
  simp only [hb, hr]
  simp

theorem client_process_pending_oversize (s : State) (i : Int) (env : ClientEnv) (b : List Nat)
    (hb : s.task_buf i = some b) (hd : 5100 ≤ b.length + (delivered env.reads).length)
    (hz : byte_at (b ++ delivered env.reads) 5099 ≠ 0) : client_process s i env = task_put s i := by
  have hl : (client_readbuf env.reads (REQUESTBUF_SIZE - b.length)).1 < 0 := by
    by_cases h0 : REQUESTBUF_SIZE - (b.length : Int) ≤ 0
    · simp [client_readbuf, h0]
    · have hM : REQUESTBUF_SIZE = 5100 := rfl
      have hr := client_readbuf_full env.reads (REQUESTBUF_SIZE - b.length) (by omega) (by omega)
      have hbt : byte_at ((delivered env.reads).take (REQUESTBUF_SIZE - (b.length : Int)).toNat)
          (REQUESTBUF_SIZE - b.length - 1) = byte_at (b ++ delivered env.reads) 5099 := by
        rw [byte_at_take _ _ _ (by omega), byte_at_append_right b _ 5099 (by omega)]
        congr 1
        omega
      rw [hbt, if_pos hz] at hr
      rw [hr]
      show (-1 : Int) < 0
      omega
  unfold client_process task_getbuf
  simp only [hb, if_pos hl]

/-- C4.  Whatever the `read` calls return: when they offer at least `size`
bytes and byte `size - 1` is not NUL, `client_readbuf` returns -1; a
non-negative value it returns is at most `size`.  When the request reaches
`REQUESTBUF_SIZE` bytes with a last byte that is not NUL, in one event into
the stack buffer or on top of a pending buffer `b`, `client_process` is
`task_put` of the slot, which records no call of `client_after_read` and no
`fork`. -/
theorem oversize_rejection (s : State) (i : Int) (env : ClientEnv) (reads : List ReadResult)
    (size : Int) :
    (0 < size → size.toNat ≤ (delivered reads).length →
      byte_at (delivered reads) (size - 1) ≠ 0 → (client_readbuf reads size).1 = -1) ∧
    (0 ≤ (client_readbuf reads size).1 → (client_readbuf reads size).1 ≤ size) ∧
    (s.task_buf i = none → 5100 ≤ (delivered env.reads).length →
      byte_at (delivered env.reads) 5099 ≠ 0 → client_process s i env = task_put s i) ∧
    (∀ b, s.task_buf i = some b → 5100 ≤ b.length + (delivered env.reads).length →
      byte_at (b ++ delivered env.reads) 5099 ≠ 0 → client_process s i env = task_put s i) ∧
    after_read_calls (task_put s i) = after_read_calls s ∧
    fork_calls (task_put s i) = fork_calls s := by
  refine ⟨fun h0 hd hz => ?_, client_readbuf_le reads size,
    client_process_stack_oversize s i env, client_process_pending_oversize s i env,
    after_read_calls_task_put s i, fork_calls_task_put s i⟩
  rw [client_readbuf_full reads size h0 hd, byte_at_take _ _ _ (by omega), if_pos hz]

/-- C4 at a buffer of 3 bytes offered "abcd" in two reads. -/
theorem oversize_rejection_witness :
    client_readbuf [.data [97, 98], .data [99, 100]] 3 = (-1, [97, 98, 99]) ∧
    (client_readbuf [.data [97, 98], .data [99, 100]] 3).1 = -1 :=
  ⟨by decide, (oversize_rejection startup 0 ⟨[], true, true, 1⟩ [.data [97, 98], .data [99, 100]] 3).1
    (by decide) (by decide) (by decide)⟩

/-! ## Framing -/

theorem task_put_eq (s : State) (i : Int) :
    task_put s i =
      { pid_count := s.pid_count
        task_count := s.task_count - 1
        task_pids := Function.update s.task_pids i s.avaliable_list
        task_socks := Function.update s.task_socks i (-1)
        task_buf := Function.update s.task_buf i none
        avaliable_list := -i
        epoll := if s.task_socks i > 0 then s.epoll.filter (fun e => e.1 != s.task_socks i)
          else s.epoll
        log := if s.task_socks i > 0 then Effect.close (s.task_socks i) :: s.log else s.log } := by
  have h1 := task_put_task_pids s i
  have h2 := task_put_avaliable_list s i
  have h3 := task_put_task_count s i
  have h4 := task_put_pid_count s i
  have h5 := task_put_task_socks s i
  have h6 := task_put_task_buf s i
  have h7 := task_put_epoll s i
  have h8 := task_put_log s i
  generalize task_put s i = t at *
  cases t
  simp only at h1 h2 h3 h4 h5 h6 h7 h8
  subst h1 h2 h3 h4 h5 h6 h7 h8
  rfl

theorem task_put_set_buf (s : State) (i : Int) (x : Option (List Nat)) :
    task_put { s with task_buf := Function.update s.task_buf i x } i = task_put s i := by
  rw [task_put_eq, task_put_eq]
  simp

theorem after_read_calls_after_fork (s : State) (i cl : Int) (type : Nat) (buf : List Nat)
    (l pid : Int) : after_read_calls (after_fork s i cl type buf l pid) = after_read_calls s := by
  unfold after_fork
  simp only
  split_ifs
  · rw [after_read_calls_task_put]; simp [after_read_calls, List.filterMap_append]
  · simp [after_read_calls, List.filterMap_append, (task_freebuf_other _ i).2.2.2.2.2.2]
  · simp [after_read_calls, List.filterMap_append, (task_freebuf_other _ i).2.2.2.2.2.2, sys_close]
  · simp [after_read_calls, List.filterMap_append, pipe_process]
  · simp [after_read_calls, List.filterMap_append, exec_process, sys_close]

theorem after_read_calls_client_after_read (s : State) (i : Int) (buf : List Nat) (l : Int)
    (env : ClientEnv) :
    after_read_calls (client_after_read s i buf l env) = after_read_calls s ++ [(i, buf, l)] := by
  have h0 : after_read_calls { s with log := Effect.after_read i buf l :: s.log } =
      after_read_calls s ++ [(i, buf, l)] := by
    simp [after_read_calls, List.filterMap_append]
  have h1 : after_read_calls { s with
      log := Effect.after_read i buf l :: s.log
      epoll := s.epoll.filter (fun e => e.1 != s.task_socks i) } =
      after_read_calls s ++ [(i, buf, l)] := by
    simp [after_read_calls, List.filterMap_append]
  unfold client_after_read
  simp only
  by_cases hl : l < CMDLEN + 1
  · rw [if_pos hl, after_read_calls_task_put, h0]
  · rw [if_neg hl]
    by_cases hd : env.del_ok = false
    · rw [if_pos hd, after_read_calls_task_put, h0]
    · rw [if_neg hd]
      cases hc : classify buf with
      | none => simp only; rw [after_read_calls_task_put]; exact h1
      | some type => simp only; rw [after_read_calls_after_fork]; exact h1

theorem delivered_chunk (c : List Nat) (hc : c ≠ []) : delivered [.data c, .again] = c := by
  have : ¬ c.length = 0 := fun e => hc (List.length_eq_zero.1 e)
  simp [delivered, this]

theorem read_end_chunk (c : List Nat) (hc : c ≠ []) : read_end [.data c, .again] = .again := by
  have : ¬ c.length = 0 := fun e => hc (List.length_eq_zero.1 e)
  simp [read_end, this]

theorem byte_at_mem (c : List Nat) (k : Int) (h0 : 0 ≤ k) (h1 : k < c.length) :
    byte_at c k ∈ c := by
  unfold byte_at
  have hk : k.toNat < c.length := by omega
  rw [if_neg (by omega), List.getD_eq_getElem?_getD, List.getElem?_eq_getElem hk]
  exact List.getElem_mem hk

theorem byte_at_last (c : List Nat) (x : Nat) (h : c.getLast? = some x) :
    byte_at c ((c.length : Int) - 1) = x := by
  obtain ⟨body, rfl⟩ : ∃ body, c = body ++ [x] :=
    ⟨c.dropLast, (List.dropLast_append_getLast? x h).symm⟩
  exact byte_at_append_singleton body x

/-- One event that finds a chunk which fits the buffer and, if it fills it,
ends in NUL: `client_readbuf` returns the chunk. -/
theorem client_readbuf_chunk (c : List Nat) (size : Int) (hc : c ≠ [])
    (hfit : (c.length : Int) ≤ size)
    (hz : (c.length : Int) = size → byte_at c ((c.length : Int) - 1) = 0) :
    client_readbuf [.data c, .again] size = ((c.length : Int), c) := by
  have hpos : 0 < c.length := List.length_pos.2 hc
  by_cases he : (c.length : Int) = size
  · have hr := client_readbuf_full [.data c, .again] size (by omega)
      (by rw [delivered_chunk c hc]; omega)
    rw [delivered_chunk c hc, List.take_of_length_le (by omega)] at hr
    have hz2 : ¬ byte_at c (size - 1) ≠ 0 := by
      rw [← he]; simpa using hz he
    rw [hr, if_neg hz2, he]
  · have hr := client_readbuf_again [.data c, .again] size (by omega)
      (by rw [delivered_chunk c hc]; omega) (read_end_chunk c hc)
    rw [delivered_chunk c hc] at hr
    exact hr

theorem client_process_stack_complete (s : State) (i : Int) (env : ClientEnv) (r : List Nat)
    (hb : s.task_buf i = none) (hlen : (r.length : Int) ≤ REQUESTBUF_SIZE)
    (hlast : r.getLast? = some 0) :
    client_process s i (chunk_env env r) =
      client_after_read s i r r.length (chunk_env env r) := by
  have hne : r ≠ [] := by rintro rfl; simp at hlast
  have hpos : 0 < r.length := List.length_pos.2 hne
  have hz := byte_at_last r 0 hlast
  have hr := client_readbuf_chunk r REQUESTBUF_SIZE hne hlen (fun _ => hz)
  unfold client_process task_getbuf
  have hreads : (chunk_env env r).reads = [.data r, .again] := rfl
  simp only [hb, hreads, hr]
  have h1 : ¬ ((r.length : Int) ≤ 0) := by omega
  have h2 : ¬ (byte_at r ((r.length : Int) - 1) ≠ 0) := by simp [hz]
  rw [if_neg h1, if_neg h2]

theorem client_process_stack_partial (s : State) (i : Int) (env : ClientEnv) (c : List Nat)
    (hb : s.task_buf i = none) (hm : env.malloc_ok = true) (hne : c ≠ [])
    (hlen : (c.length : Int) < REQUESTBUF_SIZE) (h0 : 0 ∉ c) :
    client_process s i (chunk_env env c) =
      { s with task_buf := Function.update s.task_buf i (some c) } := by
  have hpos : 0 < c.length := List.length_pos.2 hne
  have hz : byte_at c ((c.length : Int) - 1) ≠ 0 := fun e =>
    h0 (e ▸ byte_at_mem c _ (by omega) (by omega))
  have hr := client_readbuf_chunk c REQUESTBUF_SIZE hne (by omega) (fun e => by omega)
  unfold client_process task_getbuf
  have hreads : (chunk_env env c).reads = [.data c, .again] := rfl
  have hmal : (chunk_env env c).malloc_ok = true := hm
  simp only [hb, hreads, hr]
  have h1 : ¬ ((c.length : Int) ≤ 0) := by omega
  rw [if_neg h1, if_pos hz]
  have h3 : ¬ (((task_allocbuf s i (chunk_env env c).malloc_ok).task_buf i).isNone = true ∨
      REQUESTBUF_SIZE < (c.length : Int)) := by
    have hM : REQUESTBUF_SIZE = 5100 := rfl
    simp [task_allocbuf, hb, hmal]
    omega
  rw [if_neg h3]
  simp [task_allocbuf, hb, hmal, List.take_of_length_le]

theorem client_process_pending_partial (s : State) (i : Int) (env : ClientEnv) (b c : List Nat)
    (hb : s.task_buf i = some b) (hne : c ≠ [])
    (hlen : (b.length : Int) + c.length < REQUESTBUF_SIZE) (h0 : 0 ∉ c) :
    client_process s i (chunk_env env c) =
      { s with task_buf := Function.update s.task_buf i (some (b ++ c)) } := by
  have hpos : 0 < c.length := List.length_pos.2 hne
  have hz : byte_at c ((c.length : Int) - 1) ≠ 0 := fun e =>
    h0 (e ▸ byte_at_mem c _ (by omega) (by omega))
  have hr := client_readbuf_chunk c (REQUESTBUF_SIZE - b.length) hne (by omega) (fun e => by omega)
  unfold client_process task_getbuf
  have hreads : (chunk_env env c).reads = [.data c, .again] := rfl
  simp only [hb, hreads, hr]
  have h1 : ¬ ((c.length : Int) < 0) := by omega
  have h2 : ¬ ((c.length : Int) = 0 ∧ (b.length : Int) < REQUESTBUF_SIZE) := fun e => by omega
  have hz2 : byte_at (b ++ c) (((b ++ c).length : Int) - 1) ≠ 0 := by
    rw [byte_at_append_right b c _ (by rw [List.length_append]; push_cast; omega)]
    have : ((b ++ c).length : Int) - 1 - b.length = (c.length : Int) - 1 := by
      rw [List.length_append]; push_cast; omega
    rw [this]; exact hz
  rw [if_neg h1, if_neg h2]
  simp only [Int.toNat_ofNat, List.take_length]
  rw [if_pos hz2]

theorem client_process_pending_complete (s : State) (i : Int) (env : ClientEnv)
    (b c : List Nat) (hb : s.task_buf i = some b)
    (hlen : (b.length : Int) + c.length ≤ REQUESTBUF_SIZE) (hlast : c.getLast? = some 0) :
    client_process s i (chunk_env env c) =
      client_after_read { s with task_buf := Function.update s.task_buf i (some (b ++ c)) } i
        (b ++ c) (b ++ c).length (chunk_env env c) := by
  have hne : c ≠ [] := by rintro rfl; simp at hlast
  have hpos : 0 < c.length := List.length_pos.2 hne
  have hz := byte_at_last c 0 hlast
  have hr := client_readbuf_chunk c (REQUESTBUF_SIZE - b.length) hne (by omega) (fun _ => hz)
  unfold client_process task_getbuf
  have hreads : (chunk_env env c).reads = [.data c, .again] := rfl
  simp only [hb, hreads, hr]
  have h1 : ¬ ((c.length : Int) < 0) := by omega
  have h2 : ¬ ((c.length : Int) = 0 ∧ (b.length : Int) < REQUESTBUF_SIZE) := fun e => by omega
  have hz2 : ¬ byte_at (b ++ c) (((b ++ c).length : Int) - 1) ≠ 0 := by
    rw [byte_at_append_right b c _ (by rw [List.length_append]; push_cast; omega)]
    have : ((b ++ c).length : Int) - 1 - b.length = (c.length : Int) - 1 := by
      rw [List.length_append]; push_cast; omega
    rw [this, hz]; simp
  rw [if_neg h1, if_neg h2]
  simp only [Int.toNat_ofNat, List.take_length]
  rw [if_neg hz2]

theorem flatten_ne_nil {c : List Nat} {cs : List (List Nat)} (hc : c ≠ []) :
    (c :: cs).flatten ≠ [] := by
  simp [hc]

/-- A chunk followed by more bytes of a string whose only NUL is its last
byte has no NUL, and the remaining bytes keep the property. -/
theorem split_only_nul {c rest : List Nat} (hrest : rest ≠ [])
    (hlast : (c ++ rest).getLast? = some 0) (hnul : (c ++ rest).count 0 = 1) :
    0 ∉ c ∧ rest.getLast? = some 0 ∧ rest.count 0 = 1 := by
  have hl : rest.getLast? = some 0 := by
    rw [List.getLast?_append_of_ne_nil _ hrest] at hlast; exact hlast
  have hmem : 0 ∈ rest := List.mem_of_getLast?_eq_some hl
  have hpos : 0 < rest.count 0 := List.count_pos_iff.2 hmem
  rw [List.count_append] at hnul
  refine ⟨fun hm => ?_, hl, by omega⟩
  have : 0 < c.count 0 := List.count_pos_iff.2 hm
  omega

theorem deliver_pending_fits (i : Int) (env : ClientEnv) :
    ∀ (chunks : List (List Nat)) (b : List Nat) (s : State),
    s.task_buf i = some b → chunks ≠ [] → (∀ c ∈ chunks, c ≠ []) →
    (b.length : Int) + chunks.flatten.length ≤ REQUESTBUF_SIZE →
    chunks.flatten.getLast? = some 0 → chunks.flatten.count 0 = 1 →
    after_read_calls (deliver s i env chunks) =
      after_read_calls s ++ [(i, b ++ chunks.flatten, ((b ++ chunks.flatten).length : Int))]
  | [], _, _, _, hne, _, _, _, _ => absurd rfl hne
  | [c], b, s, hb, _, _, hlen, hlast, _ => by
    simp only [List.flatten_cons, List.flatten_nil, List.append_nil] at hlen hlast ⊢
    have hcp := client_process_pending_complete s i env b c hb hlen hlast
    have hd : deliver s i env [c] = client_process s i (chunk_env env c) := by
      simp only [deliver]; split_ifs <;> rfl
    rw [hd, hcp, after_read_calls_client_after_read]
    rfl
  | c :: c2 :: cs, b, s, hb, _, hall, hlen, hlast, hnul => by
    have hc : c ≠ [] := hall c (List.mem_cons_self _ _)
    have hall2 : ∀ x ∈ c2 :: cs, x ≠ [] := fun x hx => hall x (List.mem_cons_of_mem _ hx)
    have hrest : (c2 :: cs).flatten ≠ [] := flatten_ne_nil (hall2 c2 (List.mem_cons_self _ _))
    rw [List.flatten_cons] at hlen hlast hnul
    obtain ⟨h0, hl2, hn2⟩ := split_only_nul hrest hlast hnul
    have hrpos : 0 < (c2 :: cs).flatten.length := List.length_pos.2 hrest
    rw [List.length_append] at hlen
    push_cast at hlen
    have hcp := client_process_pending_partial s i env b c hb hc (by omega) h0
    have hd : deliver s i env (c :: c2 :: cs) =
        deliver { s with task_buf := Function.update s.task_buf i (some (b ++ c)) } i env
          (c2 :: cs) := by
      rw [deliver, hcp]
      simp
    have ih := deliver_pending_fits i env (c2 :: cs) (b ++ c)
      { s with task_buf := Function.update s.task_buf i (some (b ++ c)) } (by simp)
      (List.cons_ne_nil _ _) hall2 (by rw [List.length_append]; push_cast; omega) hl2 hn2
    rw [hd, ih, List.flatten_cons (l := c), List.append_assoc]
    rfl

theorem deliver_stack_fits (s : State) (i : Int) (env : ClientEnv) (chunks : List (List Nat))
    (hb : s.task_buf i = none) (hm : env.malloc_ok = true) (hne : chunks ≠ [])
    (hall : ∀ c ∈ chunks, c ≠ []) (hlen : (chunks.flatten.length : Int) ≤ REQUESTBUF_SIZE)
    (hlast : chunks.flatten.getLast? = some 0) (hnul : chunks.flatten.count 0 = 1) :
    after_read_calls (deliver s i env chunks) =
      after_read_calls s ++ [(i, chunks.flatten, (chunks.flatten.length : Int))] := by
  match chunks, hne, hall, hlen, hlast, hnul with
  | [c], _, _, hlen, hlast, _ =>
    simp only [List.flatten_cons, List.flatten_nil, List.append_nil] at hlen hlast ⊢
    have hcp := client_process_stack_complete s i env c hb hlen hlast
    have hd : deliver s i env [c] = client_process s i (chunk_env env c) := by
      simp only [deliver]; split_ifs <;> rfl
    rw [hd, hcp, after_read_calls_client_after_read]
  | c :: c2 :: cs, _, hall, hlen, hlast, hnul =>
    have hc : c ≠ [] := hall c (List.mem_cons_self _ _)
    have hall2 : ∀ x ∈ c2 :: cs, x ≠ [] := fun x hx => hall x (List.mem_cons_of_mem _ hx)
    have hrest : (c2 :: cs).flatten ≠ [] := flatten_ne_nil (hall2 c2 (List.mem_cons_self _ _))
    rw [List.flatten_cons] at hlen hlast hnul
    obtain ⟨h0, hl2, hn2⟩ := split_only_nul hrest hlast hnul
    have hrpos : 0 < (c2 :: cs).flatten.length := List.length_pos.2 hrest
    rw [List.length_append] at hlen
    push_cast at hlen
    have hcp := client_process_stack_partial s i env c hb hm hc (by omega) h0
    have hd : deliver s i env (c :: c2 :: cs) =
        deliver { s with task_buf := Function.update s.task_buf i (some c) } i env
          (c2 :: cs) := by
      rw [deliver, hcp]
      simp
    have ih := deliver_pending_fits i env (c2 :: cs) c
      { s with task_buf := Function.update s.task_buf i (some c) } (by simp)
      (List.cons_ne_nil _ _) hall2 (by omega) hl2 hn2
    rw [hd, ih, List.flatten_cons (l := c)]
    rfl

theorem deliver_released (s : State) (i : Int) (env : ClientEnv) (c : List Nat)
    (cs : List (List Nat)) (h : client_process s i (chunk_env env c) = task_put s i) :
    deliver s i env (c :: cs) = task_put s i := by
  rw [deliver, h]
  simp

theorem deliver_pending_over (i : Int) (env : ClientEnv) :
    ∀ (chunks : List (List Nat)) (b : List Nat) (s : State),
    s.task_buf i = some b → (∀ c ∈ chunks, c ≠ []) → (b.length : Int) < REQUESTBUF_SIZE →
    REQUESTBUF_SIZE ≤ (b.length : Int) + chunks.flatten.length →
    0 ∉ chunks.flatten.take (REQUESTBUF_SIZE - b.length).toNat →
    deliver s i env chunks = task_put s i
  | [], b, s, _, _, hlt, hge, _ => by
    simp only [List.flatten_nil, List.length_nil, Nat.cast_zero, add_zero] at hge
    omega
  | c :: cs, b, s, hb, hall, hlt, hge, h0 => by
    have hM : REQUESTBUF_SIZE = 5100 := rfl
    have hc : c ≠ [] := hall c (List.mem_cons_self _ _)
    have hcpos : 0 < c.length := List.length_pos.2 hc
    have hall2 : ∀ x ∈ cs, x ≠ [] := fun x hx => hall x (List.mem_cons_of_mem _ hx)
    rw [List.flatten_cons, List.take_append_eq_append_take] at h0
    rw [List.flatten_cons, List.length_append] at hge
    push_cast at hge
    by_cases hfit : (b.length : Int) + c.length < REQUESTBUF_SIZE
    · have h0c : 0 ∉ c := by
        intro hm
        apply h0
        rw [List.take_of_length_le (by omega)]
        exact List.mem_append_left _ hm
      have hcp := client_process_pending_partial s i env b c hb hc hfit h0c
      have hd : deliver s i env (c :: cs) =
          deliver { s with task_buf := Function.update s.task_buf i (some (b ++ c)) } i env cs := by
        rw [deliver, hcp]
        simp
      have ih := deliver_pending_over i env cs (b ++ c)
        { s with task_buf := Function.update s.task_buf i (some (b ++ c)) } (by simp) hall2
        (by rw [List.length_append]; push_cast; omega)
        (by rw [List.length_append]; push_cast; omega)
        (by
          intro hm
          apply h0
          refine List.mem_append_right _ ?_
          have : (REQUESTBUF_SIZE - (((b ++ c).length : Nat) : Int)).toNat
              = (REQUESTBUF_SIZE - (b.length : Int)).toNat - c.length := by
            rw [List.length_append]; push_cast; omega
          rw [← this]; exact hm)
      rw [hd, ih, task_put_set_buf]
    · apply deliver_released
      apply client_process_pending_oversize s i (chunk_env env c) b hb
      · show 5100 ≤ b.length + (delivered [.data c, .again]).length
        rw [delivered_chunk c hc]; omega
      · show byte_at (b ++ delivered [.data c, .again]) 5099 ≠ 0
        rw [delivered_chunk c hc, byte_at_append_right b c 5099 (by omega)]
        intro e
        apply h0
        refine List.mem_append_left _ ?_
        have hk : (5099 - (b.length : Int)) < ((REQUESTBUF_SIZE - (b.length : Int)).toNat : Nat) := by
          omega
        rw [← e, ← byte_at_take c _ _ hk]
        refine byte_at_mem _ _ (by omega) ?_
        rw [List.length_take]
        omega

theorem deliver_stack_over (s : State) (i : Int) (env : ClientEnv) (chunks : List (List Nat))
    (hb : s.task_buf i = none) (hall : ∀ c ∈ chunks, c ≠ [])
    (hlen : REQUESTBUF_SIZE ≤ (chunks.flatten.length : Int))
    (h0 : 0 ∉ chunks.flatten.take REQUESTBUF_SIZE.toNat) :
    deliver s i env chunks = task_put s i := by
  have hM : REQUESTBUF_SIZE = 5100 := rfl
  match chunks, hall, hlen, h0 with
  | [], _, hlen, _ =>
    simp only [List.flatten_nil, List.length_nil, Nat.cast_zero] at hlen
    omega
  | c :: cs, hall, hlen, h0 =>
    have hc : c ≠ [] := hall c (List.mem_cons_self _ _)
    have hcpos : 0 < c.length := List.length_pos.2 hc
    have hall2 : ∀ x ∈ cs, x ≠ [] := fun x hx => hall x (List.mem_cons_of_mem _ hx)
    rw [List.flatten_cons, List.take_append_eq_append_take] at h0
    rw [List.flatten_cons, List.length_append] at hlen
    push_cast at hlen
    by_cases hfit : (c.length : Int) < REQUESTBUF_SIZE
    · have h0c : 0 ∉ c := by
        intro hm
        apply h0
        rw [List.take_of_length_le (by omega)]
        exact List.mem_append_left _ hm
      by_cases hm : env.malloc_ok = true
      · have hcp := client_process_stack_partial s i env c hb hm hc hfit h0c
        have hd : deliver s i env (c :: cs) =
            deliver { s with task_buf := Function.update s.task_buf i (some c) } i env cs := by
          rw [deliver, hcp]
          simp
        have ih := deliver_pending_over i env cs c
          { s with task_buf := Function.update s.task_buf i (some c) } (by simp) hall2
          hfit (by omega)
          (by
            intro hmem
            apply h0
            refine List.mem_append_right _ ?_
            have : (REQUESTBUF_SIZE - (c.length : Int)).toNat
                = REQUESTBUF_SIZE.toNat - c.length := by omega
            rw [← this]; exact hmem)
        rw [hd, ih, task_put_set_buf]
      · apply deliver_released
        have hz : byte_at c ((c.length : Int) - 1) ≠ 0 := fun e =>
          h0c (e ▸ byte_at_mem c _ (by omega) (by omega))
        have hr := client_readbuf_chunk c REQUESTBUF_SIZE hc (by omega) (fun e => by omega)
        have hreads : (chunk_env env c).reads = [.data c, .again] := rfl
        have hmal : (chunk_env env c).malloc_ok = false := by
          simpa [chunk_env] using hm
        unfold client_process task_getbuf
        simp only [hb, hreads, hr]
        have h1 : ¬ ((c.length : Int) ≤ 0) := by omega
        rw [if_neg h1, if_pos hz]
        have h3 : ((task_allocbuf s i (chunk_env env c).malloc_ok).task_buf i).isNone = true ∨
            REQUESTBUF_SIZE < (c.length : Int) := by
          left
          simp [task_allocbuf, hb, hmal]
        rw [if_pos h3]
        have : task_allocbuf s i (chunk_env env c).malloc_ok =
            { s with task_buf := Function.update s.task_buf i none } := by
          simp [task_allocbuf, hb, hmal]
        rw [this, task_put_set_buf]
    · apply deliver_released
      apply client_process_stack_oversize s i (chunk_env env c) hb
      · show 5100 ≤ (delivered [.data c, .again]).length
        rw [delivered_chunk c hc]; omega
      · show byte_at (delivered [.data c, .again]) 5099 ≠ 0
        rw [delivered_chunk c hc]
        intro e
        apply h0
        refine List.mem_append_left _ ?_
        have hk : (5099 : Int) < (REQUESTBUF_SIZE.toNat : Nat) := by decide
        rw [← e, ← byte_at_take c _ _ hk]
        refine byte_at_mem _ _ (by omega) ?_
        rw [List.length_take]
        omega

theorem deliver_single (s : State) (i : Int) (env : ClientEnv) (r : List Nat) :
    deliver s i env [r] = client_process s i (chunk_env env r) := by
  simp only [deliver]; split_ifs <;> rfl

/-- C3.  Let `r` be a request whose last byte is its only NUL, cut into
non-empty chunks that arrive in successive readable events of a slot
without pending buffer, each drained until `read` would block.  If `r` has
at most `REQUESTBUF_SIZE` bytes (and `malloc` succeeds), the chunked delivery
and the delivery of `r` in a single read both call `client_after_read`
exactly once, with the bytes `r` and the length of `r`.  If `r` is longer,
both deliveries end as `task_put` of the slot, with no call of
`client_after_read`. -/
theorem framing_equivalence (s : State) (i : Int) (env : ClientEnv) (r : List Nat)
    (chunks : List (List Nat)) (hb : s.task_buf i = none)
    (hlast : r.getLast? = some 0) (hnul : r.count 0 = 1)
    (hall : ∀ c ∈ chunks, c ≠ []) (hjoin : chunks.flatten = r) :
    ((r.length : Int) ≤ REQUESTBUF_SIZE → env.malloc_ok = true →
      after_read_calls (deliver s i env chunks) =
        after_read_calls s ++ [(i, r, (r.length : Int))] ∧
      after_read_calls (client_process s i (chunk_env env r)) =
        after_read_calls s ++ [(i, r, (r.length : Int))]) ∧
    (REQUESTBUF_SIZE < (r.length : Int) →
      deliver s i env chunks = task_put s i ∧
      client_process s i (chunk_env env r) = task_put s i ∧
      after_read_calls (task_put s i) = after_read_calls s) := by
  have hM : REQUESTBUF_SIZE = 5100 := rfl
  have hrne : r ≠ [] := by rintro rfl; simp at hlast
  have hcne : chunks ≠ [] := by rintro rfl; exact hrne hjoin.symm
  have hone : ∀ c ∈ [r], c ≠ [] := fun c hc => by
    rw [List.mem_singleton] at hc; rw [hc]; exact hrne
  have hflat : [r].flatten = r := by simp
  refine ⟨fun hlen hm => ⟨?_, ?_⟩, fun hlen => ?_⟩
  · have := deliver_stack_fits s i env chunks hb hm hcne hall (by rw [hjoin]; exact hlen)
      (by rw [hjoin]; exact hlast) (by rw [hjoin]; exact hnul)
    rw [hjoin] at this
    exact this
  · have := deliver_stack_fits s i env [r] hb hm (List.cons_ne_nil _ _) hone
      (by rw [hflat]; exact hlen) (by rw [hflat]; exact hlast) (by rw [hflat]; exact hnul)
    rw [hflat, deliver_single] at this
    exact this
  · have h0 : 0 ∉ r.take REQUESTBUF_SIZE.toNat := by
      obtain ⟨body, rfl⟩ : ∃ body, r = body ++ [0] :=
        ⟨r.dropLast, (List.dropLast_append_getLast? 0 hlast).symm⟩
      have hbody : 0 ∉ body := by
        intro hm
        have : 0 < body.count 0 := List.count_pos_iff.2 hm
        simp only [List.count_append, List.count_singleton_self] at hnul
        omega
      rw [List.length_append] at hlen
      simp only [List.length_singleton, Nat.cast_add, Nat.cast_one] at hlen
      rw [List.take_append_of_le_length (by omega)]
      exact fun hm => hbody (List.mem_of_mem_take hm)
    refine ⟨?_, ?_, after_read_calls_task_put s i⟩
    · exact deliver_stack_over s i env chunks hb hall (by rw [hjoin]; omega)
        (by rw [hjoin]; exact h0)
    · rw [← deliver_single]
      exact deliver_stack_over s i env [r] hb hone (by rw [hflat]; omega)
        (by rw [hflat]; exact h0)

/-- C3 for the request `exec#ls` sent as "ex", "ec#" and "ls" with the
NUL, by the client accepted on descriptor 5 into slot 0. -/
theorem framing_equivalence_witness :
    after_read_calls (deliver (server_sock_process startup 5 true true) 0 ⟨[], true, true, 77⟩
        [[101, 120], [101, 99, 35], [108, 115, 0]]) =
      [(0, [101, 120, 101, 99, 35, 108, 115, 0], 8)] ∧
    after_read_calls (client_process (server_sock_process startup 5 true true) 0
        (chunk_env ⟨[], true, true, 77⟩ [101, 120, 101, 99, 35, 108, 115, 0])) =
      [(0, [101, 120, 101, 99, 35, 108, 115, 0], 8)] :=
  (framing_equivalence (server_sock_process startup 5 true true) 0 ⟨[], true, true, 77⟩
    [101, 120, 101, 99, 35, 108, 115, 0]
    [[101, 120], [101, 99, 35], [108, 115, 0]] (by decide) (by decide) (by decide) (by decide)
    (by decide)).1 (by decide) rfl

/-- C3, where it fails: `exec#ls` sent as "ex" then the rest by the client
accepted on descriptor 5 into slot 0.  When `malloc` returns NULL at the
promotion of "ex", `client_process` releases the slot (descriptor 5 is
closed, so no further event arrives) and `client_after_read` is never
called, while the same bytes in a single read are handed to
`client_after_read`. -/
theorem framing_equivalence_counterexample :
    after_read_calls (deliver (server_sock_process startup 5 true true) 0
        ⟨[], false, true, 77⟩ [[101, 120], [101, 99, 35, 108, 115, 0]]) = [] ∧
    (deliver (server_sock_process startup 5 true true) 0
        ⟨[], false, true, 77⟩ [[101, 120], [101, 99, 35, 108, 115, 0]]).log =
      [Effect.close 5] ∧
    after_read_calls (client_process (server_sock_process startup 5 true true) 0
        (chunk_env ⟨[], false, true, 77⟩ [101, 120, 101, 99, 35, 108, 115, 0])) =
      [(0, [101, 120, 101, 99, 35, 108, 115, 0], 8)] := by
  refine ⟨?_, ?_, ?_⟩ <;> decide

/-! ## The event loop keeps children within held slots -/

theorem isChain_link {p : Int → Int} : ∀ {l : List Int} {a : Int}, IsChain p a l →
    ∀ i ∈ l, p i ≤ 0
  | [], _, _, _, hi => absurd hi (List.not_mem_nil _)
  | j :: l, a, h, i, hi => by
    obtain ⟨-, -, -, hc⟩ := h
    rcases List.mem_cons.1 hi with e | e
    · subst e
      cases l with
      | nil =>
        have : -(p i) = MAX_TASKS := hc
        have hM : MAX_TASKS = 16 := rfl
        omega
      | cons k t =>
        obtain ⟨hk, hk0, -, -⟩ := hc
        omega
    · exact isChain_link hc i e

theorem task_find_from_spec (p : Int → Int) (pid : Int) : ∀ (n : Nat) (a : Int),
    task_find_from p pid n a = -1 ∨
      (a ≤ task_find_from p pid n a ∧ task_find_from p pid n a < a + n ∧
        p (task_find_from p pid n a) = pid)
  | 0, _ => Or.inl rfl
  | n + 1, a => by
    simp only [task_find_from]
    split_ifs with h
    · exact Or.inr ⟨le_refl a, by push_cast; omega, h⟩
    · rcases task_find_from_spec p pid n (a + 1) with e | ⟨h1, h2, h3⟩
      · exact Or.inl e
      · exact Or.inr ⟨by omega, by push_cast; omega, h3⟩

theorem task_find_spec (t : State) (pid : Int) (h : 0 ≤ task_find t pid) :
    task_find t pid < MAX_TASKS ∧ t.task_pids (task_find t pid) = pid := by
  rcases task_find_from_spec t.task_pids pid MAX_TASKS.toNat 0 with e | ⟨-, h2, h3⟩
  · unfold task_find at h; omega
  · exact ⟨by simpa [task_find] using h2, h3⟩

theorem countP_erase_of_mem {held : List Int} (hn : held.Nodup) {i : Int} (hi : i ∈ held)
    (P Q : Int → Bool) (hPQ : ∀ j, j ≠ i → P j = Q j) :
    held.countP P = (if P i then 1 else 0) + (held.erase i).countP Q := by
  have hperm := List.perm_cons_erase hi
  rw [hperm.countP_eq, List.countP_cons]
  have : (held.erase i).countP P = (held.erase i).countP Q := by
    apply List.countP_congr
    intro j hj
    have hji : j ≠ i := fun e => by
      subst e; exact (List.Nodup.not_mem_erase hn) hj
    rw [hPQ j hji]
  rw [this]
  omega

theorem launched_update_other (s : State) (held : List Int) (f : Int → Int)
    (h : ∀ j ∈ held, f j = s.task_pids j) (t : State) (ht : t.task_pids = f) :
    launched t held = launched s held := by
  unfold launched
  apply List.countP_congr
  intro j hj
  rw [ht, h j hj]

theorem inv_congr {s t : State} {held l : List Int} (h : Inv s held l)
    (h1 : t.task_pids = s.task_pids) (h2 : t.task_socks = s.task_socks)
    (h3 : t.task_buf = s.task_buf) (h4 : t.avaliable_list = s.avaliable_list)
    (h5 : t.task_count = s.task_count) : Inv t held l where
  chain := by rw [h1, h4]; exact h.chain
  nodup := h.nodup
  mem := h.mem
  held_nodup := h.held_nodup
  held_range := h.held_range
  count := by rw [h5]; exact h.count
  total := h.total
  free_sock := by rw [h2]; exact h.free_sock
  free_buf := by rw [h3]; exact h.free_buf

theorem loopInv_congr {s t : State} {held l : List Int} (h : LoopInv s held l)
    (h1 : t.task_pids = s.task_pids) (h2 : t.task_socks = s.task_socks)
    (h3 : t.task_buf = s.task_buf) (h4 : t.avaliable_list = s.avaliable_list)
    (h5 : t.task_count = s.task_count) (h6 : ∀ e ∈ t.epoll, e ∈ s.epoll)
    (h7 : t.pid_count ≤ s.pid_count) : LoopInv t held l where
  inv := inv_congr h.inv h1 h2 h3 h4 h5
  reg := by
    intro e he
    rw [h1, h2]
    exact h.reg e (h6 e he)
  cnt := by
    have : launched t held = launched s held := by unfold launched; rw [h1]
    rw [this]
    exact le_trans h7 h.cnt

theorem loopInv_set_buf {s : State} {held l : List Int} {i : Int} (b : Option (List Nat))
    (h : LoopInv s held l) (hi : i ∈ held) :
    LoopInv { s with task_buf := Function.update s.task_buf i b } held l where
  inv := inv_set_buf b h.inv hi
  reg := h.reg
  cnt := h.cnt

theorem loopInv_set_sock {s : State} {held l : List Int} {i : Int} (fd : Int)
    (h : LoopInv s held l) (hi : i ∈ held) (hno : ∀ e ∈ s.epoll, e.2 ≠ -i) :
    LoopInv { s with task_socks := Function.update s.task_socks i fd } held l where
  inv := inv_set_sock fd h.inv hi
  reg := by
    intro e he
    obtain ⟨j, hj, e1, e2, e3, e4⟩ := h.reg e he
    have hji : j ≠ i := fun c => hno e he (c ▸ e1)
    exact ⟨j, hj, e1, e2, by simp only [Function.update_noteq hji]; exact e3, e4⟩
  cnt := h.cnt

theorem loopInv_add {s : State} {held l : List Int} {i : Int} (cl : Int)
    (h : LoopInv s held l) (hi : i ∈ held) (hp : s.task_pids i ≤ 0) (hs : s.task_socks i = cl)
    (hcl : 0 < cl) : LoopInv { s with epoll := (cl, -i) :: s.epoll } held l where
  inv := inv_congr h.inv rfl rfl rfl rfl rfl
  reg := by
    intro e he
    rcases List.mem_cons.1 he with c | c
    · subst c; exact ⟨i, hi, rfl, hp, hs, hcl⟩
    · exact h.reg e c
  cnt := h.cnt

theorem loopInv_launch {s : State} {held l : List Int} {i : Int} (pid : Int)
    (h : LoopInv s held l) (hi : i ∈ held) (hp : s.task_pids i ≤ 0) (hpid : 0 < pid)
    (hno : ∀ e ∈ s.epoll, e.2 ≠ -i) :
    LoopInv { s with pid_count := s.pid_count + 1
                     task_pids := Function.update s.task_pids i pid } held l where
  inv := inv_congr (inv_set_pid pid h.inv hi) rfl rfl rfl rfl rfl
  reg := by
    intro e he
    obtain ⟨j, hj, e1, e2, e3, e4⟩ := h.reg e he
    have hji : j ≠ i := fun c => hno e he (c ▸ e1)
    exact ⟨j, hj, e1, by simp only [Function.update_noteq hji]; exact e2, e3, e4⟩
  cnt := by
    have hc := h.cnt
    have h1 := countP_erase_of_mem h.inv.held_nodup hi
      (fun j => decide (0 < s.task_pids j))
      (fun j => decide (0 < Function.update s.task_pids i pid j))
      (fun j hj => by simp [Function.update_noteq hj])
    have h2 := countP_erase_of_mem h.inv.held_nodup hi
      (fun j => decide (0 < Function.update s.task_pids i pid j))
      (fun j => decide (0 < Function.update s.task_pids i pid j))
      (fun j _ => rfl)
    have hn : ¬ (0 < s.task_pids i) := by omega
    simp only [hn, decide_False, Bool.false_eq_true, if_false, zero_add] at h1
    simp only [Function.update_same, hpid, decide_True, if_true] at h2
    unfold launched at hc ⊢
    simp only
    rw [h2, ← h1]
    omega

theorem loopInv_get {s : State} {held l : List Int} {i : Int} (h : LoopInv s held (i :: l)) :
    (task_get s).2 = i ∧ LoopInv (task_get s).1 (i :: held) l := by
  obtain ⟨e, hi⟩ := inv_get_cons h.inv
  obtain ⟨ha, h0, h1, hh, hl⟩ := inv_head h.inv
  have hs : (task_get s).1 = { s with
        avaliable_list := s.task_pids i
        task_socks := Function.update s.task_socks i (-1)
        task_count := s.task_count + 1 } := by
    have hM : MAX_TASKS = 16 := rfl
    have hne2 : ¬ (i = MAX_TASKS) := by omega
    simp only [task_get, ha, if_neg hne2]
  have hlink : s.task_pids i ≤ 0 := isChain_link h.inv.chain i (List.mem_cons_self _ _)
  refine ⟨e, ⟨hi, ?_, ?_⟩⟩
  · intro x hx
    rw [hs] at hx ⊢
    obtain ⟨j, hj, e1, e2, e3, e4⟩ := h.reg x hx
    have hji : j ≠ i := fun c => hh (c ▸ hj)
    exact ⟨j, List.mem_cons_of_mem _ hj, e1, e2,
      by simp only [Function.update_noteq hji]; exact e3, e4⟩
  · rw [hs]
    have hn : ¬ (0 < s.task_pids i) := by omega
    have := h.cnt
    unfold launched at this ⊢
    simp only [List.countP_cons, hn, decide_False, Bool.false_eq_true, if_false, add_zero]
    exact this

theorem loopInv_put {s : State} {held l : List Int} {i : Int} (hinv : Inv s held l)
    (hreg : ∀ e ∈ s.epoll, ∃ j ∈ held, e.2 = -j ∧ s.task_pids j ≤ 0 ∧ s.task_socks j = e.1 ∧
      0 < e.1)
    (hi : i ∈ held)
    (hcnt : s.pid_count + (if 0 < s.task_pids i then 1 else 0) ≤ launched s held) :
    LoopInv (task_put s i) (held.erase i) (i :: l) where
  inv := inv_put hinv hi
  reg := by
    intro e he
    rw [task_put_epoll] at he
    have he0 : e ∈ s.epoll := by
      split_ifs at he
      · exact List.mem_of_mem_filter he
      · exact he
    obtain ⟨j, hj, e1, e2, e3, e4⟩ := hreg e he0
    have hji : j ≠ i := by
      intro c
      subst c
      have hpos : s.task_socks j > 0 := by rw [e3]; exact e4
      rw [if_pos hpos] at he
      have := (List.mem_filter.1 he).2
      simp [e3] at this
    refine ⟨j, (List.mem_erase_of_ne hji).2 hj, e1, ?_, ?_, e4⟩
    · rw [task_put_task_pids, Function.update_noteq hji]; exact e2
    · rw [task_put_task_socks, Function.update_noteq hji]; exact e3
  cnt := by
    have h1 := countP_erase_of_mem hinv.held_nodup hi
      (fun j => decide (0 < s.task_pids j))
      (fun j => decide (0 < (task_put s i).task_pids j))
      (fun j hj => by simp only [task_put_task_pids, Function.update_noteq hj])
    unfold launched at hcnt ⊢
    rw [task_put_pid_count]
    rw [h1] at hcnt
    by_cases hp : 0 < s.task_pids i
    · simp only [hp, if_true, decide_True] at hcnt
      omega
    · simp only [hp, if_false, decide_False, Bool.false_eq_true] at hcnt
      omega

theorem task_freebuf_eq (s : State) (i : Int) :
    task_freebuf s i = { s with task_buf := Function.update s.task_buf i none } := by
  unfold task_freebuf
  cases h : s.task_buf i with
  | none =>
    have : Function.update s.task_buf i none = s.task_buf := Function.update_eq_self_iff.2 h.symm
    simp [this]
  | some b => simp

theorem task_allocbuf_eq (s : State) (i : Int) (m : Bool) :
    ∃ b, task_allocbuf s i m = { s with task_buf := Function.update s.task_buf i b } := by
  unfold task_allocbuf
  cases h : s.task_buf i with
  | none => exact ⟨(if m = true then some [] else none), by simp⟩
  | some b =>
    refine ⟨some b, ?_⟩
    have : Function.update s.task_buf i (some b) = s.task_buf :=
      Function.update_eq_self_iff.2 h.symm
    simp [this]

/-- Releasing a held slot that has no child keeps the loop invariant. -/
theorem loopInv_put_reading {s : State} {held l : List Int} {i : Int} (h : LoopInv s held l)
    (hi : i ∈ held) (hp : s.task_pids i ≤ 0) :
    LoopInv (task_put s i) (held.erase i) (i :: l) :=
  loopInv_put h.inv h.reg hi (by
    have hn : ¬ (0 < s.task_pids i) := by omega
    rw [if_neg hn]
    simpa using h.cnt)

theorem loopInv_after_fork {s : State} {held l : List Int} {i : Int} (cl : Int) (type : Nat)
    (buf : List Nat) (len pid : Int) (h : LoopInv s held l) (hi : i ∈ held)
    (hp : s.task_pids i ≤ 0) (hno : ∀ e ∈ s.epoll, e.2 ≠ -i) :
    ∃ held2 l2, LoopInv (after_fork s i cl type buf len pid) held2 l2 := by
  have h2 : LoopInv { s with log := Effect.fork pid :: s.log } held l :=
    loopInv_congr h rfl rfl rfl rfl rfl (fun e he => he) (le_refl _)
  unfold after_fork
  simp only
  by_cases hneg : pid < 0
  · rw [if_pos hneg]
    exact ⟨_, _, loopInv_put_reading h2 hi hp⟩
  · rw [if_neg hneg]
    by_cases hpos : pid > 0
    · rw [if_pos hpos, task_freebuf_eq]
      have h3 := loopInv_launch pid (loopInv_set_buf none h2 hi) hi hp hpos hno
      by_cases hE : type = EXECID
      · rw [if_pos hE]
        exact ⟨held, l, h3⟩
      · rw [if_neg hE]
        refine ⟨held, l, ?_⟩
        have h4 : LoopInv (sys_close { s with
            log := Effect.fork pid :: s.log
            task_buf := Function.update s.task_buf i none
            pid_count := s.pid_count + 1
            task_pids := Function.update s.task_pids i pid } (s.task_socks i)) held l :=
          loopInv_congr h3 rfl rfl rfl rfl rfl (fun e he => List.mem_of_mem_filter he) (le_refl _)
        exact loopInv_set_sock (-1) h4 hi
          (fun e he => hno e (List.mem_of_mem_filter he))
    · rw [if_neg hpos]
      split_ifs
      · exact ⟨held, l, loopInv_congr h rfl rfl rfl rfl rfl (fun e he => he) (le_refl _)⟩
      · exact ⟨held, l, loopInv_congr h rfl rfl rfl rfl rfl
          (fun e he => List.mem_of_mem_filter he) (le_refl _)⟩

theorem loopInv_client_after_read {s : State} {held l : List Int} {i : Int} (buf : List Nat)
    (len : Int) (env : ClientEnv) (h : LoopInv s held l) (hi : i ∈ held)
    (hp : s.task_pids i ≤ 0) :
    ∃ held2 l2, LoopInv (client_after_read s i buf len env) held2 l2 := by
  have h0 : LoopInv { s with log := Effect.after_read i buf len :: s.log } held l :=
    loopInv_congr h rfl rfl rfl rfl rfl (fun e he => he) (le_refl _)
  have h1 : LoopInv { s with
      log := Effect.after_read i buf len :: s.log
      epoll := s.epoll.filter (fun e => e.1 != s.task_socks i) } held l :=
    loopInv_congr h rfl rfl rfl rfl rfl (fun e he => List.mem_of_mem_filter he) (le_refl _)
  have hno : ∀ e ∈ s.epoll.filter (fun e => e.1 != s.task_socks i), e.2 ≠ -i := by
    intro e he c
    obtain ⟨he1, he2⟩ := List.mem_filter.1 he
    obtain ⟨j, -, e1, -, e3, -⟩ := h.reg e he1
    have hji : j = i := by omega
    subst hji
    simp [e3] at he2
  unfold client_after_read
  simp only
  by_cases hl : len < CMDLEN + 1
  · rw [if_pos hl]
    exact ⟨_, _, loopInv_put_reading h0 hi hp⟩
  · rw [if_neg hl]
    by_cases hd : env.del_ok = false
    · rw [if_pos hd]
      exact ⟨_, _, loopInv_put_reading h0 hi hp⟩
    · rw [if_neg hd]
      cases hc : classify buf with
      | none => exact ⟨_, _, loopInv_put_reading h1 hi hp⟩
      | some type => exact loopInv_after_fork _ type buf len env.fork_ret h1 hi hp hno

theorem loopInv_client_process {s : State} {held l : List Int} {i : Int} (env : ClientEnv)
    (h : LoopInv s held l) (hi : i ∈ held) (hp : s.task_pids i ≤ 0) :
    ∃ held2 l2, LoopInv (client_process s i env) held2 l2 := by
  unfold client_process task_getbuf
  cases hb : s.task_buf i with
  | none =>
    simp only
    split_ifs with h1 h2 h3
    · exact ⟨_, _, loopInv_put_reading h hi hp⟩
    · obtain ⟨b, hbe⟩ := task_allocbuf_eq s i env.malloc_ok
      rw [hbe]
      exact ⟨_, _, loopInv_put_reading (loopInv_set_buf b h hi) hi hp⟩
    · obtain ⟨b, hbe⟩ := task_allocbuf_eq s i env.malloc_ok
      rw [hbe]
      exact ⟨held, l, loopInv_set_buf _ (loopInv_set_buf b h hi) hi⟩
    · exact loopInv_client_after_read _ _ env h hi hp
  | some b =>
    simp only
    split_ifs <;> first
      | exact ⟨_, _, loopInv_put_reading h hi hp⟩
      | exact ⟨held, l, loopInv_set_buf _ h hi⟩
      | exact loopInv_client_after_read _ _ env (loopInv_set_buf _ h hi) hi hp

theorem loopInv_after_wait {s : State} {held l : List Int} (be : Bool) (pid status : Int)
    (h : LoopInv s held l) (hpid : 0 < pid) :
    ∃ held2 l2, LoopInv (after_wait be s pid status) held2 l2 := by
  have hf : task_find { s with pid_count := s.pid_count - 1 } pid = task_find s pid := rfl
  unfold after_wait
  simp only [hf]
  by_cases hi : task_find s pid ≥ 0
  · rw [if_pos hi]
    obtain ⟨h1, h2⟩ := task_find_spec s pid hi
    have hheld : task_find s pid ∈ held := by
      by_contra hc
      have hl : task_find s pid ∈ l := (h.inv.mem _).2 ⟨hi, h1, hc⟩
      have := isChain_link h.inv.chain _ hl
      omega
    refine ⟨_, _, loopInv_put (l := l) ?_ ?_ hheld ?_⟩
    · split_ifs <;> exact inv_congr h.inv rfl rfl rfl rfl rfl
    · split_ifs <;> exact h.reg
    · have hc := h.cnt
      have hpos : 0 < s.task_pids (task_find s pid) := by omega
      have key : ∀ t : State, t.task_pids = s.task_pids → t.pid_count = s.pid_count - 1 →
          t.pid_count + (if 0 < t.task_pids (task_find s pid) then 1 else 0) ≤
            launched t held := by
        intro t ht hp
        have hl : launched t held = launched s held := by unfold launched; rw [ht]
        rw [ht, if_pos hpos, hp, hl]
        omega
      by_cases hs : s.task_socks (task_find s pid) > 0
      · simp only [if_pos hs]
        exact key _ rfl rfl
      · simp only [if_neg hs]
        exact key _ rfl rfl
  · rw [if_neg hi]
    exact ⟨held, l, loopInv_congr h rfl rfl rfl rfl rfl (fun e he => he)
      (by show s.pid_count - 1 ≤ s.pid_count; omega)⟩

theorem loopInv_wait_loop (be : Bool) : ∀ (waits : List (Int × Int)) {s : State}
    {held l : List Int}, LoopInv s held l → ∃ held2 l2, LoopInv (wait_loop be s waits) held2 l2
  | [], _, held, l, h => ⟨held, l, h⟩
  | w :: rest, s, held, l, h => by
    simp only [wait_loop]
    split_ifs with hw
    · obtain ⟨held2, l2, h2⟩ := loopInv_after_wait be w.1 w.2 h hw
      exact loopInv_wait_loop be rest h2
    · exact ⟨held, l, h⟩

theorem loopInv_server_sock_process {s : State} {held l : List Int} (cl : Int)
    (fcntl_ok add_ok : Bool) (h : LoopInv s held l) (hcl : cl ≠ 0) :
    ∃ held2 l2, LoopInv (server_sock_process s cl fcntl_ok add_ok) held2 l2 := by
  unfold server_sock_process
  simp only
  cases l with
  | nil =>
    rw [inv_get_full h.inv]
    simp only [Int.reduceNeg, Left.neg_neg_iff, zero_lt_one, if_true]
    exact ⟨held, [], h⟩
  | cons i l =>
    obtain ⟨e, h1⟩ := loopInv_get h
    obtain ⟨ha, h0, -, hh, -⟩ := inv_head h.inv
    have hlink : s.task_pids i ≤ 0 := isChain_link h.inv.chain i (List.mem_cons_self _ _)
    have hpids : (task_get s).1.task_pids = s.task_pids := by
      unfold task_get; simp only; split_ifs <;> rfl
    have hepoll : (task_get s).1.epoll = s.epoll := by
      unfold task_get; simp only; split_ifs <;> rfl
    have hp1 : (task_get s).1.task_pids i ≤ 0 := by rw [hpids]; exact hlink
    have hno : ∀ x ∈ (task_get s).1.epoll, x.2 ≠ -i := by
      intro x hx c
      rw [hepoll] at hx
      obtain ⟨j, hj, e1, -⟩ := h.reg x hx
      have : j = i := by omega
      exact hh (this ▸ hj)
    have hmem : i ∈ i :: held := List.mem_cons_self _ _
    rw [e]
    have hneg : ¬ i < 0 := by omega
    rw [if_neg hneg]
    by_cases hc : cl < 0
    · rw [if_pos hc]
      exact ⟨_, _, loopInv_put_reading h1 hmem hp1⟩
    · rw [if_neg hc]
      have h2 := loopInv_set_sock cl h1 hmem hno
      split_ifs
      · exact ⟨_, _, loopInv_put_reading h2 hmem hp1⟩
      · exact ⟨_, _, loopInv_put_reading h2 hmem hp1⟩
      · exact ⟨_, _, loopInv_add cl h2 hmem hp1 (by simp) (by omega)⟩

theorem loopInv_main_event {s : State} {held l : List Int} (be : Bool) (e : Event)
    (h : LoopInv s held l) (ha : e.live s) :
    ∃ held2 l2, LoopInv (main_event be s e) held2 l2 := by
  cases e with
  | signal read_ok waits =>
    simp only [main_event, sfd_process]
    split_ifs
    · exact ⟨held, l, h⟩
    · exact loopInv_wait_loop be waits h
  | listener cl fcntl_ok add_ok =>
    exact loopInv_server_sock_process cl fcntl_ok add_ok h ha
  | client data_fd epollerr env =>
    simp only [Event.live, List.mem_map] at ha
    obtain ⟨x, hx, hx2⟩ := ha
    obtain ⟨i, hi, e1, e2, -, -⟩ := h.reg x hx
    have hr := h.inv.held_range i hi
    have hidx : -data_fd = i := by omega
    simp only [main_event, hidx]
    have h0 : i ≥ 0 := hr.1
    rw [if_pos h0]
    split_ifs
    · exact ⟨_, _, loopInv_put_reading h hi e2⟩
    · exact loopInv_client_process env h hi e2

theorem loopInv_startup : LoopInv startup [] [0, 1, 2, 3, 4, 5, 6, 7, 8, 9, 10, 11, 12, 13, 14, 15] where
  inv := inv_prepare State.zero
  reg := fun e he => absurd he (List.not_mem_nil _)
  cnt := by simp [startup, task_prepare, launched]

theorem loopInv_run_live (be : Bool) : ∀ (evs : List Event) {s t : State} {held l : List Int},
    LoopInv s held l → run_live be s evs = some t → ∃ held2 l2, LoopInv t held2 l2
  | [], s, t, held, l, h, e => by
    simp only [run_live, Option.some.injEq] at e
    subst e
    exact ⟨held, l, h⟩
  | ev :: evs, s, t, held, l, h, e => by
    simp only [run_live] at e
    split_ifs at e with ha
    obtain ⟨held2, l2, h2⟩ := loopInv_main_event be ev h ha
    exact loopInv_run_live be evs h2 e

/-- The saturation test of `main` skips only a turn that would change
nothing: a turn is the handling of its events in order. -/
theorem main_iteration_eq (be : Bool) (s : State) (evs : List Event) :
    main_iteration be s evs = evs.foldl (main_event be) s := by
  unfold main_iteration
  split
  · next cl fcntl_ok add_ok =>
    split_ifs with hsat
    · have hM : MAX_TASKS = 16 := rfl
      have : task_get s = (s, -1) := by
        unfold task_get
        simp only
        rw [if_pos (by omega)]
      simp [main_event, server_sock_process, this]
    · rfl
  · rfl

theorem run_events_eq_foldl (be : Bool) : ∀ (evs : List Event) {s t : State},
    run_events be s evs = some t → evs.foldl (main_event be) s = t
  | [], s, t, e => by simpa [run_events] using e
  | ev :: evs, s, t, e => by
    simp only [run_events] at e
    split_ifs at e
    simp only [List.foldl_cons]
    exact run_events_eq_foldl be evs e

theorem run_live_eq_foldl (be : Bool) : ∀ (evs : List Event) {s t : State},
    run_live be s evs = some t → evs.foldl (main_event be) s = t
  | [], s, t, e => by simpa [run_live] using e
  | ev :: evs, s, t, e => by
    simp only [run_live] at e
    split_ifs at e
    simp only [List.foldl_cons]
    exact run_live_eq_foldl be evs e

theorem loopInv_live_loop (be : Bool) : ∀ (turns : List (List Event)) {s t : State}
    {held l : List Int}, LoopInv s held l → live_loop be s turns = some t →
    ∃ held2 l2, LoopInv t held2 l2
  | [], s, t, held, l, h, e => by
    simp only [live_loop, Option.some.injEq] at e
    subst e
    exact ⟨held, l, h⟩
  | evs :: rest, s, t, held, l, h, e => by
    simp only [live_loop] at e
    cases hr : run_live be s evs with
    | none => simp [hr] at e
    | some u =>
      simp only [hr] at e
      obtain ⟨held2, l2, h2⟩ := loopInv_run_live be evs h hr
      rw [main_iteration_eq be s evs, run_live_eq_foldl be evs hr] at e
      exact loopInv_live_loop be rest h2 e

/-- C10, as the code has it.  As long as every client event comes from a
live registration, `pid_count` is at most `task_count` in every state the
loop reaches from `startup`.  The bound fails once a stale registration
reports an event.  Clients A and B are accepted in slots 0 and 1 (sockets 5
and 6); B sends `pipe#ls`, child 77 is forked and inherits socket 5; A sends
"x", which is too short: `task_put(0)` closes socket 5 in the daemon, not in
the child.  The next event of A's registration carries `data.fd = 0`: slot 0
is free, the test `task_pids[0] <= 0` passes, `client_process(0)` reads from
descriptor -1, which fails, and `task_put(0)` runs a second time.  Then
`pid_count` is 1, `task_count` is 0 and the free list is a cycle. -/
theorem children_and_stale_event :
    (∀ (be : Bool) (turns : List (List Event)) (s : State),
      live_loop be startup turns = some s → s.pid_count ≤ s.task_count) ∧
    (∃ s, main_loop false startup
        [[.listener 5 true true],
         [.listener 6 true true],
         [.client (-1) false ⟨[.data [112, 105, 112, 101, 35, 108, 115, 0], .again],
           true, true, 77⟩],
         [.client 0 false ⟨[.data [120, 0], .again], true, true, 78⟩],
         [.client 0 false ⟨[.err], true, true, 78⟩]] = some s ∧
      s.pid_count = 1 ∧ s.task_count = 0 ∧ ¬ s.pid_count ≤ s.task_count ∧
      s.avaliable_list = 0 ∧ s.task_pids 0 = 0 ∧ free_chain s = none) := by
  constructor
  · intro be turns s h
    obtain ⟨held, l, hi⟩ := loopInv_live_loop be turns loopInv_startup h
    have h1 := hi.cnt
    have h2 : launched s held ≤ held.length := List.countP_le_length _
    rw [hi.inv.count]
    omega
  · have hs : (main_loop false startup
        [[.listener 5 true true],
         [.listener 6 true true],
         [.client (-1) false ⟨[.data [112, 105, 112, 101, 35, 108, 115, 0], .again],
           true, true, 77⟩],
         [.client 0 false ⟨[.data [120, 0], .again], true, true, 78⟩],
         [.client 0 false ⟨[.err], true, true, 78⟩]]).isSome = true := by decide
    obtain ⟨c, hc⟩ := Option.isSome_iff_exists.1 hs
    have := Option.some.inj (hc.symm.trans (rfl : main_loop false startup
        [[.listener 5 true true],
         [.listener 6 true true],
         [.client (-1) false ⟨[.data [112, 105, 112, 101, 35, 108, 115, 0], .again],
           true, true, 77⟩],
         [.client 0 false ⟨[.data [120, 0], .again], true, true, 78⟩],
         [.client 0 false ⟨[.err], true, true, 78⟩]] = some _))
    refine ⟨c, hc, ?_, ?_, ?_, ?_, ?_, ?_⟩ <;> rw [this] <;> decide

/-! ## The in-band encoding: free, READING and launched slots -/

theorem rdInv_apply {c c2 : State × List Int} {op : Op} {rd l : List Int}
    (hi : Inv c.1 c.2 l) (hr : RdInv c.1 c.2 rd) (e : op.apply c = some c2) :
    RdInv c2.1 c2.2 (op.reading c rd) := by
  cases op with
  | get =>
    simp only [Op.apply, Option.some.injEq] at e
    subst e
    simp only [Op.reading]
    cases l with
    | nil =>
      rw [inv_get_full hi]
      simpa using hr
    | cons i l =>
      obtain ⟨e1, -⟩ := inv_get_cons hi
      obtain ⟨ha, h0, h1, hh, -⟩ := inv_head hi
      have hne : ¬ ((task_get c.1).2 = -1) := by rw [e1]; omega
      have hlink : c.1.task_pids i ≤ 0 := by
        have := hi.chain
        cases l with
        | nil =>
          have h2 : -(c.1.task_pids i) = MAX_TASKS := this.2.2.2
          have hM : MAX_TASKS = 16 := rfl
          omega
        | cons k t =>
          obtain ⟨-, -, -, hk, hk0, -, -⟩ := this
          omega
      have hp : (task_get c.1).1.task_pids = c.1.task_pids := by
        unfold task_get; simp only; split_ifs <;> rfl
      rw [if_neg hne, if_neg hne, e1]
      refine ⟨List.nodup_cons.2 ⟨fun hm => hh (hr.sub i hm), hr.nodup⟩, ?_, ?_, ?_⟩
      · intro j hj
        rcases List.mem_cons.1 hj with e | e
        · subst e; exact List.mem_cons_self _ _
        · exact List.mem_cons_of_mem _ (hr.sub j e)
      · intro j hj
        rw [hp]
        rcases List.mem_cons.1 hj with e | e
        · subst e; exact hlink
        · exact hr.nonpos j e
      · intro j hj hn
        rw [hp]
        rcases List.mem_cons.1 hj with e | e
        · subst e; exact absurd (List.mem_cons_self _ _) hn
        · exact hr.pos j e (fun hm => hn (List.mem_cons_of_mem _ hm))
  | put i =>
    simp only [Op.apply] at e
    split_ifs at e with hm
    cases e
    simp only [Op.reading]
    refine ⟨hr.nodup.erase i, ?_, ?_, ?_⟩
    · intro j hj
      have hji : j ≠ i := fun c => by
        subst c; exact (List.Nodup.not_mem_erase hr.nodup) hj
      exact (List.mem_erase_of_ne hji).2 (hr.sub j (List.mem_of_mem_erase hj))
    · intro j hj
      have hji : j ≠ i := fun c => by
        subst c; exact (List.Nodup.not_mem_erase hr.nodup) hj
      rw [task_put_task_pids, Function.update_noteq hji]
      exact hr.nonpos j (List.mem_of_mem_erase hj)
    · intro j hj hn
      have hji : j ≠ i := fun c => by
        subst c; exact (List.Nodup.not_mem_erase hi.held_nodup) hj
      rw [task_put_task_pids, Function.update_noteq hji]
      exact hr.pos j (List.mem_of_mem_erase hj) (fun hm => hn ((List.mem_erase_of_ne hji).2 hm))
  | set_pid i pid =>
    simp only [Op.apply] at e
    split_ifs at e with hm
    cases e
    simp only [Op.reading]
    refine ⟨hr.nodup.erase i, ?_, ?_, ?_⟩
    · intro j hj
      exact hr.sub j (List.mem_of_mem_erase hj)
    · intro j hj
      have hji : j ≠ i := fun c => by
        subst c; exact (List.Nodup.not_mem_erase hr.nodup) hj
      simp only [Function.update_noteq hji]
      exact hr.nonpos j (List.mem_of_mem_erase hj)
    · intro j hj hn
      by_cases hji : j = i
      · subst hji; simp only [Function.update_same]; exact hm.2
      · simp only [Function.update_noteq hji]
        exact hr.pos j hj (fun hm2 => hn ((List.mem_erase_of_ne hji).2 hm2))
  | set_sock i fd =>
    simp only [Op.apply] at e
    split_ifs at e with hm
    cases e
    exact ⟨hr.nodup, hr.sub, hr.nonpos, hr.pos⟩
  | set_buf i b =>
    simp only [Op.apply] at e
    split_ifs at e with hm
    cases e
    exact ⟨hr.nodup, hr.sub, hr.nonpos, hr.pos⟩

theorem rdInv_run_ops : ∀ {ops : List Op} {c c2 : State × List Int} {rd : List Int},
    (∃ l, Inv c.1 c.2 l) → RdInv c.1 c.2 rd → run_ops ops c = some c2 →
    RdInv c2.1 c2.2 (reading_after ops c rd)
  | [], c, c2, rd, _, hr, e => by
    simp only [run_ops, Option.some.injEq] at e
    subst e
    exact hr
  | op :: ops, c, c2, rd, hi, hr, e => by
    simp only [run_ops] at e
    cases hc : op.apply c with
    | none => simp [hc] at e
    | some c1 =>
      rw [hc] at e
      obtain ⟨l, hl⟩ := hi
      simp only [reading_after, hc]
      exact rdInv_run_ops (inv_apply ⟨l, hl⟩ hc) (rdInv_apply hl hr hc) e

theorem rdInv_reachable {s0 : State} {ops : List Op} {s : State} {held : List Int}
    (h : run_ops ops (task_prepare s0, []) = some (s, held)) :
    RdInv s held (reading_after ops (task_prepare s0, []) []) :=
  @rdInv_run_ops ops (task_prepare s0, []) (s, held) [] ⟨_, inv_prepare s0⟩
    ⟨List.nodup_nil, fun _ h => absurd h (List.not_mem_nil _),
      fun _ h => absurd h (List.not_mem_nil _), fun _ h => absurd h (List.not_mem_nil _)⟩ h

/-! ## find-by-child -/

theorem task_find_from_full (p : Int → Int) (pid : Int) : ∀ (n : Nat) (a : Int),
    (task_find_from p pid n a = -1 ∧ ∀ j, a ≤ j → j < a + n → p j ≠ pid) ∨
      (a ≤ task_find_from p pid n a ∧ task_find_from p pid n a < a + n ∧
        p (task_find_from p pid n a) = pid ∧
        ∀ j, a ≤ j → j < task_find_from p pid n a → p j ≠ pid)
  | 0, a => Or.inl ⟨rfl, fun j h1 h2 => by simp at h2; omega⟩
  | n + 1, a => by
    simp only [task_find_from]
    split_ifs with h
    · exact Or.inr ⟨le_refl a, by push_cast; omega, h, fun j h1 h2 => by omega⟩
    · rcases task_find_from_full p pid n (a + 1) with ⟨e, hn⟩ | ⟨h1, h2, h3, h4⟩
      · refine Or.inl ⟨e, fun j hj1 hj2 => ?_⟩
        by_cases hja : j = a
        · subst hja; exact h
        · exact hn j (by omega) (by push_cast at hj2; omega)
      · refine Or.inr ⟨by omega, by push_cast; omega, h3, fun j hj1 hj2 => ?_⟩
        by_cases hja : j = a
        · subst hja; exact h
        · exact h4 j (by omega) hj2

/-- C12.  For every table `t` and `pid`, `task_find` returns the least index
in `[0, MAX_TASKS)` whose `task_pids` value is `pid` when there is one, and
-1 when there is none.  In a state reachable by paired use, with `pid > 0`,
a slot it returns is not on the free chain and is not a READING slot (a held
slot in which no child id was stored): it is a held slot. -/
theorem task_find_least (t : State) (pid : Int) (s0 : State) (ops : List Op) (s : State)
    (held : List Int) (hpid : 0 < pid)
    (h : run_ops ops (task_prepare s0, []) = some (s, held)) :
    ((∃ i, 0 ≤ i ∧ i < MAX_TASKS ∧ t.task_pids i = pid) →
      0 ≤ task_find t pid ∧ task_find t pid < MAX_TASKS ∧
      t.task_pids (task_find t pid) = pid ∧
      ∀ j, 0 ≤ j → j < task_find t pid → t.task_pids j ≠ pid) ∧
    ((∀ i, 0 ≤ i → i < MAX_TASKS → t.task_pids i ≠ pid) → task_find t pid = -1) ∧
    (0 ≤ task_find s pid →
      (∃ l, free_chain s = some l ∧ task_find s pid ∉ l) ∧
      task_find s pid ∉ reading_after ops (task_prepare s0, []) [] ∧
      task_find s pid ∈ held) := by
  have hM : MAX_TASKS = 16 := rfl
  have hN : ((MAX_TASKS.toNat : Nat) : Int) = 16 := rfl
  refine ⟨?_, ?_, ?_⟩
  · rintro ⟨i, h0, h1, hp⟩
    rcases task_find_from_full t.task_pids pid MAX_TASKS.toNat 0 with ⟨-, hn⟩ | ⟨h1, h2, h3, h4⟩
    · exact absurd hp (hn i h0 (by omega))
    · exact ⟨h1, by unfold task_find; omega, h3, h4⟩
  · intro hn
    rcases task_find_from_full t.task_pids pid MAX_TASKS.toNat 0 with ⟨e, -⟩ | ⟨h1, h2, h3, h4⟩
    · exact e
    · exact absurd h3 (hn _ h1 (by omega))
  · intro hf
    obtain ⟨h1, h2⟩ := task_find_spec s pid hf
    obtain ⟨l, hi⟩ := inv_reachable h
    have hr := rdInv_reachable h
    have hnl : task_find s pid ∉ l := by
      intro hm
      have := isChain_link hi.chain _ hm
      omega
    have hnr : task_find s pid ∉ reading_after ops (task_prepare s0, []) [] := by
      intro hm
      have := hr.nonpos _ hm
      omega
    refine ⟨⟨l, inv_free_chain hi, hnl⟩, hnr, ?_⟩
    by_contra hc
    exact hnl ((hi.mem _).2 ⟨hf, h1, hc⟩)

/-- C12 at a concrete run: slots 0 and 1 acquired, child 4242 stored in
slot 1; `task_find` returns 1, a held slot that is not READING. -/
theorem task_find_least_witness :
    ∃ s held,
      run_ops [Op.get, Op.get, Op.set_pid 1 4242] (task_prepare State.zero, []) = some (s, held) ∧
      task_find s 4242 = 1 ∧
      task_find s 4242 ∉ reading_after [Op.get, Op.get, Op.set_pid 1 4242]
        (task_prepare State.zero, []) [] := by
  have hs : (run_ops [Op.get, Op.get, Op.set_pid 1 4242]
      (task_prepare State.zero, [])).isSome = true := by decide
  obtain ⟨c, hc⟩ := Option.isSome_iff_exists.1 hs
  have hrun : run_ops [Op.get, Op.get, Op.set_pid 1 4242] (task_prepare State.zero, []) =
      some (c.1, c.2) := hc
  have h := task_find_least c.1 4242 State.zero _ c.1 c.2 (by decide) hrun
  have hf : task_find c.1 4242 = 1 := by
    have := Option.some.inj (hc.symm.trans (rfl : run_ops [Op.get, Op.get, Op.set_pid 1 4242]
      (task_prepare State.zero, []) = some _))
    rw [this]
    decide
  exact ⟨c.1, c.2, hrun, hf, (h.2.2 (by rw [hf]; decide)).2.1⟩

theorem isChain_next {p : Int → Int} : ∀ {l : List Int} {a : Int}, IsChain p a l →
    (a = MAX_TASKS ∨ a ∈ l) ∧ ∀ i ∈ l, -(p i) = MAX_TASKS ∨ -(p i) ∈ l
  | [], a, h => ⟨Or.inl h, fun _ hi => absurd hi (List.not_mem_nil _)⟩
  | j :: l, a, h => by
    obtain ⟨ha, -, -, hc⟩ := h
    obtain ⟨h1, h2⟩ := isChain_next hc
    refine ⟨Or.inr (ha ▸ List.mem_cons_self _ _), fun i hi => ?_⟩
    rcases List.mem_cons.1 hi with e | e
    · subst e
      rcases h1 with c | c
      · exact Or.inl c
      · exact Or.inr (List.mem_cons_of_mem _ c)
    · rcases h2 i e with c | c
      · exact Or.inl c
      · exact Or.inr (List.mem_cons_of_mem _ c)

/-- C19.  In every state reachable from `task_prepare` by paired
`task_get` / `task_put` and by storing positive child ids (and client fds,
pending buffers) in held slots: `avaliable_list` lies in `[-MAX_TASKS, 0]`;
for every slot on the free chain the negated `task_pids` value is
`MAX_TASKS` or the index of a slot on the chain; a READING slot (returned by
`task_get`, not put back, no child id stored since) is held and has a
non-positive value; the index `-avaliable_list` that `task_get` uses after
its test against `MAX_TASKS` is in `[0, MAX_TASKS)`; and among the slots of
the table `task_pids[i] <= 0` holds exactly for those that are not
launched (held and no longer READING). -/
theorem free_list_encoding (s0 : State) (ops : List Op) (s : State) (held : List Int)
    (h : run_ops ops (task_prepare s0, []) = some (s, held)) :
    (-MAX_TASKS ≤ s.avaliable_list ∧ s.avaliable_list ≤ 0) ∧
    (∃ l, free_chain s = some l ∧
      ∀ i ∈ l, (0 ≤ -(s.task_pids i) ∧ -(s.task_pids i) ≤ MAX_TASKS) ∧
        (-(s.task_pids i) = MAX_TASKS ∨ -(s.task_pids i) ∈ l)) ∧
    (∀ i ∈ reading_after ops (task_prepare s0, []) [], i ∈ held ∧ s.task_pids i ≤ 0) ∧
    (-s.avaliable_list ≠ MAX_TASKS → 0 ≤ -s.avaliable_list ∧ -s.avaliable_list < MAX_TASKS) ∧
    (∀ i, 0 ≤ i → i < MAX_TASKS →
      (s.task_pids i ≤ 0 ↔ ¬ (i ∈ held ∧ i ∉ reading_after ops (task_prepare s0, []) []))) := by
  have hM : MAX_TASKS = 16 := rfl
  obtain ⟨l, hi⟩ := inv_reachable h
  have hr := rdInv_reachable h
  obtain ⟨hhead, hnext⟩ := isChain_next hi.chain
  have hrange : ∀ j ∈ l, 0 ≤ j ∧ j < MAX_TASKS := fun j hj =>
    ⟨((hi.mem j).1 hj).1, ((hi.mem j).1 hj).2.1⟩
  have hav : 0 ≤ -s.avaliable_list ∧ -s.avaliable_list ≤ MAX_TASKS := by
    rcases hhead with c | c
    · omega
    · have := hrange _ c; omega
  refine ⟨⟨by omega, by omega⟩, ⟨l, inv_free_chain hi, fun i hil => ⟨?_, hnext i hil⟩⟩,
    fun i hir => ⟨hr.sub i hir, hr.nonpos i hir⟩, fun hne => ?_, fun i h0 h1 => ⟨?_, ?_⟩⟩
  · rcases hnext i hil with c | c
    · omega
    · have := hrange _ c; omega
  · rcases hhead with c | c
    · exact absurd c hne
    · exact hrange _ c
  · rintro hle ⟨hh, hnr⟩
    have := hr.pos i hh hnr
    omega
  · intro hn
    by_cases hh : i ∈ held
    · have hir : i ∈ reading_after ops (task_prepare s0, []) [] := by
        by_contra c; exact hn ⟨hh, c⟩
      exact hr.nonpos i hir
    · exact isChain_link hi.chain i ((hi.mem i).2 ⟨h0, h1, hh⟩)

/-- C19 at a concrete run: slot 0 launched with child 4242, slot 1 READING,
slot 2 acquired and released. -/
theorem free_list_encoding_witness :
    ∃ s held,
      run_ops [Op.get, Op.get, Op.get, Op.set_pid 0 4242, Op.put 2]
        (task_prepare State.zero, []) = some (s, held) ∧
      (-MAX_TASKS ≤ s.avaliable_list ∧ s.avaliable_list ≤ 0) ∧
      (∀ i, 0 ≤ i → i < MAX_TASKS →
        (s.task_pids i ≤ 0 ↔ ¬ (i ∈ held ∧ i ∉ reading_after
          [Op.get, Op.get, Op.get, Op.set_pid 0 4242, Op.put 2] (task_prepare State.zero, []) []))) := by
  have hs : (run_ops [Op.get, Op.get, Op.get, Op.set_pid 0 4242, Op.put 2]
      (task_prepare State.zero, [])).isSome = true := by decide
  obtain ⟨c, hc⟩ := Option.isSome_iff_exists.1 hs
  have hrun : run_ops [Op.get, Op.get, Op.get, Op.set_pid 0 4242, Op.put 2]
      (task_prepare State.zero, []) = some (c.1, c.2) := hc
  have h := free_list_encoding State.zero _ c.1 c.2 hrun
  exact ⟨c.1, c.2, hrun, h.1, h.2.2.2.2⟩

/-! ## NUL completion on peer close -/

theorem byte_at_concat (buf : List Nat) (x : Nat) (k : Int) (hk : k = buf.length) :
    byte_at (buf ++ [x]) k = x := by
  have := byte_at_append_singleton buf x
  have e : ((buf ++ [x]).length : Int) - 1 = k := by
    rw [List.length_append]; push_cast; simp [hk]
  rw [e] at this
  exact this

/-- C13.  Let the reads deliver the `n >= 1` bytes `delivered reads` and then
end-of-file, with `n < size`.  If the last delivered byte is not NUL,
`client_readbuf` returns `n + 1` and the buffer holds the delivered bytes
followed by NUL; if it is NUL, `client_readbuf` returns `n` and the buffer
holds the delivered bytes.  With `size = REQUESTBUF_SIZE` and no pending
buffer, and with `size = REQUESTBUF_SIZE - len` on top of a pending buffer
`b` of `len` bytes, `client_process` then calls `client_after_read` on the
completed request. -/
theorem nul_completion (s : State) (i : Int) (env : ClientEnv) (reads : List ReadResult)
    (size : Int) :
    (1 ≤ (delivered reads).length → ((delivered reads).length : Int) < size →
      read_end reads = .eof →
      (byte_at (delivered reads) (((delivered reads).length : Int) - 1) ≠ 0 →
        client_readbuf reads size =
          (((delivered reads).length : Int) + 1, delivered reads ++ [0]) ∧
        byte_at (client_readbuf reads size).2 (delivered reads).length = 0 ∧
        (client_readbuf reads size).2.take (delivered reads).length = delivered reads) ∧
      (byte_at (delivered reads) (((delivered reads).length : Int) - 1) = 0 →
        client_readbuf reads size = (((delivered reads).length : Int), delivered reads))) ∧
    (1 ≤ (delivered env.reads).length → ((delivered env.reads).length : Int) < REQUESTBUF_SIZE →
      read_end env.reads = .eof → s.task_buf i = none →
      byte_at (delivered env.reads) (((delivered env.reads).length : Int) - 1) ≠ 0 →
      client_process s i env =
        client_after_read s i (delivered env.reads ++ [0])
          (((delivered env.reads).length : Int) + 1) env) ∧
    (∀ b, 1 ≤ (delivered env.reads).length →
      ((delivered env.reads).length : Int) < REQUESTBUF_SIZE - b.length →
      read_end env.reads = .eof → s.task_buf i = some b →
      byte_at (delivered env.reads) (((delivered env.reads).length : Int) - 1) ≠ 0 →
      client_process s i env =
        client_after_read
          { s with task_buf := Function.update s.task_buf i (some (b ++ (delivered env.reads ++ [0]))) }
          i (b ++ (delivered env.reads ++ [0]))
          ((b ++ (delivered env.reads ++ [0])).length : Int) env) := by
  refine ⟨fun hn hs he => ⟨fun hz => ?_, fun hz => ?_⟩, fun hn hs he hb hz => ?_,
    fun b hn hs he hb hz => ?_⟩
  · have hr := client_readbuf_eof reads size (by omega) (by omega) he
    rw [if_pos ⟨hn, hz⟩] at hr
    rw [hr]
    exact ⟨rfl, byte_at_concat _ 0 _ rfl, by simp⟩
  · have hr := client_readbuf_eof reads size (by omega) (by omega) he
    have hc : ¬ (1 ≤ (delivered reads).length ∧
        byte_at (delivered reads) (((delivered reads).length : Int) - 1) ≠ 0) :=
      fun c => c.2 hz
    rw [if_neg hc] at hr
    exact hr
  · have hr := client_readbuf_eof env.reads REQUESTBUF_SIZE (by decide) (by omega) he
    rw [if_pos ⟨hn, hz⟩] at hr
    unfold client_process task_getbuf
    simp only [hb, hr]
    have h1 : ¬ (((delivered env.reads).length : Int) + 1 ≤ 0) := by omega
    have h2 : ¬ (byte_at (delivered env.reads ++ [0])
        (((delivered env.reads).length : Int) + 1 - 1) ≠ 0) := by
      rw [byte_at_concat _ 0 _ (by omega)]
      simp
    rw [if_neg h1, if_neg h2]
  · have hM : REQUESTBUF_SIZE = 5100 := rfl
    have hr := client_readbuf_eof env.reads (REQUESTBUF_SIZE - b.length) (by omega) (by omega) he
    rw [if_pos ⟨hn, hz⟩] at hr
    unfold client_process task_getbuf
    simp only [hb, hr]
    have h1 : ¬ (((delivered env.reads).length : Int) + 1 < 0) := by omega
    have h2 : ¬ (((delivered env.reads).length : Int) + 1 = 0 ∧
        (b.length : Int) < REQUESTBUF_SIZE) := fun c => by omega
    have htk : (delivered env.reads ++ [0]).take (((delivered env.reads).length : Int) + 1).toNat
        = delivered env.reads ++ [0] := by
      apply List.take_of_length_le
      simp only [List.length_append, List.length_singleton]
      omega
    have h3 : ¬ (byte_at (b ++ (delivered env.reads ++ [0]))
        (((b ++ (delivered env.reads ++ [0])).length : Int) - 1) ≠ 0) := by
      rw [← List.append_assoc, byte_at_concat _ 0 _ (by
        simp only [List.length_append, List.length_singleton]; push_cast; omega)]
      simp
    rw [if_neg h1, if_neg h2, htk, if_neg h3]

/-- C13 for a client that sends `exec#ls` without NUL and closes. -/
theorem nul_completion_witness :
    client_readbuf [.data [101, 120, 101, 99, 35, 108, 115], .eof] 5100 =
      (8, [101, 120, 101, 99, 35, 108, 115, 0]) ∧
    after_read_calls (client_process (server_sock_process startup 5 true true) 0
      ⟨[.data [101, 120, 101, 99, 35, 108, 115], .eof], true, true, 77⟩) =
      [(0, [101, 120, 101, 99, 35, 108, 115, 0], 8)] := by
  have h := nul_completion (server_sock_process startup 5 true true) 0
    ⟨[.data [101, 120, 101, 99, 35, 108, 115], .eof], true, true, 77⟩
    [.data [101, 120, 101, 99, 35, 108, 115], .eof] 5100
  refine ⟨((h.1 (by decide) (by decide) (by decide)).1 (by decide)).1, ?_⟩
  rw [h.2.1 (by decide) (by decide) (by decide) (by decide) (by decide),
    after_read_calls_client_after_read]
  decide

/-! ## The argument vector stays in bounds -/

theorem split_loop_bounds (l argc : Int) : ∀ (rest : List Nat) (i : Int) (argv : List Int),
    0 ≤ i →
    ((split_loop l argc rest i argv).2.length : Int) ≤ max (argv.length : Int) (argc - 1) ∧
    ∀ o ∈ (split_loop l argc rest i argv).2, o ∈ argv ∨ (i + 1 ≤ o ∧ o < l)
  | [], i, argv, _ => by
    simp only [split_loop]
    exact ⟨le_max_left _ _, fun o ho => Or.inl ho⟩
  | b :: rest, i, argv, h0 => by
    simp only [split_loop]
    split_ifs with hc hb hi
    · obtain ⟨h1, h2⟩ := split_loop_bounds l argc rest (i + 1) (argv ++ [i + 1]) (by omega)
      refine ⟨?_, fun o ho => ?_⟩
      · simp only [List.length_append, List.length_singleton, Nat.cast_add, Nat.cast_one] at h1
        have := hc.2
        simp only
        omega
      · rcases h2 o ho with c | c
        · rcases List.mem_append.1 c with d | d
          · exact Or.inl d
          · rw [List.mem_singleton] at d
            exact Or.inr ⟨by omega, by omega⟩
        · exact Or.inr ⟨by omega, c.2⟩
    · obtain ⟨h1, h2⟩ := split_loop_bounds l argc rest (i + 1) argv (by omega)
      refine ⟨h1, fun o ho => ?_⟩
      rcases h2 o ho with c | c
      · exact Or.inl c
      · exact Or.inr ⟨by omega, c.2⟩
    · obtain ⟨h1, h2⟩ := split_loop_bounds l argc rest (i + 1) argv (by omega)
      refine ⟨h1, fun o ho => ?_⟩
      rcases h2 o ho with c | c
      · exact Or.inl c
      · exact Or.inr ⟨by omega, c.2⟩
    · exact ⟨le_max_left _ _, fun o ho => Or.inl ho⟩

/-- C18.  For every buffer, every `l` and every `argc >= 1`,
`split_request` stores at most `argc - 1` pointers, each at an offset in
`[1, l)`; the NULL is written at the index that follows them, which is at
most `argc - 1`.  With `ARGV_MAX` a request yields at most 15 arguments. -/
theorem split_request_in_bounds (buf : List Nat) (l argc : Int) (hargc : 1 ≤ argc) :
    ((split_request buf l argc).2.length : Int) ≤ argc - 1 ∧
    (∀ o ∈ (split_request buf l argc).2, 1 ≤ o ∧ o < l) ∧
    (split_request buf l ARGV_MAX).2.length ≤ 15 := by
  have h := split_loop_bounds l argc buf 0 [] (le_refl 0)
  have h2 := split_loop_bounds l ARGV_MAX buf 0 [] (le_refl 0)
  unfold split_request
  refine ⟨?_, fun o ho => ?_, ?_⟩
  · have := h.1
    simp only [List.length_nil, Nat.cast_zero] at this
    omega
  · rcases h.2 o ho with c | c
    · exact absurd c (List.not_mem_nil _)
    · exact ⟨by omega, c.2⟩
  · have := h2.1
    have hA : ARGV_MAX = 16 := rfl
    simp only [List.length_nil, Nat.cast_zero] at this
    omega

/-- C18 on a request with 20 delimiters: 15 pointers are stored. -/
theorem split_request_in_bounds_witness :
    (split_request ([101, 120, 101, 99] ++ List.replicate 20 35 ++ [97, 0]) 26 ARGV_MAX).2 =
      [5, 6, 7, 8, 9, 10, 11, 12, 13, 14, 15, 16, 17, 18, 19] ∧
    ((split_request ([101, 120, 101, 99] ++ List.replicate 20 35 ++ [97, 0]) 26 ARGV_MAX).2.length
      : Int) ≤ ARGV_MAX - 1 :=
  ⟨by decide, (split_request_in_bounds _ 26 ARGV_MAX (by decide)).1⟩

/-! ## Which delimiters are replaced -/

theorem split_loop_front (l argc : Int) : ∀ (rest : List Nat) (i : Int) (argv : List Int),
    ∃ m : Nat, m ≤ rest.length ∧ m ≤ (l - i).toNat ∧
      (split_loop l argc rest i argv).1 = undelim (rest.take m) ++ rest.drop m
  | [], _, _ => ⟨0, le_refl _, Nat.zero_le _, by simp [split_loop, undelim]⟩
  | b :: rest, i, argv => by
    simp only [split_loop]
    split_ifs with hc hb hi
    · obtain ⟨m, h1, h2, hm⟩ := split_loop_front l argc rest (i + 1) (argv ++ [i + 1])
      exact ⟨m + 1, by simp only [List.length_cons]; omega, by omega,
        by simp [hm, undelim, hb]⟩
    · obtain ⟨m, h1, h2, hm⟩ := split_loop_front l argc rest (i + 1) argv
      exact ⟨m + 1, by simp only [List.length_cons]; omega, by omega,
        by simp [hm, undelim, hb]⟩
    · obtain ⟨m, h1, h2, hm⟩ := split_loop_front l argc rest (i + 1) argv
      exact ⟨m + 1, by simp only [List.length_cons]; omega, by omega,
        by simp [hm, undelim, hb]⟩
    · exact ⟨0, Nat.zero_le _, Nat.zero_le _, by simp [undelim]⟩

/-- The loop of `split_request` does not look beyond `buf[l-1]`: it is the
loop on the first `l - i` bytes, and the bytes after them stay. -/
theorem split_loop_take (l argc : Int) : ∀ (rest : List Nat) (i : Int) (argv : List Int),
    split_loop l argc rest i argv =
      ((split_loop l argc (rest.take (l - i).toNat) i argv).1 ++ rest.drop (l - i).toNat,
        (split_loop l argc (rest.take (l - i).toNat) i argv).2)
  | [], _, _ => by simp [split_loop]
  | b :: rest, i, argv => by
    by_cases hil : i < l
    · have hn : (l - i).toNat = (l - (i + 1)).toNat + 1 := by omega
      rw [hn, List.take_succ_cons, List.drop_succ_cons]
      by_cases hj : (argv.length : Int) < argc - 1
      · have hc : i < l ∧ (argv.length : Int) < argc - 1 := And.intro hil hj
        by_cases hb : b = DELIM
        · simp only [split_loop, if_pos hc, if_pos hb]
          rw [split_loop_take l argc rest (i + 1) _]
          simp
        · simp only [split_loop, if_pos hc, if_neg hb]
          rw [split_loop_take l argc rest (i + 1) _]
          simp
      · have hc : ¬ (i < l ∧ (argv.length : Int) < argc - 1) := fun c => hj c.2
        simp only [split_loop, if_neg hc]
        simp
    · have hn : (l - i).toNat = 0 := by omega
      rw [hn]
      simp only [List.take_zero, List.drop_zero, split_loop]
      rw [if_neg (fun c => hil c.1)]
      simp

theorem split_loop_all (l argc : Int) : ∀ (rest : List Nat) (i : Int) (argv : List Int),
    i + rest.length ≤ l → (rest.count DELIM : Int) + argv.length ≤ argc - 1 →
    (split_loop l argc rest i argv).1 = undelim rest
  | [], _, _, _, _ => by simp [split_loop, undelim]
  | b :: rest, i, argv, hl, hc => by
    have hil : i < l := by
      simp only [List.length_cons, Nat.cast_add, Nat.cast_one] at hl; omega
    have hl2 : i + 1 + rest.length ≤ l := by
      simp only [List.length_cons, Nat.cast_add, Nat.cast_one] at hl; omega
    simp only [split_loop]
    split_ifs with hcond hb hi
    · have hc2 : (rest.count DELIM : Int) + (argv ++ [i + 1]).length ≤ argc - 1 := by
        rw [hb, List.count_cons_self] at hc
        simp only [List.length_append, List.length_singleton, Nat.cast_add, Nat.cast_one] at hc ⊢
        omega
      simp [split_loop_all l argc rest (i + 1) _ hl2 hc2, undelim, hb]
    · have hc2 : (rest.count DELIM : Int) + argv.length ≤ argc - 1 := by
        rw [hb, List.count_cons_self] at hc
        push_cast at hc
        omega
      simp [split_loop_all l argc rest (i + 1) _ hl2 hc2, undelim, hb]
    · have hc2 : (rest.count DELIM : Int) + argv.length ≤ argc - 1 := by
        rw [List.count_cons_of_ne (Ne.symm hb)] at hc
        exact hc
      simp [split_loop_all l argc rest (i + 1) _ hl2 hc2, undelim, hb]
    · have hj : ¬ (argv.length : Int) < argc - 1 := fun c => hcond ⟨hil, c⟩
      have h0 : (b :: rest).count DELIM = 0 := by omega
      exact (undelim_of_count_zero h0).symm

theorem split_loop_some_left (l argc : Int) : ∀ (rest : List Nat) (i : Int) (argv : List Int),
    i + rest.length ≤ l → (argv.length : Int) ≤ argc - 1 →
    argc - 1 < (rest.count DELIM : Int) + argv.length →
    DELIM ∈ (split_loop l argc rest i argv).1
  | [], _, argv, _, h1, h2 => by
    simp only [List.count_nil, Nat.cast_zero, zero_add] at h2
    omega
  | b :: rest, i, argv, hl, h1, h2 => by
    have hl2 : i + 1 + rest.length ≤ l := by
      simp only [List.length_cons, Nat.cast_add, Nat.cast_one] at hl; omega
    simp only [split_loop]
    split_ifs with hcond hb hi
    · have h3 : argc - 1 < (rest.count DELIM : Int) + (argv ++ [i + 1]).length := by
        rw [hb, List.count_cons_self] at h2
        simp only [List.length_append, List.length_singleton, Nat.cast_add, Nat.cast_one] at h2 ⊢
        omega
      have h4 : ((argv ++ [i + 1]).length : Int) ≤ argc - 1 := by
        simp only [List.length_append, List.length_singleton, Nat.cast_add, Nat.cast_one]
        omega
      exact List.mem_cons_of_mem _ (split_loop_some_left l argc rest (i + 1) _ hl2 h4 h3)
    · exfalso
      have hr : rest.length = 0 := by omega
      have hr2 : rest = [] := List.length_eq_zero.1 hr
      subst hr2
      rw [hb] at h2
      simp only [List.count_cons_self, List.count_nil, zero_add, Nat.cast_one] at h2
      omega
    · have h3 : argc - 1 < (rest.count DELIM : Int) + argv.length := by
        rw [List.count_cons_of_ne (Ne.symm hb)] at h2
        exact h2
      exact List.mem_cons_of_mem _ (split_loop_some_left l argc rest (i + 1) _ hl2 h1 h3)
    · have hil : i < l := by
        simp only [List.length_cons, Nat.cast_add, Nat.cast_one] at hl; omega
      have hj : ¬ (argv.length : Int) < argc - 1 := fun c => hcond ⟨hil, c⟩
      have hpos : 0 < (b :: rest).count DELIM := by omega
      exact List.count_pos_iff.1 hpos

theorem not_mem_undelim (buf : List Nat) : DELIM ∉ undelim buf := by
  intro h
  obtain ⟨b, -, hb⟩ := List.mem_map.1 h
  by_cases c : b = DELIM
  · rw [if_pos c] at hb; exact absurd hb (by decide)
  · rw [if_neg c] at hb; exact c hb

theorem mem_takeWhile_of_dropLast {p : Nat → Bool} {x : Nat} : ∀ (L : List Nat),
    x ∈ L → p x = true → (∀ y ∈ L.dropLast, p y = true) → x ∈ L.takeWhile p
  | [], h, _, _ => absurd h (List.not_mem_nil _)
  | [a], h, hp, _ => by
    have : x = a := by simpa using h
    subst this
    simp [List.takeWhile, hp]
  | a :: b :: t, h, hp, hd => by
    have ha : p a = true := hd a (by simp [List.dropLast])
    rw [List.takeWhile_cons, ha]
    simp only [if_true]
    rcases List.mem_cons.1 h with e | e
    · exact e ▸ List.mem_cons_self _ _
    · refine List.mem_cons_of_mem _ (mem_takeWhile_of_dropLast (b :: t) e hp ?_)
      intro y hy
      exact hd y (by simp only [List.dropLast]; exact List.mem_cons_of_mem _ hy)

theorem dropLast_tail_subset {a : Nat} : ∀ (L : List Nat), ∀ y ∈ L.dropLast,
    y ∈ (a :: L).dropLast
  | [], y, hy => by simp at hy
  | b :: t, y, hy => by
    simp only [List.dropLast]
    exact List.mem_cons_of_mem _ hy

theorem mem_takeWhile_append {p : Nat → Bool} {x : Nat} : ∀ (L d : List Nat),
    x ∈ L.takeWhile p → x ∈ (L ++ d).takeWhile p
  | [], _, h => by simp at h
  | a :: L, d, h => by
    rw [List.cons_append, List.takeWhile_cons]
    rw [List.takeWhile_cons] at h
    by_cases ha : p a = true
    · rw [if_pos ha] at h ⊢
      rcases List.mem_cons.1 h with e | e
      · exact e ▸ List.mem_cons_self _ _
      · exact List.mem_cons_of_mem _ (mem_takeWhile_append L d e)
    · rw [if_neg ha] at h
      simp at h

/-- Where the loop of `split_request` stops when the bytes hold more
delimiters than pointers can be stored: after `m` bytes, with `argc - 1`
pointers, the last of them the offset `i + m`, and a delimiter among the bytes
it did not reach. -/
theorem split_loop_stop (l argc : Int) : ∀ (rest : List Nat) (i : Int) (argv : List Int),
    i + rest.length ≤ l → (argv.length : Int) ≤ argc - 1 →
    argc - 1 < (rest.count DELIM : Int) + argv.length →
    ∃ m : Nat, m < rest.length ∧
      (split_loop l argc rest i argv).1 = undelim (rest.take m) ++ rest.drop m ∧
      DELIM ∈ rest.drop m ∧
      ((split_loop l argc rest i argv).2.length : Int) = argc - 1 ∧
      ((argv.length : Int) < argc - 1 →
        0 < m ∧ (split_loop l argc rest i argv).2.getLast? = some (i + m)) ∧
      ((argv.length : Int) = argc - 1 → m = 0 ∧ (split_loop l argc rest i argv).2 = argv) ∧
      ((∀ y ∈ rest.dropLast, (y != 0) = true) →
        DELIM ∈ (rest.drop m).takeWhile (fun b => b != 0))
  | [], _, argv, _, h2, h3 => by
    simp only [List.count_nil, Nat.cast_zero, zero_add] at h3
    omega
  | b :: rest, i, argv, hl, h2, h3 => by
    have hil : i < l := by
      simp only [List.length_cons, Nat.cast_add, Nat.cast_one] at hl; omega
    have hl2 : i + 1 + rest.length ≤ l := by
      simp only [List.length_cons, Nat.cast_add, Nat.cast_one] at hl; omega
    by_cases hj : (argv.length : Int) < argc - 1
    · have hc : i < l ∧ (argv.length : Int) < argc - 1 := And.intro hil hj
      by_cases hb : b = DELIM
      · by_cases hi : i + 1 < l
        · have h4 : ((argv ++ [i + 1]).length : Int) ≤ argc - 1 := by
            simp only [List.length_append, List.length_singleton, Nat.cast_add, Nat.cast_one]
            omega
          have h5 : argc - 1 < (rest.count DELIM : Int) + (argv ++ [i + 1]).length := by
            rw [hb, List.count_cons_self] at h3
            simp only [List.length_append, List.length_singleton, Nat.cast_add, Nat.cast_one]
              at h3 ⊢
            omega
          obtain ⟨m, g1, g2, g3, g4, g5, g6, g7⟩ :=
            split_loop_stop l argc rest (i + 1) (argv ++ [i + 1]) hl2 h4 h5
          simp only [split_loop, if_pos hc, if_pos hb, if_pos hi]
          refine ⟨m + 1, by simp only [List.length_cons]; omega, ?_, ?_, g4, ?_, ?_, ?_⟩
          · rw [g2]
            simp [undelim, hb]
          · simpa using g3
          · intro _
            refine ⟨Nat.succ_pos _, ?_⟩
            by_cases hlast : ((argv ++ [i + 1]).length : Int) < argc - 1
            · rw [(g5 hlast).2]
              push_cast
              congr 1
              omega
            · obtain ⟨hm0, hargv⟩ := g6 (by omega)
              rw [hargv, hm0]
              simp
          · intro c
            omega
          · intro hd
            have := g7 (fun y hy => hd y (dropLast_tail_subset rest y hy))
            simpa using this
        · exfalso
          have hr : rest = [] := List.length_eq_zero.1 (by omega)
          subst hr
          rw [hb] at h3
          simp only [List.count_cons_self, List.count_nil, zero_add, Nat.cast_one] at h3
          omega
      · have h5 : argc - 1 < (rest.count DELIM : Int) + argv.length := by
          rw [List.count_cons_of_ne (Ne.symm hb)] at h3
          exact h3
        obtain ⟨m, g1, g2, g3, g4, g5, g6, g7⟩ :=
          split_loop_stop l argc rest (i + 1) argv hl2 h2 h5
        simp only [split_loop, if_pos hc, if_neg hb]
        refine ⟨m + 1, by simp only [List.length_cons]; omega, ?_, ?_, g4, ?_, ?_, ?_⟩
        · rw [g2]
          simp [undelim, hb]
        · simpa using g3
        · intro _
          refine ⟨Nat.succ_pos _, ?_⟩
          rw [(g5 hj).2]
          push_cast
          congr 1
          omega
        · intro c
          omega
        · intro hd
          have := g7 (fun y hy => hd y (dropLast_tail_subset rest y hy))
          simpa using this
    · have hc : ¬ (i < l ∧ (argv.length : Int) < argc - 1) := fun c => hj c.2
      have hpos : 0 < (b :: rest).count DELIM := by omega
      have hmem : DELIM ∈ b :: rest := List.count_pos_iff.1 hpos
      simp only [split_loop, if_neg hc]
      refine ⟨0, by simp, by simp [undelim], by simpa using hmem, by omega,
        fun c => absurd c hj, fun _ => by simp, fun hd => ?_⟩
      simp only [List.drop_zero]
      exact mem_takeWhile_of_dropLast (b :: rest) hmem (by decide) hd

theorem drop_take_append_drop (L : List Nat) (m n : Nat) (h : m ≤ (L.take n).length) :
    (L.take n).drop m ++ L.drop n = L.drop m := by
  rw [← List.drop_append_of_le_length h, List.take_append_drop]

/-- C14, as the code has it.  For every buffer and every `l`,
`split_request(buf, l, argv, ARGV_MAX)` replaces the delimiters of a prefix
`buf[0..m)`, `m <= l`, by NUL and changes no other byte.  Every `'#'` of
`buf[0..l)` is replaced exactly when `buf[0..l)` holds at most
`ARGV_MAX - 1` delimiters, and then no recorded argument string within
`buf[0..l)` contains a `'#'`.  When `buf[0..l)` holds more, `ARGV_MAX - 1`
pointers are recorded, the scan stops at the last of them, the offset `o`:
the delimiters before `o` are replaced, every byte from `o` on is unchanged,
and a `'#'` is among the bytes `buf[o..l)`; when no byte of `buf[0..l-1)` is
NUL, the last recorded argument string contains a `'#'`. -/
theorem split_request_replaces (buf : List Nat) (l : Int) :
    (∃ m : Nat, m ≤ l.toNat ∧ m ≤ buf.length ∧
      (split_request buf l ARGV_MAX).1 = undelim (buf.take m) ++ buf.drop m) ∧
    (((buf.take l.toNat).count DELIM : Int) ≤ ARGV_MAX - 1 ↔
      (split_request buf l ARGV_MAX).1 = undelim (buf.take l.toNat) ++ buf.drop l.toNat) ∧
    (((buf.take l.toNat).count DELIM : Int) ≤ ARGV_MAX - 1 →
      ∀ o ∈ (split_request buf l ARGV_MAX).2,
        DELIM ∉ cstr ((split_request buf l ARGV_MAX).1.take l.toNat) o) ∧
    (ARGV_MAX - 1 < ((buf.take l.toNat).count DELIM : Int) →
      ((split_request buf l ARGV_MAX).2.length : Int) = ARGV_MAX - 1 ∧
      ∃ o : Nat, (split_request buf l ARGV_MAX).2.getLast? = some (o : Int) ∧
        0 < o ∧ (o : Int) < l ∧
        (split_request buf l ARGV_MAX).1 = undelim (buf.take o) ++ buf.drop o ∧
        DELIM ∈ (buf.take l.toNat).drop o ∧
        ((∀ y ∈ (buf.take l.toNat).dropLast, y ≠ 0) →
          DELIM ∈ cstr (split_request buf l ARGV_MAX).1 o)) := by
  have hA : ARGV_MAX = 16 := rfl
  have hsplit : split_request buf l ARGV_MAX =
      ((split_loop l ARGV_MAX (buf.take l.toNat) 0 []).1 ++ buf.drop l.toNat,
        (split_loop l ARGV_MAX (buf.take l.toNat) 0 []).2) := by
    have := split_loop_take l ARGV_MAX buf 0 []
    simpa only [sub_zero] using this
  have hlen : (buf.take l.toNat).length ≤ l.toNat := by
    rw [List.length_take]
    exact Nat.min_le_left _ _
  -- the bound of the loop covers the bytes `buf[0..l)`
  have hl : buf.take l.toNat ≠ [] → (0 : Int) + (buf.take l.toNat).length ≤ l := by
    intro hne
    have hpos : 0 < (buf.take l.toNat).length := List.length_pos.2 hne
    omega
  have hall : ((buf.take l.toNat).count DELIM : Int) ≤ ARGV_MAX - 1 →
      (split_loop l ARGV_MAX (buf.take l.toNat) 0 []).1 = undelim (buf.take l.toNat) := by
    intro hc
    by_cases hne : buf.take l.toNat = []
    · rw [hne]
      simp [split_loop, undelim]
    · exact split_loop_all _ _ _ 0 [] (hl hne) (by simpa using hc)
  have hne_of : ARGV_MAX - 1 < ((buf.take l.toNat).count DELIM : Int) → buf.take l.toNat ≠ [] := by
    intro hc hnil
    rw [hnil] at hc
    simp only [List.count_nil, Nat.cast_zero] at hc
    omega
  refine ⟨?_, ⟨fun hc => ?_, fun he => ?_⟩, fun hc o ho hm => ?_, fun hc => ?_⟩
  · obtain ⟨m, h1, h2, h3⟩ := split_loop_front l ARGV_MAX buf 0 []
    exact ⟨m, by simpa only [sub_zero] using h2, h1, h3⟩
  · rw [hsplit]
    simp only
    rw [hall hc]
  · by_contra hc
    have hc2 : ARGV_MAX - 1 < ((buf.take l.toNat).count DELIM : Int) := by omega
    have hmem := split_loop_some_left l ARGV_MAX (buf.take l.toNat) 0 [] (hl (hne_of hc2))
      (by decide) (by simpa using hc2)
    rw [hsplit] at he
    simp only at he
    rw [List.append_cancel_right he] at hmem
    exact not_mem_undelim _ hmem
  · rw [hsplit] at hm
    simp only at hm
    rw [hall hc] at hm
    have hsub : ∀ x ∈ (undelim (buf.take l.toNat) ++ buf.drop l.toNat).take l.toNat,
        x ∈ undelim (buf.take l.toNat) := by
      intro x hx
      rw [List.take_append_eq_append_take] at hx
      rcases List.mem_append.1 hx with e | e
      · exact List.mem_of_mem_take e
      · exfalso
        have hu : (undelim (buf.take l.toNat)).length = (buf.take l.toNat).length := by
          simp [undelim]
        rw [hu, List.length_take] at e
        by_cases hb : l.toNat ≤ buf.length
        · rw [Nat.min_eq_left hb, Nat.sub_self] at e
          simp at e
        · rw [List.drop_eq_nil_of_le (by omega)] at e
          simp at e
    unfold cstr at hm
    exact not_mem_undelim _ (hsub _ (List.mem_of_mem_drop (List.takeWhile_subset _ hm)))
  · obtain ⟨m, g1, g2, g3, g4, g5, -, g7⟩ := split_loop_stop l ARGV_MAX (buf.take l.toNat) 0 []
      (hl (hne_of hc)) (by decide) (by simpa using hc)
    obtain ⟨hm0, hlast⟩ := g5 (by decide)
    have hmn : m ≤ l.toNat := by omega
    have htake : (buf.take l.toNat).take m = buf.take m := by
      rw [List.take_take, Nat.min_eq_left hmn]
    have hres : (split_request buf l ARGV_MAX).1 = undelim (buf.take m) ++ buf.drop m := by
      rw [hsplit]
      simp only
      rw [g2, htake, List.append_assoc, drop_take_append_drop buf m l.toNat (le_of_lt g1)]
    refine ⟨by rw [hsplit]; exact g4, m, ?_, hm0, by omega, hres, g3, fun hd => ?_⟩
    · rw [hsplit]
      simp only
      rw [hlast]
      simp
    · have h7 := g7 (fun y hy => by simpa using hd y hy)
      rw [hres]
      unfold cstr
      have hu : (undelim (buf.take m)).length = m := by
        simp only [undelim, List.length_map, List.length_take]
        have : (buf.take l.toNat).length ≤ buf.length := by
          rw [List.length_take]
          exact Nat.min_le_right _ _
        omega
      rw [Int.toNat_ofNat, List.drop_left' hu,
        ← drop_take_append_drop buf m l.toNat (le_of_lt g1)]
      exact mem_takeWhile_append _ _ h7

/-- C14 on `exec#a#b`, where both delimiters are replaced, and on `exec`
followed by fifteen arguments `#a` and a closing `'#'`, 35 bytes: fifteen
pointers are recorded, the last one at offset 33, and the `'#'` of byte 34
stays. -/
theorem split_request_replaces_witness :
    (split_request [101, 120, 101, 99, 35, 97, 35, 98, 0] 9 ARGV_MAX).1 =
      [101, 120, 101, 99, 0, 97, 0, 98, 0] ∧
    ((split_request ([101, 120, 101, 99] ++ (List.replicate 15 [35, 97]).flatten ++ [35])
      35 ARGV_MAX).2.length : Int) = ARGV_MAX - 1 ∧
    (split_request ([101, 120, 101, 99] ++ (List.replicate 15 [35, 97]).flatten ++ [35])
      35 ARGV_MAX).2.getLast? = some 33 ∧
    byte_at (split_request ([101, 120, 101, 99] ++ (List.replicate 15 [35, 97]).flatten ++ [35])
      35 ARGV_MAX).1 34 = 35 :=
  ⟨(split_request_replaces [101, 120, 101, 99, 35, 97, 35, 98, 0] 9).2.1.1 (by decide),
    ((split_request_replaces
      ([101, 120, 101, 99] ++ (List.replicate 15 [35, 97]).flatten ++ [35]) 35).2.2.2
      (by decide)).1, by decide, by decide⟩

/-- C14, where it fails: the request `exec` followed by sixteen arguments
`#a`.  The loop stops when 15 pointers are stored: the sixteenth `'#'`
(byte 34) stays, and the last recorded argument string, at offset 33, is
"a#a". -/
theorem split_request_replaces_counterexample :
    byte_at (split_request ([101, 120, 101, 99] ++ (List.replicate 16 [35, 97]).flatten ++ [0])
      37 ARGV_MAX).1 34 = 35 ∧
    (split_request ([101, 120, 101, 99] ++ (List.replicate 16 [35, 97]).flatten ++ [0])
      37 ARGV_MAX).2.getLast? = some 33 ∧
    cstr (split_request ([101, 120, 101, 99] ++ (List.replicate 16 [35, 97]).flatten ++ [0])
      37 ARGV_MAX).1 33 = [97, 35, 97] := by
  refine ⟨?_, ?_, ?_⟩ <;> decide

/-! ## Which requests are launched -/

theorem fork_calls_client_after_read (s : State) (i : Int) (buf : List Nat) (l : Int)
    (env : ClientEnv) :
    fork_calls (client_after_read s i buf l env) =
      if CMDLEN + 1 ≤ l ∧ env.del_ok = true ∧ classify buf ≠ none then fork_calls s + 1
      else fork_calls s := by
  have h0 : fork_calls { s with log := Effect.after_read i buf l :: s.log } = fork_calls s := by
    simp [fork_calls, List.countP_cons]
  have h1 : fork_calls { s with
      log := Effect.after_read i buf l :: s.log
      epoll := s.epoll.filter (fun e => e.1 != s.task_socks i) } = fork_calls s := by
    simp [fork_calls, List.countP_cons]
  unfold client_after_read
  simp only
  by_cases hl : l < CMDLEN + 1
  · rw [if_pos hl, fork_calls_task_put, h0, if_neg (fun c => by omega)]
  · rw [if_neg hl]
    by_cases hd : env.del_ok = false
    · rw [if_pos hd, fork_calls_task_put, h0, if_neg (fun c => by simp [hd] at c)]
    · rw [if_neg hd]
      have hd2 : env.del_ok = true := by simpa using hd
      cases hc : classify buf with
      | none =>
        simp only
        rw [fork_calls_task_put, h1, if_neg (fun c => c.2.2 rfl)]
      | some type =>
        simp only
        rw [fork_calls_after_fork, h1, if_pos ⟨by omega, hd2, by simp⟩]

/-- C20, as the code has it.  `client_after_read` calls `fork` at most once,
and when it does the request has length at least 5 and bytes 0..3 are one
of "exec", "pipe", "nret".  Byte 4 is not examined: a request with one of
the tags and any byte 4 reaches `fork` when the descriptor is removed from
the epoll set. -/
theorem launched_requests (s : State) (i : Int) (buf : List Nat) (l : Int) (env : ClientEnv) :
    (fork_calls (client_after_read s i buf l env) = fork_calls s ∨
      fork_calls (client_after_read s i buf l env) = fork_calls s + 1) ∧
    (fork_calls (client_after_read s i buf l env) ≠ fork_calls s →
      CMDLEN + 1 ≤ l ∧
      (buf.take 4 = EXEC.take 4 ∨ buf.take 4 = PIPE.take 4 ∨ buf.take 4 = NRET.take 4)) ∧
    (CMDLEN + 1 ≤ l → env.del_ok = true →
      (buf.take 4 = EXEC.take 4 ∨ buf.take 4 = PIPE.take 4 ∨ buf.take 4 = NRET.take 4) →
      fork_calls (client_after_read s i buf l env) = fork_calls s + 1) := by
  have hE : EXEC.take 4 = [101, 120, 101, 99] := rfl
  have hP : PIPE.take 4 = [112, 105, 112, 101] := rfl
  have hN : NRET.take 4 = [110, 114, 101, 116] := rfl
  have hcl : classify buf ≠ none ↔
      (buf.take 4 = EXEC.take 4 ∨ buf.take 4 = PIPE.take 4 ∨ buf.take 4 = NRET.take 4) := by
    rw [classify_eq, hE, hP, hN]
    split_ifs <;> simp_all
  rw [fork_calls_client_after_read]
  refine ⟨?_, fun h => ?_, fun h1 h2 h3 => ?_⟩
  · split_ifs
    · exact Or.inr rfl
    · exact Or.inl rfl
  · split_ifs at h with c
    · exact ⟨c.1, hcl.1 c.2.2⟩
    · exact absurd rfl h
  · rw [if_pos ⟨h1, h2, hcl.2 h3⟩]

/-- C20, where it fails: the request `execX#ls` has byte 4 equal to `'X'`,
neither `'#'` nor NUL, and `client_after_read` calls `fork` for it. -/
theorem launched_requests_counterexample :
    fork_calls (client_after_read (server_sock_process startup 5 true true) 0
      [101, 120, 101, 99, 88, 35, 108, 115, 0] 9 ⟨[], true, true, 77⟩) = 1 ∧
    byte_at [101, 120, 101, 99, 88, 35, 108, 115, 0] 4 ≠ DELIM ∧
    byte_at [101, 120, 101, 99, 88, 35, 108, 115, 0] 4 ≠ 0 := by
  refine ⟨?_, ?_, ?_⟩ <;> decide

/-! ## Pending buffers belong to READING slots -/

theorem nlb_congr {s t : State} (h : NoLaunchedBuf s) (h1 : t.task_pids = s.task_pids)
    (h2 : t.task_buf = s.task_buf) : NoLaunchedBuf t := by
  intro i hi
  rw [h2]
  exact h i (by rw [← h1]; exact hi)

theorem nlb_task_put {s : State} (h : NoLaunchedBuf s) (i : Int) :
    NoLaunchedBuf (task_put s i) := by
  intro j hj
  rw [task_put_task_buf]
  rw [task_put_task_pids] at hj
  by_cases hji : j = i
  · subst hji; simp
  · rw [Function.update_noteq hji] at hj ⊢
    exact h j hj

theorem nlb_set_buf {s : State} (h : NoLaunchedBuf s) (i : Int) (b : Option (List Nat))
    (hp : s.task_pids i ≤ 0 ∨ b = none) :
    NoLaunchedBuf { s with task_buf := Function.update s.task_buf i b } := by
  intro j hj
  by_cases hji : j = i
  · subst hji
    rcases hp with c | c
    · exact absurd hj (by simp only; omega)
    · simp [c]
  · simp only [Function.update_noteq hji]
    exact h j hj

theorem nlb_after_fork {s : State} (h : NoLaunchedBuf s) (i cl : Int) (type : Nat)
    (buf : List Nat) (l pid : Int) : NoLaunchedBuf (after_fork s i cl type buf l pid) := by
  have h2 : NoLaunchedBuf { s with log := Effect.fork pid :: s.log } := nlb_congr h rfl rfl
  have h5 : NoLaunchedBuf { s with
      log := Effect.fork pid :: s.log
      task_buf := Function.update s.task_buf i none
      pid_count := s.pid_count + 1
      task_pids := Function.update s.task_pids i pid } := by
    intro j hj
    by_cases hji : j = i
    · subst hji; simp
    · simp only [Function.update_noteq hji] at hj ⊢
      exact h j hj
  unfold after_fork
  simp only
  split_ifs
  · exact nlb_task_put h2 i
  · rw [task_freebuf_eq]; exact h5
  · rw [task_freebuf_eq]; exact nlb_congr h5 rfl rfl
  · exact nlb_congr h rfl rfl
  · exact nlb_congr h rfl rfl

theorem nlb_client_after_read {s : State} (h : NoLaunchedBuf s) (i : Int) (buf : List Nat)
    (l : Int) (env : ClientEnv) : NoLaunchedBuf (client_after_read s i buf l env) := by
  have h0 : NoLaunchedBuf { s with log := Effect.after_read i buf l :: s.log } :=
    nlb_congr h rfl rfl
  have h1 : NoLaunchedBuf { s with
      log := Effect.after_read i buf l :: s.log
      epoll := s.epoll.filter (fun e => e.1 != s.task_socks i) } := nlb_congr h rfl rfl
  unfold client_after_read
  simp only
  by_cases hl : l < CMDLEN + 1
  · rw [if_pos hl]; exact nlb_task_put h0 i
  · rw [if_neg hl]
    by_cases hd : env.del_ok = false
    · rw [if_pos hd]; exact nlb_task_put h0 i
    · rw [if_neg hd]
      cases hc : classify buf with
      | none => exact nlb_task_put h1 i
      | some type => exact nlb_after_fork h1 i _ type buf l env.fork_ret

theorem nlb_client_process {s : State} (h : NoLaunchedBuf s) (i : Int) (env : ClientEnv)
    (hp : s.task_pids i ≤ 0) : NoLaunchedBuf (client_process s i env) := by
  unfold client_process task_getbuf
  cases hb : s.task_buf i with
  | none =>
    simp only
    obtain ⟨b, hbe⟩ := task_allocbuf_eq s i env.malloc_ok
    split_ifs
    · exact nlb_task_put h i
    · exact nlb_task_put (hbe ▸ nlb_set_buf h i b (Or.inl hp)) i
    · rw [hbe]
      exact nlb_set_buf (nlb_set_buf h i b (Or.inl hp)) i _ (Or.inl hp)
    · exact nlb_client_after_read h i _ _ env
  | some b =>
    simp only
    split_ifs <;> first
      | exact nlb_task_put h i
      | exact nlb_set_buf h i _ (Or.inl hp)
      | exact nlb_client_after_read (nlb_set_buf h i _ (Or.inl hp)) i _ _ env

theorem nlb_after_wait {s : State} (h : NoLaunchedBuf s) (be : Bool) (pid status : Int) :
    NoLaunchedBuf (after_wait be s pid status) := by
  unfold after_wait
  simp only
  split_ifs
  · refine nlb_task_put ?_ _
    exact nlb_congr h rfl rfl
  · refine nlb_task_put ?_ _
    exact nlb_congr h rfl rfl
  · exact nlb_congr h rfl rfl

theorem nlb_wait_loop (be : Bool) : ∀ (waits : List (Int × Int)) {s : State},
    NoLaunchedBuf s → NoLaunchedBuf (wait_loop be s waits)
  | [], _, h => h
  | w :: rest, s, h => by
    simp only [wait_loop]
    split_ifs
    · exact nlb_wait_loop be rest (nlb_after_wait h be w.1 w.2)
    · exact h

theorem nlb_server_sock_process {s : State} (h : NoLaunchedBuf s) (cl : Int)
    (fcntl_ok add_ok : Bool) : NoLaunchedBuf (server_sock_process s cl fcntl_ok add_ok) := by
  have hg : NoLaunchedBuf (task_get s).1 := by
    unfold task_get; simp only
    split_ifs
    · exact h
    · exact nlb_congr h rfl rfl
  unfold server_sock_process
  simp only
  split_ifs
  · exact hg
  · exact nlb_task_put hg _
  · refine nlb_task_put ?_ _
    exact nlb_congr hg rfl rfl
  · refine nlb_task_put ?_ _
    exact nlb_congr hg rfl rfl
  · exact nlb_congr hg rfl rfl

theorem nlb_main_event {s : State} (h : NoLaunchedBuf s) (be : Bool) (e : Event) :
    NoLaunchedBuf (main_event be s e) := by
  cases e with
  | signal read_ok waits =>
    simp only [main_event, sfd_process]
    split_ifs
    · exact h
    · exact nlb_wait_loop be waits h
  | listener cl fcntl_ok add_ok => exact nlb_server_sock_process h cl fcntl_ok add_ok
  | client data_fd epollerr env =>
    simp only [main_event]
    split_ifs with h1 h2 h3
    · exact nlb_task_put h _
    · exact nlb_client_process h _ env h3
    · exact h
    · exact h

theorem nlb_foldl (be : Bool) : ∀ (evs : List Event) {s : State},
    NoLaunchedBuf s → NoLaunchedBuf (evs.foldl (main_event be) s)
  | [], _, h => h
  | e :: evs, _, h => nlb_foldl be evs (nlb_main_event h be e)

theorem nlb_live_loop (be : Bool) : ∀ (turns : List (List Event)) {s t : State},
    NoLaunchedBuf s → live_loop be s turns = some t → NoLaunchedBuf t
  | [], s, t, h, e => by
    simp only [live_loop, Option.some.injEq] at e
    subst e
    exact h
  | evs :: rest, s, t, h, e => by
    simp only [live_loop] at e
    cases hr : run_live be s evs with
    | none => simp [hr] at e
    | some u =>
      simp only [hr] at e
      rw [main_iteration_eq be s evs] at e
      exact nlb_live_loop be rest (nlb_foldl be evs h) e

theorem nlb_main_loop (be : Bool) : ∀ (turns : List (List Event)) {s t : State},
    NoLaunchedBuf s → main_loop be s turns = some t → NoLaunchedBuf t
  | [], s, t, h, e => by
    simp only [main_loop, Option.some.injEq] at e
    subst e
    exact h
  | evs :: rest, s, t, h, e => by
    simp only [main_loop] at e
    cases hr : run_events be s evs with
    | none => simp [hr] at e
    | some u =>
      simp only [hr] at e
      rw [main_iteration_eq be s evs] at e
      exact nlb_main_loop be rest (nlb_foldl be evs h) e

/-- C11, as the code has it.  In every state the loop reaches from
`startup`, a slot that holds a positive child id has no pending buffer.  As
long as every client event comes from a live registration, the slots on the
free chain have no pending buffer either, so a slot of the table with a
pending buffer is off the free chain and READING.  This fails after an event
of a stale registration.  Clients A and B are accepted in slots 0 and 1; B
sends `pipe#ls`, child 77 is forked and inherits A's socket; A sends "x" and
slot 0 is released; the next event of A's registration makes `task_put(0)`
run a second time, which leaves `avaliable_list = 0` and `task_pids[0] = 0`.
The next client is accepted in slot 0 while `avaliable_list` stays 0, and its
first bytes "ex" become a pending buffer: the head of the free list holds a
pending buffer. -/
theorem pending_buffer_and_stale_event :
    (∀ (be : Bool) (turns : List (List Event)) (s : State),
      main_loop be startup turns = some s → ∀ i, 0 < s.task_pids i → s.task_buf i = none) ∧
    (∀ (be : Bool) (turns : List (List Event)) (s : State),
      live_loop be startup turns = some s →
      ∃ l, free_chain s = some l ∧
        (∀ i ∈ l, s.task_buf i = none) ∧
        (∀ i, 0 ≤ i → i < MAX_TASKS → s.task_buf i ≠ none → i ∉ l ∧ s.task_pids i ≤ 0)) ∧
    (∃ s, main_loop false startup
        [[.listener 5 true true],
         [.listener 6 true true],
         [.client (-1) false ⟨[.data [112, 105, 112, 101, 35, 108, 115, 0], .again],
           true, true, 77⟩],
         [.client 0 false ⟨[.data [120, 0], .again], true, true, 78⟩],
         [.client 0 false ⟨[.err], true, true, 78⟩],
         [.listener 5 true true],
         [.client 0 false ⟨[.data [101, 120], .again], true, true, 78⟩]] = some s ∧
      -s.avaliable_list = 0 ∧ s.task_buf 0 = some [101, 120] ∧ s.task_pids 0 ≤ 0 ∧
      s.task_socks 0 = 5 ∧ free_chain s = none) := by
  have hs : NoLaunchedBuf startup := by
    intro i _
    simp only [startup, task_prepare, State.zero]
    split_ifs <;> rfl
  refine ⟨fun be turns s h => nlb_main_loop be turns hs h, fun be turns s h => ?_, ?_⟩
  · obtain ⟨held, l, hi⟩ := loopInv_live_loop be turns loopInv_startup h
    have hn := nlb_live_loop be turns hs h
    refine ⟨l, inv_free_chain hi.inv, hi.inv.free_buf, fun i _ _ hb => ⟨?_, ?_⟩⟩
    · exact fun hm => hb (hi.inv.free_buf i hm)
    · by_contra c
      exact hb (hn i (by omega))
  · have hsome : (main_loop false startup
        [[.listener 5 true true],
         [.listener 6 true true],
         [.client (-1) false ⟨[.data [112, 105, 112, 101, 35, 108, 115, 0], .again],
           true, true, 77⟩],
         [.client 0 false ⟨[.data [120, 0], .again], true, true, 78⟩],
         [.client 0 false ⟨[.err], true, true, 78⟩],
         [.listener 5 true true],
         [.client 0 false ⟨[.data [101, 120], .again], true, true, 78⟩]]).isSome = true := by
      decide
    obtain ⟨c, hc⟩ := Option.isSome_iff_exists.1 hsome
    have := Option.some.inj (hc.symm.trans (rfl : main_loop false startup
        [[.listener 5 true true],
         [.listener 6 true true],
         [.client (-1) false ⟨[.data [112, 105, 112, 101, 35, 108, 115, 0], .again],
           true, true, 77⟩],
         [.client 0 false ⟨[.data [120, 0], .again], true, true, 78⟩],
         [.client 0 false ⟨[.err], true, true, 78⟩],
         [.listener 5 true true],
         [.client 0 false ⟨[.data [101, 120], .again], true, true, 78⟩]] = some _))
    refine ⟨c, hc, ?_, ?_, ?_, ?_, ?_⟩ <;> rw [this] <;> decide

/-! ## A readable event without data -/

theorem client_process_pending_nodata (s : State) (i : Int) (b : List Nat) (env : ClientEnv)
    (hb : s.task_buf i = some b) (hlen : (b.length : Int) < REQUESTBUF_SIZE)
    (hr : client_readbuf env.reads (REQUESTBUF_SIZE - b.length) = (0, [])) :
    client_process s i env =
      client_after_read { s with task_buf := Function.update s.task_buf i (some (b ++ [0])) } i
        (b ++ [0]) ((b.length : Int) + 1) env := by
  unfold client_process task_getbuf
  simp only [hb, hr]
  have h2 : True ∧ (b.length : Int) < REQUESTBUF_SIZE := ⟨trivial, hlen⟩
  rw [if_pos h2]
  have hz : ¬ byte_at (b ++ [0] ++ List.take (0 : Int).toNat [])
      (((b ++ [0] ++ List.take (0 : Int).toNat []).length : Int) - 1) ≠ 0 := by
    simp only [Int.toNat_zero, List.take_nil, List.append_nil, List.length_append,
      List.length_singleton, Nat.cast_add, Nat.cast_one, add_sub_cancel_right]
    rw [byte_at_concat b 0 _ (by omega)]
    simp
  rw [if_neg hz]
  simp

/-- C23, as the code has it.  For every slot with a pending buffer `b`
shorter than `REQUESTBUF_SIZE`, when the first `read` of the event reports
would-block, `client_readbuf` returns 0 without bytes, and `client_process`
appends a NUL to the pending buffer and calls `client_after_read` with
`b ++ [0]` and the length `len + 1`: the test `l == 0` takes the event for an
end-of-file and completes the request, exactly as an event whose first
`read` reports end-of-file does. -/
theorem no_data_completes (s : State) (i : Int) (b : List Nat) (env : ClientEnv)
    (rest : List ReadResult) (hb : s.task_buf i = some b)
    (hlen : (b.length : Int) < REQUESTBUF_SIZE) (hr : env.reads = .again :: rest) :
    client_readbuf env.reads (REQUESTBUF_SIZE - b.length) = (0, []) ∧
    client_process s i env =
      client_after_read { s with task_buf := Function.update s.task_buf i (some (b ++ [0])) } i
        (b ++ [0]) ((b.length : Int) + 1) env ∧
    after_read_calls (client_process s i env) =
      after_read_calls s ++ [(i, b ++ [0], (b.length : Int) + 1)] ∧
    client_process s i env = client_process s i { env with reads := .eof :: rest } := by
  have hM : REQUESTBUF_SIZE = 5100 := rfl
  have h1 : client_readbuf env.reads (REQUESTBUF_SIZE - b.length) = (0, []) := by
    rw [hr]
    exact client_readbuf_again (.again :: rest) _ (by omega) (by simp [delivered]; omega) rfl
  have h2 : client_readbuf (.eof :: rest) (REQUESTBUF_SIZE - b.length) = (0, []) := by
    rw [client_readbuf_eof (.eof :: rest) _ (by omega) (by simp [delivered]; omega) rfl]
    simp [delivered]
  have h3 := client_process_pending_nodata s i b env hb hlen h1
  have h4 := client_process_pending_nodata s i b { env with reads := .eof :: rest } hb hlen h2
  refine ⟨h1, h3, ?_, ?_⟩
  · rw [h3, after_read_calls_client_after_read]
    rfl
  · rw [h3, h4]
    rfl

/-- C23 on a run of the daemon.  Clients A and B are accepted in slots 0 and
1 (sockets 5 and 6); B sends `pipe#ls`, child 77 is forked and inherits
socket 5; A sends "x" and slot 0 is released, which leaves A's registration
in the kernel; client C is accepted in slot 0 and sends "exec#l" without a
NUL, which becomes the pending buffer.  Then A's registration reports an
event with `data.fd = 0`: `client_process(0)` reads from C's socket, the
`read` would block, and "exec#l" with a NUL, length 7, goes to
`client_after_read`: child 78 is forked for the truncated request. -/
theorem no_data_completes_witness :
    (∃ s, main_loop false startup
        [[.listener 5 true true],
         [.listener 6 true true],
         [.client (-1) false ⟨[.data [112, 105, 112, 101, 35, 108, 115, 0], .again],
           true, true, 77⟩],
         [.client 0 false ⟨[.data [120, 0], .again], true, true, 78⟩],
         [.listener 5 true true],
         [.client 0 false ⟨[.data [101, 120, 101, 99, 35, 108], .again], true, true, 78⟩]] =
          some s ∧
      s.task_buf 0 = some [101, 120, 101, 99, 35, 108] ∧ s.task_pids 0 ≤ 0 ∧
      fork_calls s = 1 ∧
      after_read_calls (client_process s 0 ⟨[.again], true, true, 78⟩) =
        after_read_calls s ++ [(0, [101, 120, 101, 99, 35, 108, 0], 7)]) ∧
    (∃ t, main_loop false startup
        [[.listener 5 true true],
         [.listener 6 true true],
         [.client (-1) false ⟨[.data [112, 105, 112, 101, 35, 108, 115, 0], .again],
           true, true, 77⟩],
         [.client 0 false ⟨[.data [120, 0], .again], true, true, 78⟩],
         [.listener 5 true true],
         [.client 0 false ⟨[.data [101, 120, 101, 99, 35, 108], .again], true, true, 78⟩],
         [.client 0 false ⟨[.again], true, true, 78⟩]] = some t ∧
      t.task_buf 0 = none ∧ t.task_pids 0 = 78 ∧ fork_calls t = 2 ∧
      after_read_calls t =
        [(1, [112, 105, 112, 101, 35, 108, 115, 0], 8), (0, [120, 0], 2),
         (0, [101, 120, 101, 99, 35, 108, 0], 7)]) := by
  constructor
  · have hs : (main_loop false startup
        [[.listener 5 true true],
         [.listener 6 true true],
         [.client (-1) false ⟨[.data [112, 105, 112, 101, 35, 108, 115, 0], .again],
           true, true, 77⟩],
         [.client 0 false ⟨[.data [120, 0], .again], true, true, 78⟩],
         [.listener 5 true true],
         [.client 0 false ⟨[.data [101, 120, 101, 99, 35, 108], .again], true, true, 78⟩]]
        ).isSome = true := by decide
    obtain ⟨c, hc⟩ := Option.isSome_iff_exists.1 hs
    have hc2 := Option.some.inj (hc.symm.trans (rfl : main_loop false startup
        [[.listener 5 true true],
         [.listener 6 true true],
         [.client (-1) false ⟨[.data [112, 105, 112, 101, 35, 108, 115, 0], .again],
           true, true, 77⟩],
         [.client 0 false ⟨[.data [120, 0], .again], true, true, 78⟩],
         [.listener 5 true true],
         [.client 0 false ⟨[.data [101, 120, 101, 99, 35, 108], .again], true, true, 78⟩]] =
          some _))
    have hb : c.task_buf 0 = some [101, 120, 101, 99, 35, 108] := by
      rw [hc2]
      decide
    have h := no_data_completes c 0 [101, 120, 101, 99, 35, 108] ⟨[.again], true, true, 78⟩ []
      hb (by decide) rfl
    refine ⟨c, hc, hb, ?_, ?_, h.2.2.1⟩ <;> rw [hc2] <;> decide
  · have hs : (main_loop false startup
        [[.listener 5 true true],
         [.listener 6 true true],
         [.client (-1) false ⟨[.data [112, 105, 112, 101, 35, 108, 115, 0], .again],
           true, true, 77⟩],
         [.client 0 false ⟨[.data [120, 0], .again], true, true, 78⟩],
         [.listener 5 true true],
         [.client 0 false ⟨[.data [101, 120, 101, 99, 35, 108], .again], true, true, 78⟩],
         [.client 0 false ⟨[.again], true, true, 78⟩]]).isSome = true := by decide
    obtain ⟨c, hc⟩ := Option.isSome_iff_exists.1 hs
    have hc2 := Option.some.inj (hc.symm.trans (rfl : main_loop false startup
        [[.listener 5 true true],
         [.listener 6 true true],
         [.client (-1) false ⟨[.data [112, 105, 112, 101, 35, 108, 115, 0], .again],
           true, true, 77⟩],
         [.client 0 false ⟨[.data [120, 0], .again], true, true, 78⟩],
         [.listener 5 true true],
         [.client 0 false ⟨[.data [101, 120, 101, 99, 35, 108], .again], true, true, 78⟩],
         [.client 0 false ⟨[.again], true, true, 78⟩]] = some _))
    refine ⟨c, hc, ?_, ?_, ?_, ?_⟩ <;> rw [hc2] <;> decide

/-! ## Events for free slots -/

theorem isChain_unique {p : Int → Int} : ∀ {l l2 : List Int} {a : Int},
    IsChain p a l → IsChain p a l2 → l = l2
  | [], [], _, _, _ => rfl
  | [], j :: l2, a, h, h2 => by
    have hM : MAX_TASKS = 16 := rfl
    simp only [IsChain] at h h2
    omega
  | j :: l, [], a, h, h2 => by
    have hM : MAX_TASKS = 16 := rfl
    simp only [IsChain] at h h2
    omega
  | j :: l, k :: l2, a, h, h2 => by
    obtain ⟨ha, -, -, hc⟩ := h
    obtain ⟨ha2, -, -, hc2⟩ := h2
    have hjk : j = k := ha.symm.trans ha2
    subst hjk
    rw [isChain_unique hc hc2]

theorem isChain_reaches {p p2 : Int → Int} {i : Int} (hp : ∀ j, j ≠ i → p2 j = p j) :
    ∀ {lsuf : List Int} {a : Int} {l3 : List Int}, IsChain p a lsuf → i ∈ lsuf →
      IsChain p2 a l3 → ∃ l4, IsChain p2 i l4 ∧ l4.length ≤ l3.length
  | [], _, _, _, hi, _ => absurd hi (List.not_mem_nil _)
  | j :: lsuf, a, l3, h, hi, h3 => by
    have hM : MAX_TASKS = 16 := rfl
    obtain ⟨ha, h0, h1, hc⟩ := h
    cases l3 with
    | nil =>
      simp only [IsChain] at h3
      omega
    | cons k l5 =>
      obtain ⟨hak, hk0, hk1, hc3⟩ := h3
      have hjk : j = k := ha.symm.trans hak
      subst hjk
      by_cases hji : j = i
      · subst hji
        exact ⟨j :: l5, ⟨rfl, hk0, hk1, hc3⟩, le_refl _⟩
      · have him : i ∈ lsuf := by
          rcases List.mem_cons.1 hi with e | e
          · exact absurd e.symm hji
          · exact e
        rw [hp j hji] at hc3
        obtain ⟨l4, h4, hlen⟩ := isChain_reaches hp hc him hc3
        exact ⟨l4, h4, by simp only [List.length_cons]; omega⟩

theorem free_chain_put_free {s : State} {held l : List Int} {i : Int} (h : Inv s held l)
    (hi : i ∈ l) : free_chain (task_put s i) = none := by
  have hM : MAX_TASKS = 16 := rfl
  have hr := (h.mem i).1 hi
  cases hc : free_chain (task_put s i) with
  | none => rfl
  | some l2 =>
    exfalso
    have h2 := isChain_of_chain_from hc
    rw [task_put_avaliable_list, task_put_task_pids, neg_neg] at h2
    cases l2 with
    | nil =>
      simp only [IsChain] at h2
      omega
    | cons k l3 =>
      obtain ⟨hk, -, -, hc3⟩ := h2
      subst hk
      rw [Function.update_same] at hc3
      obtain ⟨l4, h4, hlen⟩ := isChain_reaches
        (fun j hj => Function.update_noteq hj _ _) h.chain hi hc3
      have h5 : IsChain (Function.update s.task_pids i s.avaliable_list) i (i :: l3) :=
        ⟨rfl, hr.1, hr.2.1, by rw [Function.update_same]; exact hc3⟩
      have := isChain_unique h4 h5
      rw [this] at hlen
      simp only [List.length_cons] at hlen
      omega

/-- C22, as the code has it.  In every state reachable by paired use, for
every slot `i` on the free chain and every client event with the payload
`-i`: with `EPOLLERR` the loop calls `task_put(i)`; without it the test
`task_pids[i] <= 0` holds and `client_process(i)` runs on the stack path,
which calls `task_put(i)` when `client_readbuf` returns no byte (failed
`read`, end-of-file, would-block).  That `task_put` of a free slot takes 1
from `task_count` and closes the chain into a cycle through `i`: the walk
from `-avaliable_list` no longer ends, so the table is not left as it
was. -/
theorem free_slot_event (be : Bool) (s0 : State) (ops : List Op) (s : State) (held : List Int)
    (h : run_ops ops (task_prepare s0, []) = some (s, held)) (l : List Int)
    (hl : free_chain s = some l) (i : Int) (hi : i ∈ l) (env : ClientEnv) :
    main_event be s (.client (-i) true env) = task_put s i ∧
    main_event be s (.client (-i) false env) = client_process s i env ∧
    ((client_readbuf env.reads REQUESTBUF_SIZE).1 ≤ 0 → client_process s i env = task_put s i) ∧
    (task_put s i).task_count = s.task_count - 1 ∧
    free_chain (task_put s i) = none ∧
    free_chain (task_put s i) ≠ free_chain s := by
  obtain ⟨l2, hinv⟩ := inv_reachable h
  have hl2 : l2 = l := Option.some.inj ((inv_free_chain hinv).symm.trans hl)
  subst hl2
  have hr := (hinv.mem i).1 hi
  have hpid := isChain_link hinv.chain i hi
  have hbuf := hinv.free_buf i hi
  have hfree := free_chain_put_free hinv hi
  refine ⟨?_, ?_, ?_, task_put_task_count s i, hfree, ?_⟩
  · simp only [main_event, neg_neg]
    rw [if_pos (by omega)]
    simp
  · simp only [main_event, neg_neg]
    rw [if_pos (by omega)]
    simp [hpid]
  · intro hle
    unfold client_process task_getbuf
    simp only [hbuf]
    rw [if_pos hle]
  · rw [hfree, hl]
    simp

/-- C22 at the start of the loop, where every slot is free: an event with
the payload of slot 0, with `EPOLLERR` or with a failing `read`, leaves
`task_count` at -1 and a free chain that does not end. -/
theorem free_slot_event_witness :
    free_chain startup = some [0, 1, 2, 3, 4, 5, 6, 7, 8, 9, 10, 11, 12, 13, 14, 15] ∧
    startup.task_count = 0 ∧
    (main_event false startup (.client 0 true ⟨[.err], true, true, 77⟩)).task_count = -1 ∧
    free_chain (main_event false startup (.client 0 true ⟨[.err], true, true, 77⟩)) = none ∧
    (main_event false startup (.client 0 false ⟨[.err], true, true, 77⟩)).task_count = -1 ∧
    free_chain (main_event false startup (.client 0 false ⟨[.err], true, true, 77⟩)) = none := by
  have hl : free_chain startup = some [0, 1, 2, 3, 4, 5, 6, 7, 8, 9, 10, 11, 12, 13, 14, 15] := by
    decide
  have h := free_slot_event false State.zero [] startup [] rfl _ hl 0 (by decide)
    ⟨[.err], true, true, 77⟩
  obtain ⟨h1, h2, h3, h4, h5, -⟩ := h
  have h6 : main_event false startup (.client 0 false ⟨[.err], true, true, 77⟩) =
      task_put startup 0 := h2.trans (h3 (by decide))
  have h7 : main_event false startup (.client 0 true ⟨[.err], true, true, 77⟩) =
      task_put startup 0 := h1
  rw [h6, h7]
  exact ⟨hl, rfl, h4, h5, h4, h5⟩

/-! ## The length of the pending buffer and its block -/

theorem bufLen_of_sub {s t : State} (h : BufLen s) (hs : BufSub t s) : BufLen t := by
  intro i b hb
  rcases hs i with e | e
  · exact h i b (e ▸ hb)
  · rw [e] at hb
    cases hb

theorem bufSub_of_eq {s t : State} (h : t.task_buf = s.task_buf) : BufSub t s :=
  fun j => Or.inl (by rw [h])

theorem bufSub_trans {s t u : State} (h1 : BufSub u t) (h2 : BufSub t s) : BufSub u s := by
  intro j
  rcases h1 j with e | e
  · rcases h2 j with e2 | e2
    · exact Or.inl (e.trans e2)
    · exact Or.inr (e.trans e2)
  · exact Or.inr e

theorem bufSub_update_none (s : State) (i : Int) :
    BufSub { s with task_buf := Function.update s.task_buf i none } s := by
  intro j
  by_cases hji : j = i
  · subst hji
    exact Or.inr (by simp)
  · exact Or.inl (by simp [Function.update_noteq hji])

theorem bufSub_task_put (s : State) (i : Int) : BufSub (task_put s i) s := by
  intro j
  rw [task_put_task_buf]
  exact bufSub_update_none s i j

theorem bufSub_put_of_eq {s t : State} (h : t.task_buf = s.task_buf) (i : Int) :
    BufSub (task_put t i) s :=
  bufSub_trans (bufSub_task_put t i) (bufSub_of_eq h)

theorem bufSub_after_fork (s : State) (i cl : Int) (type : Nat) (buf : List Nat) (l pid : Int) :
    BufSub (after_fork s i cl type buf l pid) s := by
  unfold after_fork
  simp only
  split_ifs
  · refine bufSub_put_of_eq ?_ i
    rfl
  · rw [task_freebuf_eq]
    exact bufSub_update_none s i
  · rw [task_freebuf_eq]
    exact bufSub_update_none s i
  · exact bufSub_of_eq rfl
  · exact bufSub_of_eq rfl

theorem bufSub_client_after_read (s : State) (i : Int) (buf : List Nat) (l : Int)
    (env : ClientEnv) : BufSub (client_after_read s i buf l env) s := by
  unfold client_after_read
  simp only
  by_cases hl : l < CMDLEN + 1
  · rw [if_pos hl]
    refine bufSub_put_of_eq ?_ i
    rfl
  · rw [if_neg hl]
    by_cases hd : env.del_ok = false
    · rw [if_pos hd]
      refine bufSub_put_of_eq ?_ i
      rfl
    · rw [if_neg hd]
      cases hc : classify buf with
      | none =>
        refine bufSub_put_of_eq ?_ i
        rfl
      | some type =>
        refine bufSub_trans (bufSub_after_fork _ i _ type buf l env.fork_ret) (bufSub_of_eq ?_)
        rfl

theorem client_readbuf_len (reads : List ReadResult) (size : Int)
    (h : 0 ≤ (client_readbuf reads size).1) :
    ((client_readbuf reads size).2.length : Int) = (client_readbuf reads size).1 := by
  unfold client_readbuf at h ⊢
  by_cases h0 : size ≤ 0
  · rw [if_pos h0] at h
    simp at h
  · rw [if_neg h0] at h ⊢
    simp only at h ⊢
    by_cases h1 : (read_loop size reads [] 0).ret < 0 ∧ (read_loop size reads [] 0).eagain = false
    · rw [if_pos h1] at h
      simp at h
    · rw [if_neg h1] at h ⊢
      split_ifs at h ⊢ <;> first
        | rfl
        | (simp at h)

theorem bufLen_set {s : State} (h : BufLen s) (i : Int) (b : List Nat) (h1 : 1 ≤ b.length)
    (h2 : (b.length : Int) ≤ REQUESTBUF_SIZE) :
    BufLen { s with task_buf := Function.update s.task_buf i (some b) } := by
  intro j c hc
  by_cases hji : j = i
  · subst hji
    simp only [Function.update_same, Option.some.injEq] at hc
    subst hc
    exact ⟨h1, h2⟩
  · simp only [Function.update_noteq hji] at hc
    exact h j c hc

theorem bufLen_client_process {s : State} (h : BufLen s) (i : Int) (env : ClientEnv) :
    BufLen (client_process s i env) := by
  have hM : REQUESTBUF_SIZE = 5100 := rfl
  unfold client_process task_getbuf
  cases hb : s.task_buf i with
  | none =>
    simp only
    obtain ⟨b0, hbe⟩ := task_allocbuf_eq s i env.malloc_ok
    by_cases h1 : (client_readbuf env.reads REQUESTBUF_SIZE).1 ≤ 0
    · rw [if_pos h1]
      exact bufLen_of_sub h (bufSub_task_put s i)
    · rw [if_neg h1]
      have hlen := client_readbuf_len env.reads REQUESTBUF_SIZE (by omega)
      split_ifs with h2 h3
      · rw [hbe]
        refine bufLen_of_sub h ?_
        intro j
        rw [task_put_task_buf]
        by_cases hji : j = i
        · subst hji
          exact Or.inr (by simp)
        · exact Or.inl (by simp [Function.update_noteq hji])
      · rw [hbe]
        simp only [Function.update_idem]
        refine bufLen_set h i _ ?_ ?_
        · rw [List.length_take]
          omega
        · rw [List.length_take]
          omega
      · exact bufLen_of_sub h (bufSub_client_after_read s i _ _ env)
  | some b =>
    simp only
    obtain ⟨hb1, hb2⟩ := h i b hb
    by_cases h1 : (client_readbuf env.reads (REQUESTBUF_SIZE - b.length)).1 < 0
    · rw [if_pos h1]
      exact bufLen_of_sub h (bufSub_task_put s i)
    · rw [if_neg h1]
      have hlen := client_readbuf_len env.reads (REQUESTBUF_SIZE - b.length) (by omega)
      have hle := client_readbuf_le env.reads (REQUESTBUF_SIZE - b.length) (by omega)
      have hl1 : 1 ≤ ((if (client_readbuf env.reads (REQUESTBUF_SIZE - b.length)).1 = 0 ∧
            (b.length : Int) < REQUESTBUF_SIZE then b ++ [0] else b) ++
          (client_readbuf env.reads (REQUESTBUF_SIZE - b.length)).2.take
            (client_readbuf env.reads (REQUESTBUF_SIZE - b.length)).1.toNat).length := by
        rw [List.length_append]
        split_ifs
        · simp only [List.length_append, List.length_singleton]
          omega
        · omega
      have hl2 : (((if (client_readbuf env.reads (REQUESTBUF_SIZE - b.length)).1 = 0 ∧
            (b.length : Int) < REQUESTBUF_SIZE then b ++ [0] else b) ++
          (client_readbuf env.reads (REQUESTBUF_SIZE - b.length)).2.take
            (client_readbuf env.reads (REQUESTBUF_SIZE - b.length)).1.toNat).length : Int) ≤
          REQUESTBUF_SIZE := by
        rw [List.length_append, List.length_take]
        split_ifs
        · simp only [List.length_append, List.length_singleton]
          omega
        · omega
      generalize ((if (client_readbuf env.reads (REQUESTBUF_SIZE - b.length)).1 = 0 ∧
            (b.length : Int) < REQUESTBUF_SIZE then b ++ [0] else b) ++
          (client_readbuf env.reads (REQUESTBUF_SIZE - b.length)).2.take
            (client_readbuf env.reads (REQUESTBUF_SIZE - b.length)).1.toNat) = b2 at hl1 hl2 ⊢
      have hs1 := bufLen_set h i b2 hl1 hl2
      split_ifs with h3
      · exact hs1
      · exact bufLen_of_sub hs1 (bufSub_client_after_read _ i _ _ env)

theorem bufSub_after_wait (be : Bool) (s : State) (pid status : Int) :
    BufSub (after_wait be s pid status) s := by
  unfold after_wait
  simp only
  split_ifs
  · refine bufSub_put_of_eq ?_ _
    rfl
  · refine bufSub_put_of_eq ?_ _
    rfl
  · exact bufSub_of_eq rfl

theorem bufLen_wait_loop (be : Bool) : ∀ (waits : List (Int × Int)) {s : State},
    BufLen s → BufLen (wait_loop be s waits)
  | [], _, h => h
  | w :: rest, s, h => by
    simp only [wait_loop]
    split_ifs
    · exact bufLen_wait_loop be rest (bufLen_of_sub h (bufSub_after_wait be s w.1 w.2))
    · exact h

theorem bufSub_server_sock_process (s : State) (cl : Int) (fcntl_ok add_ok : Bool) :
    BufSub (server_sock_process s cl fcntl_ok add_ok) s := by
  have hg : (task_get s).1.task_buf = s.task_buf := by
    unfold task_get
    simp only
    split_ifs <;> rfl
  unfold server_sock_process
  simp only
  split_ifs
  · exact bufSub_of_eq hg
  · exact bufSub_put_of_eq hg _
  · refine bufSub_put_of_eq ?_ _
    exact hg
  · refine bufSub_put_of_eq ?_ _
    exact hg
  · exact bufSub_of_eq hg

theorem bufLen_main_event {s : State} (h : BufLen s) (be : Bool) (e : Event) :
    BufLen (main_event be s e) := by
  cases e with
  | signal read_ok waits =>
    simp only [main_event, sfd_process]
    split_ifs
    · exact h
    · exact bufLen_wait_loop be waits h
  | listener cl fcntl_ok add_ok =>
    exact bufLen_of_sub h (bufSub_server_sock_process s cl fcntl_ok add_ok)
  | client data_fd epollerr env =>
    simp only [main_event]
    split_ifs
    · exact bufLen_of_sub h (bufSub_task_put s _)
    · exact bufLen_client_process h _ env
    · exact h
    · exact h

theorem bufLen_foldl (be : Bool) : ∀ (evs : List Event) {s : State},
    BufLen s → BufLen (evs.foldl (main_event be) s)
  | [], _, h => h
  | e :: evs, _, h => bufLen_foldl be evs (bufLen_main_event h be e)

theorem bufLen_main_loop (be : Bool) : ∀ (turns : List (List Event)) {s t : State},
    BufLen s → main_loop be s turns = some t → BufLen t
  | [], s, t, h, e => by
    simp only [main_loop, Option.some.injEq] at e
    subst e
    exact h
  | evs :: rest, s, t, h, e => by
    simp only [main_loop] at e
    cases hr : run_events be s evs with
    | none => simp [hr] at e
    | some u =>
      simp only [hr] at e
      rw [main_iteration_eq be s evs] at e
      exact bufLen_main_loop be rest (bufLen_foldl be evs h) e

theorem bufLen_startup : BufLen startup := by
  intro i b hb
  simp only [startup, task_prepare, State.zero] at hb
  split_ifs at hb

theorem pending_of_length (n : Nat) (h1 : 1 ≤ n) (h2 : (n : Int) < REQUESTBUF_SIZE) :
    main_loop false startup
      [[.listener 5 true true],
       [.client 0 false ⟨[.data (List.replicate n 97), .again], true, true, 77⟩]] =
      some { server_sock_process startup 5 true true with
        task_buf := Function.update (server_sock_process startup 5 true true).task_buf 0
          (some (List.replicate n 97)) } ∧
    ({ server_sock_process startup 5 true true with
        task_buf := Function.update (server_sock_process startup 5 true true).task_buf 0
          (some (List.replicate n 97)) } : State).task_buf 0 = some (List.replicate n 97) := by
  refine ⟨?_, by simp only [Function.update_same]⟩
  have r1 : run_events false startup [.listener 5 true true] =
      some (server_sock_process startup 5 true true) := rfl
  have i1 : main_iteration false startup [.listener 5 true true] =
      server_sock_process startup 5 true true := rfl
  have ha : Event.admissible (server_sock_process startup 5 true true)
      (.client 0 false ⟨[.data (List.replicate n 97), .again], true, true, 77⟩) := by
    refine Or.inl ?_
    show (0 : Int) ∈ (server_sock_process startup 5 true true).epoll.map Prod.snd
    decide
  have r2 : run_events false (server_sock_process startup 5 true true)
      [.client 0 false ⟨[.data (List.replicate n 97), .again], true, true, 77⟩] =
      some (main_event false (server_sock_process startup 5 true true)
        (.client 0 false ⟨[.data (List.replicate n 97), .again], true, true, 77⟩)) := by
    simp only [run_events]
    rw [if_pos ha]
  have hp : (server_sock_process startup 5 true true).task_pids 0 ≤ 0 := by decide
  have hb : (server_sock_process startup 5 true true).task_buf 0 = none := by decide
  have e2 : main_event false (server_sock_process startup 5 true true)
      (.client 0 false ⟨[.data (List.replicate n 97), .again], true, true, 77⟩) =
      client_process (server_sock_process startup 5 true true) 0
        ⟨[.data (List.replicate n 97), .again], true, true, 77⟩ := by
    simp [main_event, hp]
  have e3 := client_process_stack_partial (server_sock_process startup 5 true true) 0
    ⟨[], true, true, 77⟩ (List.replicate n 97) hb rfl
    (by intro e; have := congrArg List.length e; simp at this; omega)
    (by simpa using h2) (by simp)
  simp only [main_loop, r1, i1, r2]
  rw [main_iteration_eq]
  simp only [List.foldl_cons, List.foldl_nil]
  rw [e2]
  exact congrArg some e3

/-- C21, as the code has it.  In every state the event loop reaches from
`startup`, a pending buffer has a length in `[1, REQUESTBUF_SIZE]`, so
`buf[len-1]` is an index of the array `buf` and the bytes `len`,
`buf[0 .. len)` end inside `sizeof(struct taskbuf)`.  The block that
`task_allocbuf` allocates is smaller, `REQUESTBUF_SIZE` bytes, and every
length `n` from 1 to `REQUESTBUF_SIZE - 1` is reached: a first chunk of `n`
bytes without NUL is promoted to a pending buffer of length `n`, whose bytes
end beyond the block exactly when `n > REQUESTBUF_SIZE - sizeof(int)`; with
5099 bytes they end at offset 5103 of a block of 5100 bytes. -/
theorem pending_buffer_block :
    (∀ (be : Bool) (turns : List (List Event)) (s : State),
      main_loop be startup turns = some s → ∀ i b, s.task_buf i = some b →
        1 ≤ b.length ∧ (b.length : Int) ≤ REQUESTBUF_SIZE ∧ taskbuf_end b ≤ taskbuf_sizeof) ∧
    task_allocbuf_size < taskbuf_sizeof ∧
    (∀ n : Nat, 1 ≤ n → (n : Int) < REQUESTBUF_SIZE →
      ∃ s b, main_loop false startup
          [[.listener 5 true true],
           [.client 0 false ⟨[.data (List.replicate n 97), .again], true, true, 77⟩]] = some s ∧
        s.task_buf 0 = some b ∧ b.length = n ∧
        (task_allocbuf_size < taskbuf_end b ↔ REQUESTBUF_SIZE - SIZEOF_INT < n)) ∧
    (∃ s b, main_loop false startup
        [[.listener 5 true true],
         [.client 0 false ⟨[.data (List.replicate 5099 97), .again], true, true, 77⟩]] = some s ∧
      s.task_buf 0 = some b ∧ taskbuf_end b = 5103 ∧ task_allocbuf_size = 5100) := by
  have hM : REQUESTBUF_SIZE = 5100 := rfl
  have hS : SIZEOF_INT = 4 := rfl
  refine ⟨?_, by decide, ?_, ?_⟩
  · intro be turns s h i b hb
    obtain ⟨h1, h2⟩ := bufLen_main_loop be turns bufLen_startup h i b hb
    refine ⟨h1, h2, ?_⟩
    unfold taskbuf_end taskbuf_buf_offset taskbuf_sizeof
    omega
  · intro n h1 h2
    refine ⟨_, List.replicate n 97, (pending_of_length n h1 h2).1,
      (pending_of_length n h1 h2).2, List.length_replicate _ _, ?_⟩
    unfold taskbuf_end taskbuf_buf_offset task_allocbuf_size
    simp only [List.length_replicate]
    omega
  · refine ⟨_, List.replicate 5099 97, (pending_of_length 5099 (by omega) (by omega)).1,
      (pending_of_length 5099 (by omega) (by omega)).2, ?_, rfl⟩
    unfold taskbuf_end taskbuf_buf_offset
    simp only [List.length_replicate]
    rfl

end TaskProxy

namespace Awk

/-! # Theorems on `simulate_awk_in_c.c` -/

/-! ## First-occurrence replacement -/

theorem to_int_eq (n : Int) (h1 : -2 ^ 31 ≤ n) (h2 : n < 2 ^ 31) : to_int n = n := by
  unfold to_int
  omega

theorem strstr_some : ∀ (src old : List Nat) (b : Nat), strstr src old = some b →
    (∃ q, src = src.take b ++ old ++ q) ∧ b ≤ src.length ∧
    ∀ p2 q2, src = p2 ++ old ++ q2 → b ≤ p2.length
  | [], old, b, h => by
    simp only [strstr] at h
    split_ifs at h with ho
    cases h
    subst ho
    exact ⟨⟨[], rfl⟩, le_refl _, fun _ _ _ => Nat.zero_le _⟩
  | c :: cs, old, b, h => by
    simp only [strstr] at h
    split_ifs at h with hp
    · cases h
      obtain ⟨q, hq⟩ := hp
      exact ⟨⟨q, by simp [hq]⟩, Nat.zero_le _, fun _ _ _ => Nat.zero_le _⟩
    · cases hs : strstr cs old with
      | none => simp [hs] at h
      | some b1 =>
        simp only [hs, Option.map_some', Option.some.injEq] at h
        subst h
        obtain ⟨⟨q, hq⟩, hle, hmin⟩ := strstr_some cs old b1 hs
        refine ⟨⟨q, ?_⟩, by simp only [List.length_cons]; omega, ?_⟩
        · simp only [List.take_succ_cons, List.cons_append]
          exact congrArg _ hq
        · intro p2 q2 h2
          cases p2 with
          | nil => exact absurd ⟨q2, by simpa using h2.symm⟩ hp
          | cons x p3 =>
            simp only [List.cons_append, List.cons.injEq] at h2
            have := hmin p3 q2 h2.2
            simp only [List.length_cons]
            omega

theorem strstr_none : ∀ (src old : List Nat), strstr src old = none →
    ∀ p q, src ≠ p ++ old ++ q
  | [], old, h, p, q, e => by
    simp only [strstr] at h
    split_ifs at h with ho
    have h1 := congrArg List.length e
    simp only [List.length_nil, List.length_append] at h1
    exact ho (List.length_eq_zero.1 (by omega))
  | c :: cs, old, h, p, q, e => by
    simp only [strstr] at h
    split_ifs at h with hp
    cases hs : strstr cs old with
    | some b1 => simp [hs] at h
    | none =>
      cases p with
      | nil => exact hp ⟨q, by simpa using e.symm⟩
      | cons x p3 =>
        simp only [List.cons_append, List.cons.injEq] at e
        exact strstr_none cs old hs p3 q e.2

theorem cstr_append_nul (s rest : List Nat) (h : 0 ∉ s) : cstr (s ++ 0 :: rest) 0 = s := by
  unfold cstr
  simp only [List.drop_zero]
  induction s with
  | nil => simp
  | cons x xs ih =>
    have hx : x ≠ 0 := fun e => h (by simp [e])
    have hxs : 0 ∉ xs := fun e => h (by simp [e])
    simp only [List.cons_append, List.takeWhile_cons, ne_eq, hx, not_false_eq_true,
      decide_True, if_true, List.cons.injEq, true_and]
    exact ih hxs

theorem memcpy_three (p old new q buf : List Nat) :
    memcpy (memcpy (memcpy buf 0 (p ++ old ++ q) p.length) p.length new new.length)
      (p.length + new.length) (((p ++ old ++ q) ++ [0]).drop (p.length + old.length))
      (q.length + 1) =
    p ++ new ++ q ++ [0] ++ buf.drop (p.length + new.length + q.length + 1) := by
  have e1 : memcpy buf 0 (p ++ old ++ q) p.length = p ++ buf.drop p.length := by
    simp [memcpy, List.append_assoc, List.take_append_eq_append_take]
  have e2 : memcpy (p ++ buf.drop p.length) p.length new new.length =
      p ++ new ++ buf.drop (p.length + new.length) := by
    simp [memcpy, List.take_append_eq_append_take, List.drop_append_eq_append_drop,
      Nat.add_comm]
  have e3 : ((p ++ old ++ q) ++ [0]).drop (p.length + old.length) = q ++ [0] := by
    have : p ++ old ++ q ++ [0] = (p ++ old) ++ (q ++ [0]) := by simp
    rw [this, ← List.length_append, List.drop_left]
  rw [e1, e2, e3]
  have e4 : (p ++ new ++ buf.drop (p.length + new.length)).take (p.length + new.length) =
      p ++ new := by
    rw [← List.length_append, List.take_left]
  have e5 : (p ++ new ++ buf.drop (p.length + new.length)).drop
      (p.length + new.length + (q.length + 1)) =
      buf.drop (p.length + new.length + q.length + 1) := by
    rw [← List.length_append, List.drop_append, List.drop_drop]
    congr 1
  have e6 : (q ++ [0]).take (q.length + 1) = q ++ [0] := by
    apply List.take_of_length_le
    simp
  unfold memcpy
  rw [e4, e5, e6]
  simp

/-- C16.  For strings `src`, `old`, `new` (lengths that fit an `int`) and a
buffer of at least `bufsize` bytes: `awk_str_replace` returns -1 and leaves
`buf` as it is when `strlen(src) - strlen(old) + strlen(new) + 1 > bufsize`;
otherwise it returns 0 and keeps the size of the array, and when `old` occurs
in `src`, with `src = p ++ old ++ q` at the leftmost occurrence, `buf` starts
with `p ++ new ++ q` and a NUL (the bytes after them are untouched), a string
of length `strlen(src) - strlen(old) + strlen(new)`, which is the C string in
`buf` when `src` and `new` hold no NUL; when `old` does not occur it returns 0
and leaves `buf` as it is. -/
theorem str_replace_first (src old new buf : List Nat) (bufsize : Int)
    (hsrc : (src.length : Int) + new.length + 1 < 2 ^ 31) (hold : (old.length : Int) < 2 ^ 31)
    (hbuf : bufsize ≤ buf.length) :
    ((src.length : Int) - old.length + new.length + 1 > bufsize →
      awk_str_replace src old new buf bufsize = (-1, buf)) ∧
    (¬ (src.length : Int) - old.length + new.length + 1 > bufsize →
      (awk_str_replace src old new buf bufsize).1 = 0 ∧
      (awk_str_replace src old new buf bufsize).2.length = buf.length ∧
      (∀ p q, src = p ++ old ++ q →
        (∀ p2 q2, src = p2 ++ old ++ q2 → p.length ≤ p2.length) →
        (awk_str_replace src old new buf bufsize).2 =
          p ++ new ++ q ++ [0] ++ buf.drop (p.length + new.length + q.length + 1) ∧
        ((p ++ new ++ q).length : Int) = src.length - old.length + new.length ∧
        (0 ∉ src → 0 ∉ new →
          cstr (awk_str_replace src old new buf bufsize).2 0 = p ++ new ++ q)) ∧
      ((∀ p q, src ≠ p ++ old ++ q) → awk_str_replace src old new buf bufsize = (0, buf))) := by
  have t1 : to_int src.length = src.length := to_int_eq _ (by omega) (by omega)
  have t2 : to_int old.length = old.length := to_int_eq _ (by omega) (by omega)
  have t3 : to_int new.length = new.length := to_int_eq _ (by omega) (by omega)
  have t4 : to_int ((src.length : Int) - old.length) = src.length - old.length :=
    to_int_eq _ (by omega) (by omega)
  have t5 : to_int ((src.length : Int) - old.length + new.length) =
      src.length - old.length + new.length := to_int_eq _ (by omega) (by omega)
  have t6 : to_int ((src.length : Int) - old.length + new.length + 1) =
      src.length - old.length + new.length + 1 := to_int_eq _ (by omega) (by omega)
  have hdef : awk_str_replace src old new buf bufsize =
      if (src.length : Int) - old.length + new.length + 1 > bufsize then (-1, buf)
      else match strstr src old with
        | none => (0, buf)
        | some b =>
          (0, memcpy (memcpy (memcpy buf 0 src b) b new new.length) (b + new.length)
            ((src ++ [0]).drop (b + old.length))
            ((src.length : Int) + 1 - old.length - b).toNat) := by
    unfold awk_str_replace
    simp only [t1, t2, t3, t4, t5, t6, Int.toNat_ofNat]
  have hfound : ∀ p q, src = p ++ old ++ q →
      (∀ p2 q2, src = p2 ++ old ++ q2 → p.length ≤ p2.length) →
      ¬ (src.length : Int) - old.length + new.length + 1 > bufsize →
      awk_str_replace src old new buf bufsize =
        (0, p ++ new ++ q ++ [0] ++ buf.drop (p.length + new.length + q.length + 1)) := by
    intro p q hpq hmin hc
    rw [hdef, if_neg hc]
    cases hs : strstr src old with
    | none => exact absurd hpq (strstr_none src old hs p q)
    | some b =>
      obtain ⟨⟨q1, hq1⟩, hle, hb⟩ := strstr_some src old b hs
      have h1 := hb p q hpq
      have h2 := hmin _ _ hq1
      rw [List.length_take, min_eq_left hle] at h2
      have hbp : b = p.length := le_antisymm h1 h2
      subst hbp
      have hn : ((src.length : Int) + 1 - old.length - (p.length : Nat)).toNat =
          q.length + 1 := by
        rw [hpq]
        simp only [List.length_append, Nat.cast_add]
        omega
      simp only [hn]
      rw [hpq, memcpy_three]
  refine ⟨fun hc => by rw [hdef, if_pos hc], fun hc => ?_⟩
  have hret : (awk_str_replace src old new buf bufsize).1 = 0 := by
    rw [hdef, if_neg hc]
    cases strstr src old <;> rfl
  refine ⟨hret, ?_, ?_, ?_⟩
  · cases hs : strstr src old with
    | none => rw [hdef, if_neg hc, hs]
    | some b =>
      obtain ⟨⟨q1, hq1⟩, hle, hb⟩ := strstr_some src old b hs
      have hm : ∀ p2 q2, src = p2 ++ old ++ q2 → (src.take b).length ≤ p2.length := by
        intro p2 q2 h2
        rw [List.length_take, min_eq_left hle]
        exact hb p2 q2 h2
      rw [hfound _ _ hq1 hm hc]
      have hl := congrArg List.length hq1
      simp only [List.length_append, List.length_take, min_eq_left hle] at hl
      simp only [List.length_append, List.length_take, min_eq_left hle, List.length_drop,
        List.length_singleton]
      omega
  · intro p q hpq hmin
    refine ⟨by rw [hfound p q hpq hmin hc], ?_, ?_⟩
    · rw [hpq]
      simp only [List.length_append, Nat.cast_add]
      omega
    · intro h0 hn0
      rw [hfound p q hpq hmin hc]
      have : p ++ new ++ q ++ [0] ++ buf.drop (p.length + new.length + q.length + 1) =
          (p ++ new ++ q) ++ 0 :: buf.drop (p.length + new.length + q.length + 1) := by simp
      rw [this]
      apply cstr_append_nul
      intro hm
      rw [hpq] at h0
      simp only [List.mem_append] at hm h0
      rcases hm with (hm | hm) | hm
      · exact h0 (Or.inl (Or.inl hm))
      · exact hn0 hm
      · exact h0 (Or.inr hm)
  · intro hno
    rw [hdef, if_neg hc]
    cases hs : strstr src old with
    | none => rfl
    | some b =>
      obtain ⟨⟨q1, hq1⟩, -, -⟩ := strstr_some src old b hs
      exact absurd hq1 (hno _ _)

/-- C16 on an example: the first "ab" of "xabyab" is replaced by "c" in a
buffer of eight bytes. -/
theorem str_replace_first_witness :
    awk_str_replace [120, 97, 98, 121, 97, 98] [97, 98] [99] [7, 7, 7, 7, 7, 7, 7, 7] 8 =
      (0, [120, 99, 121, 97, 98, 0, 7, 7]) ∧
    awk_str_replace [120, 97, 98, 121, 97, 98] [97, 98] [99] [7, 7, 7, 7, 7, 7, 7, 7] 5 =
      (-1, [7, 7, 7, 7, 7, 7, 7, 7]) := by
  have h := str_replace_first [120, 97, 98, 121, 97, 98] [97, 98] [99]
    [7, 7, 7, 7, 7, 7, 7, 7] 8 (by norm_num) (by norm_num) (by norm_num)
  have h5 := str_replace_first [120, 97, 98, 121, 97, 98] [97, 98] [99]
    [7, 7, 7, 7, 7, 7, 7, 7] 5 (by norm_num) (by norm_num) (by norm_num)
  have hm : ∀ p2 q2 : List Nat, [120, 97, 98, 121, 97, 98] = p2 ++ [97, 98] ++ q2 →
      [120].length ≤ p2.length := by
    intro p2 q2 e
    cases p2 with
    | nil => simp at e
    | cons x xs => simp
  have h2 := (h.2 (by norm_num)).2.2.1 [120] [121, 97, 98] rfl hm
  refine ⟨Prod.ext (h.2 (by norm_num)).1 h2.1, h5.1 (by norm_num)⟩

/-! ## When `fun_end` is called -/

theorem ADD_FIELD_error {fieldnum : Int} {c : Scan} {e : Int}
    (h : ADD_FIELD fieldnum c = .error e) : e = AWK_FIELD_OUTOFRANGE := by
  unfold ADD_FIELD at h
  split_ifs at h
  · cases h; rfl

theorem scan_loop_error (delim : List Nat) (linesize fieldnum : Int) {e : Int} :
    ∀ (n : Nat) (c : Scan), scan_loop delim linesize fieldnum n c = .error e →
      e = AWK_FIELD_OUTOFRANGE
  | 0, c, h => by simp [scan_loop] at h
  | n + 1, c, h => by
    simp only [scan_loop] at h
    split_ifs at h with hc
    cases ha : ADD_FIELD fieldnum c with
    | error e1 =>
      simp only [ha] at h
      cases h
      exact ADD_FIELD_error ha
    | ok c1 =>
      simp only [ha] at h
      exact scan_loop_error delim linesize fieldnum n _ h

theorem split_line_error {delim : List Nat} {linesize fieldnum : Int} {field0_used : Bool}
    {line : List Nat} {e : Int}
    (h : split_line delim linesize fieldnum field0_used line = .error e) :
    e = AWK_FIELD_OUTOFRANGE ∨ e = AWK_LINE_OUTOFRANGE := by
  unfold split_line at h
  simp only at h
  by_cases h1 : delim ≠ []
  · rw [if_pos h1] at h
    by_cases h2 : field0_used = true ∧ ((cstr line 0).length : Int) * 2 > linesize - 2
    · rw [if_pos h2] at h
      cases h
      exact Or.inr rfl
    · rw [if_neg h2] at h
      split at h
      · next e1 hs =>
        cases h
        exact Or.inl (scan_loop_error _ _ _ _ _ hs)
      · next c hs =>
        by_cases h3 : (c.i : Int) = linesize
        · rw [if_pos h3] at h
          cases h
          exact Or.inr rfl
        · rw [if_neg h3] at h
          split at h
          · next e2 ha =>
            cases h
            exact Or.inl (ADD_FIELD_error ha)
          · cases h
  · rw [if_neg h1] at h
    cases h

theorem clean_cons {x : Call} {cs : List Call} (h1 : x.stops = false) (h2 : x.is_end = false)
    (h : Clean cs) : Clean (x :: cs) := by
  intro c hc
  rcases List.mem_cons.1 hc with e | e
  · subst e; exact ⟨h1, h2⟩
  · exact h c e

theorem clean_fgets {D : Type} (c : Loc D) (r : Fgets) : (c.fgets r).calls = c.calls := by
  cases r <;> rfl

theorem shape_awk_finish {D : Type} (st : awk_st D) (c : Loc D) (h : Clean c.calls) :
    Shape st (awk_finish st c) := by
  unfold awk_finish
  cases hf : st.fun_end with
  | none => exact Or.inr (Or.inr ⟨rfl, c.calls, h, Or.inr ⟨hf, rfl⟩⟩)
  | some f =>
    exact Or.inr (Or.inr ⟨rfl, c.calls, h, Or.inl ⟨by rw [hf]; simp, c.row_idx, rfl⟩⟩)

theorem shape_awk_body {D : Type} (regex : List Nat → Option (List Nat → Bool))
    (delim : List Nat) (linesize fieldnum : Int) (field0_used : Bool) (st : awk_st D)
    (c : Loc D) (h : Clean c.calls) :
    (∀ r, awk_body regex delim linesize fieldnum field0_used st c = .inl r → Shape st r) ∧
    (∀ c1, awk_body regex delim linesize fieldnum field0_used st c = .inr c1 →
      Clean c1.calls) := by
  unfold awk_body
  simp only
  by_cases h1 : awk_match regex st (cstr c.line 0) < 0
  · rw [if_pos h1]
    by_cases h2 : awk_match regex st (cstr c.line 0) = AWK_UNMATCH
    · rw [if_pos h2]
      exact ⟨fun r e => (by cases e), fun c1 e => (by cases e; exact h)⟩
    · rw [if_neg h2]
      refine ⟨fun r e => ?_, fun c1 e => (by cases e)⟩
      cases e
      exact Or.inl ⟨by show awk_match regex st (cstr c.line 0) ≠ 0; omega, h⟩
  · rw [if_neg h1]
    by_cases h3 : c.eintr = true
    · rw [if_pos h3]
      exact ⟨fun r e => (by cases e), fun c1 e => (by cases e; exact h)⟩
    · rw [if_neg h3]
      cases hs : split_line delim linesize fieldnum field0_used c.line with
      | error e1 =>
        simp only
        refine ⟨fun r e => ?_, fun c1 e => (by cases e)⟩
        cases e
        refine Or.inl ⟨?_, h⟩
        show e1 ≠ 0
        rcases split_line_error hs with e2 | e2 <;> rw [e2] <;> decide
      | ok v =>
        obtain ⟨line, fields, field_idx⟩ := v
        simp only
        cases ha : st.actions (awk_match regex st (cstr c.line 0)) with
        | none =>
          simp only
          exact ⟨fun r e => (by cases e), fun c1 e => (by cases e; exact h)⟩
        | some f =>
          simp only
          by_cases h4 : (f c.row_idx (field_strings line fields) field_idx c.data).1 ≠
              AWK_CONTINUE
          · rw [if_pos h4]
            refine ⟨fun r e => ?_, fun c1 e => (by cases e)⟩
            cases e
            exact Or.inr (Or.inl ⟨rfl, _, _, rfl, by simpa [Call.stops] using h4, rfl, h⟩)
          · rw [if_neg h4]
            refine ⟨fun r e => (by cases e), fun c1 e => ?_⟩
            cases e
            exact clean_cons (by simpa [Call.stops] using h4) rfl h

theorem shape_awk_loop {D : Type} (regex : List Nat → Option (List Nat → Bool))
    (delim : List Nat) (linesize fieldnum : Int) (field0_used : Bool) (st : awk_st D) :
    ∀ (stream : List Fgets) (c : Loc D) (r : Result D), Clean c.calls →
      awk_loop regex delim linesize fieldnum field0_used st stream c = some r → Shape st r
  | [], c, r, h, e => by
    simp only [awk_loop] at e
    have hb := shape_awk_body regex delim linesize fieldnum field0_used st c h
    split_ifs at e with h1
    · cases hr : awk_body regex delim linesize fieldnum field0_used st c with
      | inl r1 =>
        simp only [hr, Option.some.injEq] at e
        subst e
        exact hb.1 _ hr
      | inr c1 =>
        simp only [hr] at e
        split_ifs at e
        cases e
        exact shape_awk_finish st c1 (hb.2 _ hr)
    · cases e
      exact shape_awk_finish st c h
  | x :: rest, c, r, h, e => by
    simp only [awk_loop] at e
    have hc : Clean (c.fgets x).calls := by rw [clean_fgets]; exact h
    have hb := shape_awk_body regex delim linesize fieldnum field0_used st (c.fgets x) hc
    split_ifs at e with h1
    · cases hr : awk_body regex delim linesize fieldnum field0_used st (c.fgets x) with
      | inl r1 =>
        simp only [hr, Option.some.injEq] at e
        subst e
        exact hb.1 _ hr
      | inr c1 =>
        simp only [hr] at e
        exact shape_awk_loop regex delim linesize fieldnum field0_used st rest c1 r
          (hb.2 _ hr) e
    · cases e
      exact shape_awk_finish st _ hc

theorem shape_awk__ {D : Type} (regex : List Nat → Option (List Nat → Bool))
    (stream : List Fgets) (delim line : List Nat) (linesize : Int) (field0_marked : Bool)
    (fieldnum : Int) (st : awk_st D) (d : D) (r : Result D)
    (h : awk__ regex stream delim line linesize field0_marked fieldnum st d = some r) :
    Shape st r := by
  unfold awk__ at h
  by_cases h1 : fieldnum < 1
  · rw [if_pos h1] at h
    cases h
    exact Or.inl ⟨by show AWK_FIELD_OUTOFRANGE ≠ AWK_OK; decide, fun c hc => by cases hc⟩
  · rw [if_neg h1] at h
    cases hf : st.fun_begin with
    | none =>
      simp only [hf, ne_eq, not_true_eq_false, if_false] at h
      exact shape_awk_loop regex delim linesize fieldnum _ st stream _ r
        (fun c hc => by cases hc) h
    | some f =>
      simp only [hf] at h
      by_cases h2 : (f d).1 ≠ AWK_CONTINUE
      · rw [if_pos h2] at h
        cases h
        exact Or.inr (Or.inl ⟨rfl, _, [], rfl, by simpa [Call.stops] using h2, rfl,
          fun c hc => by cases hc⟩)
      · rw [if_neg h2] at h
        refine shape_awk_loop regex delim linesize fieldnum _ st stream _ r ?_ h
        exact clean_cons (by simpa [Call.stops] using h2) rfl (fun c hc => by cases hc)

theorem countP_is_end_clean {cs : List Call} (h : Clean cs) : cs.countP Call.is_end = 0 := by
  rw [List.countP_eq_zero]
  intro c hc
  rw [(h c hc).2]
  decide

/-- C15, as the code has it.  For every stream, every choice of callbacks and
every run of `awk__` that returns: when `fun_begin` or a line action returned
a value other than `AWK_CONTINUE`, `awk__` returns `AWK_OK` and `fun_end` was
not called; `fun_end` is called once when `awk__` returns `AWK_OK`, no
callback returned such a value and `fun_end` is not NULL; it is never called
twice. -/
theorem fun_end_calls {D : Type} (regex : List Nat → Option (List Nat → Bool))
    (stream : List Fgets) (delim line : List Nat) (linesize : Int) (field0_marked : Bool)
    (fieldnum : Int) (st : awk_st D) (d : D) (r : Result D)
    (h : awk__ regex stream delim line linesize field0_marked fieldnum st d = some r) :
    ((∃ c ∈ r.calls, c.stops = true) → r.ret = AWK_OK ∧ r.calls.countP Call.is_end = 0) ∧
    (r.ret = AWK_OK → (∀ c ∈ r.calls, c.stops = false) → st.fun_end ≠ none →
      r.calls.countP Call.is_end = 1) ∧
    r.calls.countP Call.is_end ≤ 1 := by
  rcases shape_awk__ regex stream delim line linesize field0_marked fieldnum st d r h with
    ⟨h1, h2⟩ | ⟨h1, x, cs, h2, h3, h4, h5⟩ | ⟨h1, cs, h2, ⟨h3, n, h4⟩ | ⟨h3, h4⟩⟩
  · refine ⟨fun ⟨c, hc, hs⟩ => ?_, fun e => absurd e h1, ?_⟩
    · rw [(h2 c hc).1] at hs
      cases hs
    · rw [countP_is_end_clean h2]
      exact Nat.zero_le _
  · have hz : r.calls.countP Call.is_end = 0 := by
      rw [h2, List.countP_cons, countP_is_end_clean h5, h4]
      rfl
    refine ⟨fun _ => ⟨h1, hz⟩, fun _ hn => ?_, by omega⟩
    have := hn x (by rw [h2]; exact List.mem_cons_self _ _)
    rw [h3] at this
    cases this
  · have hz : r.calls.countP Call.is_end = 1 := by
      rw [h4, List.countP_cons, countP_is_end_clean h2]
      rfl
    refine ⟨fun ⟨c, hc, hs⟩ => ?_, fun _ _ _ => hz, by omega⟩
    rw [h4] at hc
    rcases List.mem_cons.1 hc with e | e
    · subst e
      cases hs
    · rw [(h2 c e).1] at hs
      cases hs
  · rw [h4]
    refine ⟨fun ⟨c, hc, hs⟩ => ?_, fun _ _ hn => absurd h3 hn, ?_⟩
    · rw [(h2 c hc).1] at hs
      cases hs
    · rw [countP_is_end_clean h2]
      exact Nat.zero_le _

/-- C15 on two runs with a `fun_end` that counts its calls in the user data:
`fun_begin` returns `AWK_BREAK`; the default action returns `AWK_BREAK` on the
line "a:b".  Both return `AWK_OK` with the count still 0. -/
theorem fun_end_calls_witness :
    awk__ (fun _ => none) [.line [97, 58, 98, 10]] [58] (List.replicate 16 0) 16 true 10
        (⟨0, fun _ => [], some (fun d => (AWK_BREAK, d)), some (fun _ _ _ d => d + 1),
          fun _ => none⟩ : awk_st Nat) 0 = some ⟨AWK_OK, 0, [Call.fun_begin AWK_BREAK]⟩ ∧
    [Call.fun_begin AWK_BREAK].countP Call.is_end = 0 ∧
    awk__ (fun _ => none) [.line [97, 58, 98, 10]] [58] (List.replicate 16 0) 16 true 10
        (⟨0, fun _ => [], none, some (fun _ _ _ d => d + 1),
          fun _ => some (fun _ _ _ d => (AWK_BREAK, d))⟩ : awk_st Nat) 0 =
      some ⟨AWK_OK, 0, [Call.fun_action 0 0 AWK_BREAK]⟩ ∧
    [Call.fun_action 0 0 AWK_BREAK].countP Call.is_end = 0 := by
  have h1 : awk__ (fun _ => none) [.line [97, 58, 98, 10]] [58] (List.replicate 16 0) 16 true 10
      (⟨0, fun _ => [], some (fun d => (AWK_BREAK, d)), some (fun _ _ _ d => d + 1),
        fun _ => none⟩ : awk_st Nat) 0 = some ⟨AWK_OK, 0, [Call.fun_begin AWK_BREAK]⟩ := rfl
  have h2 : awk__ (fun _ => none) [.line [97, 58, 98, 10]] [58] (List.replicate 16 0) 16 true 10
      (⟨0, fun _ => [], none, some (fun _ _ _ d => d + 1),
        fun _ => some (fun _ _ _ d => (AWK_BREAK, d))⟩ : awk_st Nat) 0 =
      some ⟨AWK_OK, 0, [Call.fun_action 0 0 AWK_BREAK]⟩ := rfl
  exact ⟨h1, ((fun_end_calls _ _ _ _ _ _ _ _ _ _ h1).1 ⟨_, List.mem_cons_self _ _, rfl⟩).2,
    h2, ((fun_end_calls _ _ _ _ _ _ _ _ _ _ h2).1 ⟨_, List.mem_cons_self _ _, rfl⟩).2⟩

/-! ## The value `awk_` returns -/

/-- C17, as the code has it.  For every run of `awk_` on a file that opens
and that returns: the value is not negative, so it is never `AWK_REGCOMP` and
`awk_error` of it is never "regcomp failed"; and when `awk__` returned a
negative value, as it does with `AWK_REGCOMP` from `awk_match`, `awk_` returns
`AWK_OPEN_FAILED`, which `awk_error` maps to "open file failed". -/
theorem awk_error_code {D : Type} (regex : List Nat → Option (List Nat → Bool))
    (stream : List Fgets) (delim line : List Nat) (linesize : Int) (field0_marked : Bool)
    (fieldnum : Int) (st : awk_st D) (d : D) (r2 : Result D)
    (h : awk_ regex (some stream) delim line linesize field0_marked fieldnum st d = some r2) :
    0 ≤ r2.ret ∧ r2.ret ≠ AWK_REGCOMP ∧ awk_error r2.ret ≠ "regcomp failed" ∧
    (∀ r, awk__ regex stream delim line linesize field0_marked fieldnum st d = some r →
      r.ret < 0 → r2.ret = AWK_OPEN_FAILED ∧ awk_error r2.ret = "open file failed") := by
  unfold awk_ at h
  simp only at h
  cases hr : awk__ regex stream delim line linesize field0_marked fieldnum st d with
  | none => simp [hr] at h
  | some r =>
    simp only [hr] at h
    have h0 : 0 ≤ r2.ret := by
      split_ifs at h with hneg
      · cases h
        show (0 : Int) ≤ AWK_OPEN_FAILED
        decide
      · cases h
        omega
    refine ⟨h0, fun e => ?_, ?_, ?_⟩
    · rw [e] at h0
      exact absurd h0 (by decide)
    · unfold awk_error
      split_ifs with h1 h2 h3 h4
      · decide
      · decide
      · decide
      · rw [h4] at h0
        exact absurd h0 (by decide)
      · decide
    · intro r1 e hneg
      cases e
      rw [if_pos hneg] at h
      cases h
      exact ⟨rfl, rfl⟩

/-- C17 on a run: the only pattern is "(", which `regcomp` rejects, and the
file has the line "a".  `awk_match` returns `AWK_REGCOMP`, `awk__` returns it,
`awk_` returns `AWK_OPEN_FAILED` and the message is "open file failed". -/
theorem awk_error_code_witness :
    awk_match (fun p => if p = [40] then none else some (fun _ => true))
        (⟨1, fun _ => [40], none, none, fun _ => none⟩ : awk_st Nat) [97, 10] = AWK_REGCOMP ∧
    awk__ (fun p => if p = [40] then none else some (fun _ => true)) [.line [97, 10]] [58]
        (List.replicate 16 0) 16 true 10
        (⟨1, fun _ => [40], none, none, fun _ => none⟩ : awk_st Nat) 0 =
      some ⟨AWK_REGCOMP, 0, []⟩ ∧
    awk_ (fun p => if p = [40] then none else some (fun _ => true)) (some [.line [97, 10]]) [58]
        (List.replicate 16 0) 16 true 10
        (⟨1, fun _ => [40], none, none, fun _ => none⟩ : awk_st Nat) 0 =
      some ⟨AWK_OPEN_FAILED, 0, []⟩ ∧
    awk_error AWK_OPEN_FAILED = "open file failed" ∧
    awk_error AWK_REGCOMP = "regcomp failed" := by
  have h : awk_ (fun p => if p = [40] then none else some (fun _ => true))
      (some [.line [97, 10]]) [58] (List.replicate 16 0) 16 true 10
      (⟨1, fun _ => [40], none, none, fun _ => none⟩ : awk_st Nat) 0 =
      some ⟨AWK_OPEN_FAILED, 0, []⟩ := rfl
  exact ⟨rfl, rfl, h, ((awk_error_code _ _ _ _ _ _ _ _ _ _ h).2.2.2 _ rfl (by decide)).2, rfl⟩

end Awk
